import Mathlib

set_option maxHeartbeats 1000000

namespace Ahocorapy

/-! # Shallow embedding of ahocorapy (src/ahocorapy/keywordtree.py)

The Python implementation stores the automaton as a graph of `State` objects.
We embed it as an arena: a list of state records indexed by the state's
`identifier`.  Every `State` object the Python code ever creates receives the
identifier `self._counter` at creation time and, on every path through the
public API, that identifier equals the position the object would receive in the
dense serialization produced by `__getstate__`; object identity therefore
coincides with the arena index, and Python identity tests (`state != self._zero_state`,
`traversed.transitions[state.symbol] != state`) become index comparisons.

Python dicts are embedded as association lists in insertion order; all writing
sites in the source only ever add a key that is currently absent, so keys stay
distinct and lookup of the first binding agrees with dict lookup.

Python loops without a structural termination argument (`while True` in
`search_lss`, the work-list loops) are given fuel and return `Option`;
`none` models non-termination or a Python exception raised mid-loop
(AttributeError/TypeError/IndexError on malformed trees).  All claims concern
runs that complete, i.e. results of the form `some`.
-/

/-- Association-list lookup modelling a Python dict lookup (first binding
wins; every construction site below only adds a currently-absent key, so keys
stay distinct and this agrees with dict semantics). -/
def tlookup : List (Char × Nat) → Char → Option Nat
  | [], _ => none
  | (c, v) :: rest, d => if c = d then some v else tlookup rest d

/-- One node of the keyword trie, mirroring `class State` of keywordtree.py.
The `identifier` field is represented by the node's index in the `states`
arena of the `KeywordTree` below. -/
structure State where
  symbol : Option Char
  success : Bool
  transitions : List (Char × Nat)
  parent : Option Nat
  matched_keyword : Option (List Char)
  longest_strict_suffix : Option Nat
deriving DecidableEq

/-- The record a freshly constructed `State(identifier)` carries (also used as
an out-of-range default for arena reads; in-range accesses are the only ones
the Python code can perform on trees built through the API). -/
def dfltState : State :=
  { symbol := none, success := false, transitions := [], parent := none,
    matched_keyword := none, longest_strict_suffix := none }

instance : Inhabited State := ⟨dfltState⟩

/-- `class KeywordTree`: the arena of states (index 0 is `_zero_state`),
`_counter`, `_finalized` and `_case_insensitive`. -/
structure KeywordTree where
  states : List State
  counter : Nat
  finalized : Bool
  case_insensitive : Bool
deriving DecidableEq

/-- Read the state with a given identifier from the arena. -/
def getS (t : KeywordTree) (i : Nat) : State := t.states.getD i dfltState

/-- `KeywordTree.__init__`. -/
def KeywordTree.init (case_insensitive : Bool) : KeywordTree :=
  { states := [dfltState], counter := 1, finalized := false,
    case_insensitive := case_insensitive }

/-- Overwrite one node's `longest_strict_suffix` field. -/
def setLss (t : KeywordTree) (i : Nat) (v : Nat) : KeywordTree :=
  { t with
    states := t.states.set i ({ getS t i with longest_strict_suffix := some v }) }

/-- Overwrite one node's `transitions` field. -/
def setTrans (t : KeywordTree) (i : Nat) (ts : List (Char × Nat)) : KeywordTree :=
  { t with states := t.states.set i ({ getS t i with transitions := ts }) }

/-- The `for char in keyword` loop of `KeywordTree.add`: walk/extend the trie
from `cur`, creating a node (with identifier `_counter`) whenever the needed
transition is absent.  Returns the updated tree and the terminal identifier. -/
def addWalk : KeywordTree → Nat → List Char → KeywordTree × Nat
  | t, cur, [] => (t, cur)
  | t, cur, c :: cs =>
    match tlookup (getS t cur).transitions c with
    | some nxt => addWalk t nxt cs
    | none =>
      let nid := t.counter
      let newState : State :=
        { symbol := some c, success := false, transitions := [],
          parent := some cur, matched_keyword := none,
          longest_strict_suffix := none }
      let t1 : KeywordTree :=
        { t with
          states :=
            (t.states.set cur
              ({ getS t cur with
                 transitions := (getS t cur).transitions ++ [(c, nid)] })) ++ [newState],
          counter := t.counter + 1 }
      addWalk t1 nid cs

/-- `KeywordTree.add`.  The returned pair is the tree state after the call and
the message of the `ValueError` the call raises, if any (the raise happens
before any mutation, so the tree is returned unchanged in that case). -/
def KeywordTree.add (t : KeywordTree) (keyword : List Char) :
    KeywordTree × Option String :=
  if t.finalized then
    (t, some "KeywordTree has been finalized. No more keyword additions allowed")
  else
    let kw := if t.case_insensitive then keyword.map Char.toLower else keyword
    if kw.length ≤ 0 then (t, none)
    else
      let wr := addWalk t 0 kw
      let term : State :=
        { getS wr.1 wr.2 with success := true, matched_keyword := some keyword }
      ({ wr.1 with states := wr.1.states.set wr.2 term }, none)

/-- The `while True` loop of `KeywordTree.search_lss`, walking `traversed`
along resolved suffix links.  Returns the identifier the loop assigns to
`state.longest_strict_suffix`; `none` models running out of fuel or the
AttributeError a `None` suffix link would raise. -/
def wloop (t : KeywordTree) (stId : Nat) (osym : Option Char) :
    Nat → Nat → Option Nat
  | 0, _ => none
  | fuel + 1, trav =>
    let hit := match osym with
      | some c => tlookup (getS t trav).transitions c
      | none => none
    match hit with
    | some tgt =>
      if tgt ≠ stId then some tgt
      else if trav = 0 then some 0
      else
        match (getS t trav).longest_strict_suffix with
        | none => none
        | some tr2 => wloop t stId osym fuel tr2
    | none =>
      if trav = 0 then some 0
      else
        match (getS t trav).longest_strict_suffix with
        | none => none
        | some tr2 => wloop t stId osym fuel tr2

/-- The merge loop at the end of `KeywordTree.search_lss`: for every symbol in
`suffix.transitions` (argument `srcs`) absent from the state's own transitions,
and provided `suffix` is not the zero state, add the binding. -/
def mergeInto (suffixId : Nat) : List (Char × Nat) → List (Char × Nat) → List (Char × Nat)
  | acc, [] => acc
  | acc, (c, v) :: rest =>
    mergeInto suffixId
      (if tlookup acc c = none ∧ suffixId ≠ 0 then acc ++ [(c, v)] else acc) rest

/-- `KeywordTree.search_lss`, fuelled.  Resolves `stId`'s suffix link via
`wloop`, recursively resolves the found suffix when needed, then merges the
suffix's transitions into the node's own transitions. -/
def search_lss : Nat → KeywordTree → Nat → Option KeywordTree
  | 0, _, _ => none
  | fuel + 1, t, stId =>
    match (getS t stId).longest_strict_suffix with
    | some _ => some t
    | none =>
      match (getS t stId).parent with
      | none => none
      | some p =>
        match (getS t p).longest_strict_suffix with
        | none => none
        | some trav0 =>
          match wloop t stId (getS t stId).symbol (t.states.length + 1) trav0 with
          | none => none
          | some r =>
            let t1 := setLss t stId r
            match (if (getS t1 r).longest_strict_suffix = none
                   then search_lss fuel t1 r else some t1) with
            | none => none
            | some t2 =>
              some (setTrans t2 stId
                (mergeInto r (getS t2 stId).transitions (getS t2 r).transitions))

/-- The `for child in state.transitions.values()` body of
`search_lss_for_children`: run `search_lss` on every child not yet processed
and push it on the work list (pushing via `cons` so that the head of the list
is the element Python's `list.pop()` removes). -/
def slfcChildren (fuel : Nat) :
    KeywordTree → List Nat → List Nat → List Nat → Option (KeywordTree × List Nat)
  | t, _, stack, [] => some (t, stack)
  | t, processed, stack, ch :: cs =>
    if ch ∈ processed then slfcChildren fuel t processed stack cs
    else
      match search_lss fuel t ch with
      | none => none
      | some t1 => slfcChildren fuel t1 processed (ch :: stack) cs

/-- `KeywordTree.search_lss_for_children`: the work-list loop.  Returns the
tree together with the final `processed` set (which the Python method keeps
internal; `finalize` discards it). -/
def search_lss_for_children :
    Nat → KeywordTree → List Nat → List Nat → Option (KeywordTree × List Nat)
  | 0, _, _, _ => none
  | fuel + 1, t, processed, toProcess =>
    match toProcess with
    | [] => some (t, processed)
    | st :: rest =>
      let processed1 := st :: processed
      match slfcChildren (fuel + 1) t processed1 rest
          ((getS t st).transitions.map (·.2)) with
      | none => none
      | some (t1, stack1) => search_lss_for_children fuel t1 processed1 stack1

/-- Fuel with which `finalize` runs its work-list; generous enough for every
tree the API can build. -/
def finFuel (t : KeywordTree) : Nat := (t.states.length + 2) ^ 3

/-- `KeywordTree.finalize`.  `Except.error` is the `ValueError` on a second
call; `.ok none` models a run that does not complete. -/
def KeywordTree.finalize (t : KeywordTree) : Except String (Option KeywordTree) :=
  if t.finalized then .error "KeywordTree has already been finalized."
  else
    let t1 := setLss t 0 0
    match search_lss_for_children (finFuel t) t1 [] [0] with
    | none => .ok none
    | some (t2, _) => .ok (some { t2 with finalized := true })

/-- The advance step of `KeywordTree.search_all`:
`current_state.transitions.get(symbol, zero.transitions.get(symbol, zero))`. -/
def gotoStep (t : KeywordTree) (cur : Nat) (c : Char) : Nat :=
  match tlookup (getS t cur).transitions c with
  | some s => s
  | none =>
    match tlookup (getS t 0).transitions c with
    | some s => s
    | none => 0

/-- The `while state != self._zero_state` output loop of `search_all`:
collect `(matched_keyword, idx + 1 - len(matched_keyword))` for every success
state on the suffix chain.  `none` models the exception a `None` suffix link or
a `None` matched keyword would raise. -/
def outWalk (t : KeywordTree) : Nat → Nat → Nat → Option (List (List Char × Int))
  | 0, _, _ => none
  | fuel + 1, st, idx =>
    if st = 0 then some []
    else
      match (if (getS t st).success then
               match (getS t st).matched_keyword with
               | some kw => some [(kw, (idx : Int) + 1 - (kw.length : Int))]
               | none => none
             else some ([] : List (List Char × Int))),
            (getS t st).longest_strict_suffix with
      | some here, some nxt => (outWalk t fuel nxt idx).map (here ++ ·)
      | _, _ => none

/-- The `for idx, symbol in enumerate(text)` scan of `search_all`. -/
def scanLoop (t : KeywordTree) : Nat → Nat → List Char → Option (List (List Char × Int))
  | _, _, [] => some []
  | cur, idx, c :: rest =>
    let cur1 := gotoStep t cur c
    match outWalk t (t.states.length + 1) cur1 idx with
    | none => none
    | some out => (scanLoop t cur1 (idx + 1) rest).map (out ++ ·)

/-- `KeywordTree.search_all`.  `Except.error` is the `ValueError` raised when
the tree is not finalized; the generator's full output is returned as a list
(`none` for a run that raises mid-scan, which API-built trees never do). -/
def KeywordTree.search_all (t : KeywordTree) (text : List Char) :
    Except String (Option (List (List Char × Int))) :=
  if !t.finalized then
    .error "KeywordTree has not been finalized. No search allowed. Call finalize() first."
  else
    let text1 := if t.case_insensitive then text.map Char.toLower else text
    .ok (scanLoop t 0 0 text1)

/-- `KeywordTree.search_one`: first result of `search_all`, or `None`. -/
def KeywordTree.search_one (t : KeywordTree) (text : List Char) :
    Except String (Option (Option (List Char × Int))) :=
  match t.search_all text with
  | .error e => .error e
  | .ok none => .ok none
  | .ok (some l) => .ok (some l.head?)

/-- `KeywordTree.search`: alias for `search_one`. -/
def KeywordTree.search (t : KeywordTree) (text : List Char) := t.search_one text

/-- Build a tree by inserting the given keywords in order (discarding error
messages; on a fresh tree `add` never raises). -/
def buildTree (ci : Bool) (kws : List (List Char)) : KeywordTree :=
  kws.foldl (fun t k => (t.add k).1) (KeywordTree.init ci)

/-! ## Snapshot (de)serialization: `__getstate__` / `__setstate__` -/

/-- One entry of the dense state list `__getstate__` produces. -/
structure SerState where
  symbol : Option Char
  success : Bool
  parent : Option Nat
  matched_keyword : Option (List Char)
  longest_strict_suffix : Option Nat
  transitions : List (Char × Nat)
deriving DecidableEq

/-- The dictionary `__getstate__` returns. -/
structure TreeSnapshot where
  case_insensitive : Bool
  finalized : Bool
  counter : Nat
  states : List (Option SerState)
deriving DecidableEq

/-- Serialize one node (the dictionary built per state in `__getstate__`;
child references by identifier). -/
def serOf (t : KeywordTree) (i : Nat) : SerState :=
  { symbol := (getS t i).symbol, success := (getS t i).success,
    parent := (getS t i).parent,
    matched_keyword := (getS t i).matched_keyword,
    longest_strict_suffix := (getS t i).longest_strict_suffix,
    transitions := (getS t i).transitions }

/-- The `while todo_list` loop of `__getstate__`: pop a state, store its
serialization at its identifier, push every child whose slot is still empty
(or out of range).  `none` models fuel exhaustion or the IndexError a store at
an out-of-range identifier would raise. -/
def gsLoop (t : KeywordTree) : Nat → List (Option SerState) → List Nat →
    Option (List (Option SerState))
  | 0, _, _ => none
  | _ + 1, acc, [] => some acc
  | fuel + 1, acc, st :: todo =>
    if st < acc.length then
      let acc1 := acc.set st (some (serOf t st))
      let todo1 := ((getS t st).transitions.map (·.2)).foldl
        (fun stk ch =>
          if acc1.length ≤ ch ∨ acc1.getD ch none = none then ch :: stk else stk)
        todo
      gsLoop t fuel acc1 todo1
    else none

/-- `KeywordTree.__getstate__`. -/
def KeywordTree.getstate (t : KeywordTree) : Option TreeSnapshot :=
  (gsLoop t ((t.states.length + 2) ^ 3) (List.replicate t.counter none) [0]).map
    fun sl =>
      { case_insensitive := t.case_insensitive, finalized := t.finalized,
        counter := t.counter, states := sl }

/-- Deserialize one entry back into a `State` record (the work of the two
loops of `__setstate__` for one index). -/
def deserOf (s : SerState) : State :=
  { symbol := s.symbol, success := s.success, transitions := s.transitions,
    parent := s.parent, matched_keyword := s.matched_keyword,
    longest_strict_suffix := s.longest_strict_suffix }

/-- The crash-freedom conditions of `__setstate__`: every entry present (a
`None` entry raises TypeError on field access), every referenced identifier in
range (an out-of-range list index raises IndexError), and a state with
identifier 0 exists (`states[0]` on the last line). -/
def snapOk (snap : TreeSnapshot) : Bool :=
  snap.states.all (fun os =>
      match os with
      | none => false
      | some s =>
        s.longest_strict_suffix.all (· < snap.states.length) &&
        s.parent.all (· < snap.states.length) &&
        s.transitions.all (·.2 < snap.states.length)) &&
  decide (0 < snap.states.length)

/-- `KeywordTree.__setstate__` applied to a fresh instance; `none` models the
exceptions on malformed snapshots. -/
def KeywordTree.setstate (snap : TreeSnapshot) : Option KeywordTree :=
  if snapOk snap then
    some { states := snap.states.map (fun os => (os.map deserOf).getD dfltState),
           counter := snap.counter, finalized := snap.finalized,
           case_insensitive := snap.case_insensitive }
  else none

/-! ## The alternate implementation (src/ahocorapy/reimplement_keywordtree.py)

`class KdTree` re-implements the automaton.  Its `find_failure` contains a
variable-shadowing defect: the merge loop `for symbol, node in
node.failure.transitions.items()` rebinds `node` to each child of the failure
target, so the body `node.transitions[symbol] = node` installs a self-loop on
that child instead of copying the transition into the node being processed.
Its `search_all` only inspects the `success` flag of the immediately reached
child, never walks the failure chain, does not advance the current node on a
successful match, and never falls back on a missing transition.  We embed all
of this faithfully. -/

/-- One node of `KdTree` (`class State` of reimplement_keywordtree.py);
`state_id` is the arena index. -/
structure KdState where
  symbol : Option Char
  success : Bool
  transitions : List (Char × Nat)
  parent : Option Nat
  keyword : Option (List Char)
  failure : Option Nat
deriving DecidableEq

def dfltKdState : KdState :=
  { symbol := none, success := false, transitions := [], parent := none,
    keyword := none, failure := none }

/-- `class KdTree`. -/
structure KdTree where
  states : List KdState
  counter : Nat
  finalized : Bool
  case_sensitive : Bool
deriving DecidableEq

def getK (t : KdTree) (i : Nat) : KdState := t.states.getD i dfltKdState

/-- `KdTree.__init__`. -/
def KdTree.init (case_sensitive : Bool) : KdTree :=
  { states := [dfltKdState], counter := 1, finalized := false,
    case_sensitive := case_sensitive }

/-- The character walk of `KdTree.add_keyword` (same trie-extension logic as
the canonical `add`). -/
def kdAddWalk : KdTree → Nat → List Char → KdTree × Nat
  | t, cur, [] => (t, cur)
  | t, cur, c :: cs =>
    match tlookup (getK t cur).transitions c with
    | some nxt => kdAddWalk t nxt cs
    | none =>
      let nid := t.counter
      let newNode : KdState :=
        { symbol := some c, success := false, transitions := [],
          parent := some cur, keyword := none, failure := none }
      let t1 : KdTree :=
        { t with
          states :=
            (t.states.set cur
              ({ getK t cur with
                 transitions := (getK t cur).transitions ++ [(c, nid)] })) ++ [newNode],
          counter := t.counter + 1 }
      kdAddWalk t1 nid cs

/-- `KdTree.add_keyword`. -/
def KdTree.add_keyword (t : KdTree) (keyword : List Char) :
    KdTree × Option String :=
  if t.finalized then (t, some "already finalized, no more keyword additions")
  else
    let kw := if !t.case_sensitive then keyword.map Char.toLower else keyword
    let wr := kdAddWalk t 0 kw
    let term : KdState :=
      { getK wr.1 wr.2 with success := true, keyword := some keyword }
    ({ wr.1 with states := wr.1.states.set wr.2 term }, none)

def setKFailure (t : KdTree) (i : Nat) (v : Nat) : KdTree :=
  { t with states := t.states.set i ({ getK t i with failure := some v }) }

def setKTrans (t : KdTree) (i : Nat) (ts : List (Char × Nat)) : KdTree :=
  { t with states := t.states.set i ({ getK t i with transitions := ts }) }

/-- The `while True` loop of `KdTree.find_failure`.  `some (some tgt)` is the
first break (failure target found, after which the shadowed merge loop runs);
`some none` is the zero-state break. -/
def kdWloop (t : KdTree) (nodeId : Nat) (osym : Option Char) :
    Nat → Nat → Option (Option Nat)
  | 0, _ => none
  | fuel + 1, trav =>
    let hit := match osym with
      | some c => tlookup (getK t trav).transitions c
      | none => none
    match hit with
    | some tgt =>
      if tgt ≠ nodeId then some (some tgt)
      else if trav = 0 then some none
      else
        match (getK t trav).failure with
        | none => none
        | some tr2 => kdWloop t nodeId osym fuel tr2
    | none =>
      if trav = 0 then some none
      else
        match (getK t trav).failure with
        | none => none
        | some tr2 => kdWloop t nodeId osym fuel tr2

/-- The shadowed merge loop of `KdTree.find_failure`: for each pair
`(symbol, child)` of the failure target's transitions, the loop variable
`node` shadows the function argument, so the body adds the self-loop
`child.transitions[symbol] = child` whenever `symbol` is absent from the
child's own transitions. -/
def kdBuggyMerge : KdTree → List (Char × Nat) → KdTree
  | t, [] => t
  | t, (sym, child) :: rest =>
    let t1 :=
      if tlookup (getK t child).transitions sym = none
      then setKTrans t child ((getK t child).transitions ++ [(sym, child)])
      else t
    kdBuggyMerge t1 rest

/-- `KdTree.find_failure` (no recursion in the source; only the while loop). -/
def KdTree.find_failure (t : KdTree) (nodeId : Nat) : Option KdTree :=
  if (getK t nodeId).failure ≠ none then some t
  else
    match (getK t nodeId).parent with
    | none => none
    | some p =>
      match (getK t p).failure with
      | none => none
      | some trav0 =>
        match kdWloop t nodeId (getK t nodeId).symbol (t.states.length + 1) trav0 with
        | none => none
        | some none => some (setKFailure t nodeId 0)
        | some (some tgt) =>
          let t1 := setKFailure t nodeId tgt
          some (kdBuggyMerge t1 (getK t1 tgt).transitions)

/-- The child loop of `KdTree.find_failure_for_children`: `find_failure` every
child and push it (unconditionally) on the work list. -/
def kdChildren (t : KdTree) : List Nat → List Nat → Option (KdTree × List Nat)
  | [], stack => some (t, stack)
  | ch :: cs, stack =>
    match t.find_failure ch with
    | none => none
    | some t1 => kdChildren t1 cs (ch :: stack)

/-- `KdTree.find_failure_for_children`: pop, skip if already processed,
otherwise handle all children. -/
def kdFFC : Nat → KdTree → List Nat → List Nat → Option KdTree
  | 0, _, _, _ => none
  | fuel + 1, t, processed, stack =>
    match stack with
    | [] => some t
    | st :: rest =>
      if st ∈ processed then kdFFC fuel t processed rest
      else
        match kdChildren t ((getK t st).transitions.map (·.2)) rest with
        | none => none
        | some (t1, stack1) => kdFFC fuel t1 (st :: processed) stack1

/-- `KdTree.finalize`. -/
def KdTree.finalize (t : KdTree) : Except String (Option KdTree) :=
  if t.finalized then .error "already finalized"
  else
    let t1 := setKFailure t 0 0
    match kdFFC ((t.states.length + 2) ^ 3) t1 [] [0] with
    | none => .ok none
    | some t2 => .ok (some { t2 with finalized := true })

/-- The scan loop of `KdTree.search_all`: on a hit whose child is a success
state, yield and keep the current node unchanged; on a non-success hit, move
to the child; on a miss, stay. -/
def kdScan (t : KdTree) : Nat → Nat → List Char → Option (List (List Char × Int))
  | _, _, [] => some []
  | cur, idx, c :: rest =>
    match tlookup (getK t cur).transitions c with
    | some nxt =>
      if (getK t nxt).success then
        match (getK t nxt).keyword with
        | none => none
        | some kw =>
          (kdScan t cur (idx + 1) rest).map ((kw, (idx : Int) + 1 - (kw.length : Int)) :: ·)
      else kdScan t nxt (idx + 1) rest
    | none => kdScan t cur (idx + 1) rest

/-- `KdTree.search_all`. -/
def KdTree.search_all (t : KdTree) (text : List Char) :
    Except String (Option (List (List Char × Int))) :=
  if !t.finalized then .error "tree not finalized, finalize before searching"
  else
    let text1 := if !t.case_sensitive then text.map Char.toLower else text
    .ok (kdScan t 0 0 text1)

/-- Build a `KdTree` by inserting the given keywords in order. -/
def buildKdTree (cs : Bool) (kws : List (List Char)) : KdTree :=
  kws.foldl (fun t k => (t.add_keyword k).1) (KdTree.init cs)

/-! ## Verification vocabulary: paths, tree edges, invariants

Nothing below changes the embedded code; these definitions name the
properties the proofs track. -/

/-- Case folding as `add`/`search_all` perform it. -/
def foldW (ci : Bool) (w : List Char) : List Char :=
  if ci then w.map Char.toLower else w

/-- Fuelled path: the word spelled along parent links from the root to node
`i` (a node's `parent` index is strictly smaller than its own on every
API-built tree, so fuel `i + 1` always suffices). -/
def pathF (t : KeywordTree) : Nat → Nat → List Char
  | 0, _ => []
  | fuel + 1, i =>
    match (getS t i).parent, (getS t i).symbol with
    | some p, some c => pathF t fuel p ++ [c]
    | _, _ => []

/-- The word spelled from the root to node `i`. -/
def path (t : KeywordTree) (i : Nat) : List Char := pathF t (i + 1) i

/-- `x` is the tree child of `w` on symbol `c` (an edge created by `add`;
characterized by the immutable `parent`/`symbol` fields). -/
def TreeEdge (t : KeywordTree) (w : Nat) (c : Char) (x : Nat) : Prop :=
  x < t.states.length ∧ x ≠ 0 ∧ (getS t x).parent = some w ∧
    (getS t x).symbol = some c

/-- The keys of an association list are pairwise distinct. -/
def keysNodup (l : List (Char × Nat)) : Prop := (l.map Prod.fst).Nodup

/-- Structural well-formedness of the arena, true from construction on and
untouched by `finalize` (which only writes suffix links and transitions). -/
structure StInv (t : KeywordTree) : Prop where
  counter_eq : t.counter = t.states.length
  pos : 0 < t.states.length
  root_parent : (getS t 0).parent = none
  root_symbol : (getS t 0).symbol = none
  parent_lt : ∀ i, i < t.states.length → i ≠ 0 →
    ∃ p c, (getS t i).parent = some p ∧ p < i ∧ (getS t i).symbol = some c ∧
      tlookup (getS t p).transitions c = some i
  trans_wf : ∀ i, i < t.states.length →
    keysNodup (getS t i).transitions ∧
    ∀ pr, pr ∈ (getS t i).transitions → pr.2 < t.states.length ∧ pr.2 ≠ 0
  success_wf : ∀ i, i < t.states.length → (getS t i).success = true →
    ∃ kw, (getS t i).matched_keyword = some kw ∧
      foldW t.case_insensitive kw = path t i

/-- A node whose suffix link has been assigned. -/
def SetNode (t : KeywordTree) (i : Nat) : Prop :=
  (getS t i).longest_strict_suffix ≠ none

/-- A node whose transitions are exactly its tree edges (every node before
`finalize` touches it; the root forever). -/
def PureTrans (t : KeywordTree) (i : Nat) : Prop :=
  ∀ c x, tlookup (getS t i).transitions c = some x ↔ TreeEdge t i c x

/-- The merge of `search_lss` has run on `i`: every lookup either hits the
tree child or defers to the resolved suffix target's transitions (none when
that target is the root). -/
def Merged (t : KeywordTree) (i : Nat) : Prop :=
  ∀ c,
    (∃ x, TreeEdge t i c x ∧ tlookup (getS t i).transitions c = some x) ∨
    ((∀ x, ¬ TreeEdge t i c x) ∧
      ∃ j, (getS t i).longest_strict_suffix = some j ∧
        tlookup (getS t i).transitions c =
          (if j = 0 then none else tlookup (getS t j).transitions c))

/-- Node `i` is fully processed by `finalize`: the root has its self suffix
link and untouched transitions; any other node has its link assigned and its
merge performed. -/
def Done (t : KeywordTree) (i : Nat) : Prop :=
  (i = 0 → (getS t 0).longest_strict_suffix = some 0 ∧ PureTrans t 0) ∧
  (i ≠ 0 → SetNode t i ∧ Merged t i)

/-- `u` is a strict (proper) suffix of `v`. -/
def StrictSfx (u v : List Char) : Prop := u <:+ v ∧ u.length < v.length

/-- `j` is the node of the longest strict suffix of `path i` realized in the
trie: exactly what `longest_strict_suffix` must point to. -/
def MaxSfx (t : KeywordTree) (i j : Nat) : Prop :=
  j < t.states.length ∧ StrictSfx (path t j) (path t i) ∧
  ∀ m, m < t.states.length → StrictSfx (path t m) (path t i) →
    path t m <:+ path t j

/-- Node `i` is a completed activation: the root, or a node with its suffix
link assigned that is not on the pending chain `E`. -/
def Comp (t : KeywordTree) (E : List Nat) (i : Nat) : Prop :=
  i = 0 ∨ (SetNode t i ∧ i ∉ E)

/-- Global invariant of the `finalize` run.  `E` is the chain of nodes whose
`search_lss` activation is still on the (conceptual) call stack: their suffix
links are assigned but their merge has not happened yet. -/
structure GIE (t : KeywordTree) (E : List Nat) : Prop where
  st : StInv t
  root_done : Done t 0
  set_max : ∀ i, i < t.states.length → i ≠ 0 → SetNode t i →
    ∃ j, (getS t i).longest_strict_suffix = some j ∧ MaxSfx t i j
  set_done : ∀ i, i < t.states.length → i ≠ 0 → SetNode t i → i ∉ E → Done t i
  comp_closure : ∀ i, i < t.states.length → i ≠ 0 → SetNode t i → i ∉ E →
    ∀ j, (getS t i).longest_strict_suffix = some j →
      j < t.states.length ∧ Comp t E j
  unset_pure : ∀ i, i < t.states.length → ¬ SetNode t i → PureTrans t i
  pending : ∀ e, e ∈ E → e < t.states.length ∧ e ≠ 0 ∧ SetNode t e ∧ PureTrans t e

/-- The build-phase invariant: structurally well-formed, no suffix link
assigned yet, and every node's transitions are exactly its tree edges. -/
def Pre (t : KeywordTree) : Prop :=
  StInv t ∧ (∀ i, ¬ SetNode t i) ∧
  (∀ i, i < t.states.length → PureTrans t i)

/-- Correspondence between the arena and the list of keywords inserted so far:
success marks are exactly the terminals of inserted keywords, reporting a
stored keyword whose folding spells the node's path. -/
def KwInv (t : KeywordTree) (kws : List (List Char)) : Prop :=
  (∀ i, i < t.states.length → (getS t i).success = true →
      ∃ kw, kw ∈ kws ∧ (getS t i).matched_keyword = some kw ∧
        foldW t.case_insensitive kw = path t i) ∧
  (∀ kw, kw ∈ kws → kw ≠ [] →
      ∃ i, i < t.states.length ∧ path t i = foldW t.case_insensitive kw ∧
        (getS t i).success = true)

/-- Everything `finalize` establishes (plus what it preserves): the fully
compiled automaton. -/
structure FinInv (t : KeywordTree) : Prop where
  gie : GIE t []
  fin : t.finalized = true
  all_set : ∀ i, i < t.states.length → SetNode t i

/-! ## Concrete trees used by individual claims -/

/-- The case-insensitive tree with the single keyword `"Abc"`. -/
def c5built : KeywordTree := buildTree true [['A', 'b', 'c']]

/-- Its finalized form. -/
def c5tree : KeywordTree :=
  match c5built.finalize with
  | .ok (some u) => u
  | _ => KeywordTree.init true

/-- A small finalized tree (keyword `"a"`). -/
def exFinTree : KeywordTree :=
  match (buildTree false [['a']]).finalize with
  | .ok (some u) => u
  | _ => KeywordTree.init false

/-- The canonical tree for keywords `"she"`, `"he"`. -/
def sheHeTree : KeywordTree :=
  match (buildTree false [['s', 'h', 'e'], ['h', 'e']]).finalize with
  | .ok (some u) => u
  | _ => KeywordTree.init false

/-- The alternate implementation's tree for the same keywords. -/
def sheHeKdTree : KdTree :=
  match (buildKdTree true [['s', 'h', 'e'], ['h', 'e']]).finalize with
  | .ok (some u) => u
  | _ => KdTree.init true

/-- A case-insensitive tree with two keywords whose foldings collide. -/
def c1built : KeywordTree := buildTree true [['A', 'B', 'C'], ['A', 'b', 'c']]

/-- Its finalized form. -/
def c1tree : KeywordTree :=
  match c1built.finalize with
  | .ok (some u) => u
  | _ => KeywordTree.init true

/-- The snapshot `__getstate__` produces for `exFinTree`. -/
def c8snap : TreeSnapshot :=
  match exFinTree.getstate with
  | some s => s
  | none => { case_insensitive := false, finalized := false, counter := 0,
              states := [] }

/-- The scan invariant of `search_all`: after consuming the folded prefix `v`,
the current state is the node of the longest suffix of `v` realized as a path
of the trie. -/
def Reach (t : KeywordTree) (v : List Char) (cur : Nat) : Prop :=
  cur < t.states.length ∧ path t cur <:+ v ∧
  ∀ m, m < t.states.length → path t m <:+ v → path t m <:+ path t cur

/-! ## Claims -/

/-- C3: a `KeywordTree` on which `finalize` has not run (its `_finalized` flag
is still false, as in a freshly constructed tree) answers every `search_all`
and `search_one` call with the not-finalized `ValueError` and yields no
matches. -/
theorem C3_no_search_before_finalize (t : KeywordTree) (text : List Char)
    (h : t.finalized = false) :
    t.search_all text =
      .error "KeywordTree has not been finalized. No search allowed. Call finalize() first." ∧
    t.search_one text =
      .error "KeywordTree has not been finalized. No search allowed. Call finalize() first." := by
  constructor
  · simp [KeywordTree.search_all, h]
  · simp [KeywordTree.search_one, KeywordTree.search_all, h]

/-- Witness for C3 at a freshly constructed tree and a concrete text. -/
theorem C3_witness :
    (KeywordTree.init false).finalized = false ∧
    (KeywordTree.init false).search_all ['a'] =
      .error "KeywordTree has not been finalized. No search allowed. Call finalize() first." ∧
    (KeywordTree.init false).search_one ['a'] =
      .error "KeywordTree has not been finalized. No search allowed. Call finalize() first." :=
  ⟨rfl, (C3_no_search_before_finalize (KeywordTree.init false) ['a'] rfl).1,
        (C3_no_search_before_finalize (KeywordTree.init false) ['a'] rfl).2⟩

/-- C4: on a finalized `KeywordTree`, `add` raises the already-finalized
`ValueError` before any mutation, so the tree is returned unchanged and its
search behavior on every text is unaffected. -/
theorem C4_no_insert_after_finalize (t : KeywordTree) (kw : List Char)
    (h : t.finalized = true) :
    t.add kw =
      (t, some "KeywordTree has been finalized. No more keyword additions allowed") ∧
    ∀ text : List Char, ((t.add kw).1).search_all text = t.search_all text := by
  refine ⟨by simp [KeywordTree.add, h], fun text => ?_⟩
  simp [KeywordTree.add, h]

/-- Witness for C4 at a concrete finalized tree. -/
theorem C4_witness :
    exFinTree.finalized = true ∧
    exFinTree.add ['b'] =
      (exFinTree, some "KeywordTree has been finalized. No more keyword additions allowed") ∧
    ((exFinTree.add ['b']).1).search_all ['a'] = exFinTree.search_all ['a'] :=
  ⟨rfl, (C4_no_insert_after_finalize exFinTree ['b'] rfl).1,
        (C4_no_insert_after_finalize exFinTree ['b'] rfl).2 ['a']⟩

/-- C5: with `case_insensitive = true`, inserting `"Abc"` stores the folded
`"abc"` path but remembers the original keyword, and searching `"xxABCxx"`
(folded before matching) yields exactly `("Abc", 2)` — the originally supplied
casing with the correct 0-based offset. -/
theorem C5_case_folding :
    c5built.finalize = .ok (some c5tree) ∧
    c5built.case_insensitive = true ∧
    c5tree.search_all ['x', 'x', 'A', 'B', 'C', 'x', 'x'] =
      .ok (some [(['A', 'b', 'c'], (2 : Int))]) :=
  ⟨rfl, rfl, rfl⟩

/-- C9: the alternate implementation under-reports.  For keywords
`{"she", "he"}` and text `"ushers"`, the canonical `KeywordTree.search_all`
yields `("she", 1)` and `("he", 2)`, while `KdTree.search_all` yields only
`("she", 1)`: strictly fewer matches, missing `("he", 2)` although `"he"` is a
strict suffix of the just-matched `"she"`. -/
theorem C9_alternate_under_reports :
    (buildTree false [['s', 'h', 'e'], ['h', 'e']]).finalize = .ok (some sheHeTree) ∧
    (buildKdTree true [['s', 'h', 'e'], ['h', 'e']]).finalize = .ok (some sheHeKdTree) ∧
    sheHeTree.search_all ['u', 's', 'h', 'e', 'r', 's'] =
      .ok (some [(['s', 'h', 'e'], (1 : Int)), (['h', 'e'], (2 : Int))]) ∧
    sheHeKdTree.search_all ['u', 's', 'h', 'e', 'r', 's'] =
      .ok (some [(['s', 'h', 'e'], (1 : Int))]) ∧
    (1 : Nat) < 2 ∧
    ['s', 'h', 'e'] = ['s'] ++ ['h', 'e'] :=
  ⟨rfl, rfl, rfl, rfl, by decide, rfl⟩

/-! ## Association-list lemmas -/

theorem tlookup_append_some {l₁ l₂ : List (Char × Nat)} {c : Char} {v : Nat}
    (h : tlookup l₁ c = some v) : tlookup (l₁ ++ l₂) c = some v := by
  induction l₁ with
  | nil => simp [tlookup] at h
  | cons hd tl ih =>
    obtain ⟨c₀, v₀⟩ := hd
    by_cases hc : c₀ = c
    · simpa [tlookup, hc] using h
    · simp only [tlookup, if_neg hc] at h ⊢
      exact ih h

theorem tlookup_append_none {l₁ l₂ : List (Char × Nat)} {c : Char}
    (h : tlookup l₁ c = none) : tlookup (l₁ ++ l₂) c = tlookup l₂ c := by
  induction l₁ with
  | nil => simp
  | cons hd tl ih =>
    obtain ⟨c₀, v₀⟩ := hd
    by_cases hc : c₀ = c
    · simp [tlookup, hc] at h
    · simp only [tlookup, if_neg hc] at h ⊢
      exact ih h

theorem tlookup_mem {l : List (Char × Nat)} {c : Char} {v : Nat}
    (h : tlookup l c = some v) : (c, v) ∈ l := by
  induction l with
  | nil => simp [tlookup] at h
  | cons hd tl ih =>
    obtain ⟨c₀, v₀⟩ := hd
    by_cases hc : c₀ = c
    · simp only [tlookup, if_pos hc] at h
      obtain rfl := Option.some_injective _ h
      simp [hc]
    · simp only [tlookup, if_neg hc] at h
      exact List.mem_cons_of_mem _ (ih h)

theorem tlookup_eq_none_iff {l : List (Char × Nat)} {c : Char} :
    tlookup l c = none ↔ ∀ v, (c, v) ∉ l := by
  induction l with
  | nil => simp [tlookup]
  | cons hd tl ih =>
    obtain ⟨c₀, v₀⟩ := hd
    by_cases hc : c₀ = c
    · subst hc
      simp only [tlookup, if_pos rfl]
      constructor
      · intro h
        exact absurd h (by simp)
      · intro h
        exact absurd (List.mem_cons_self _ _) (h v₀)
    · simp only [tlookup, if_neg hc, ih, List.mem_cons]
      constructor
      · rintro h v (hv | hv)
        · exact hc (congrArg Prod.fst hv).symm
        · exact h v hv
      · intro h v hv
        exact h v (Or.inr hv)

theorem mem_tlookup {l : List (Char × Nat)} {c : Char} {v : Nat}
    (hnd : keysNodup l) (h : (c, v) ∈ l) : tlookup l c = some v := by
  induction l with
  | nil => simp at h
  | cons hd tl ih =>
    obtain ⟨c₀, v₀⟩ := hd
    rcases List.mem_cons.mp h with heq | hmem
    · injection heq with h1 h2
      subst h1
      subst h2
      simp [tlookup]
    · have hc : c₀ ≠ c := by
        intro hcc
        subst hcc
        have hmf : c₀ ∈ tl.map Prod.fst := by
          simpa using List.mem_map_of_mem Prod.fst hmem
        exact (List.nodup_cons.mp hnd).1 hmf
      have hnd' : keysNodup tl := (List.nodup_cons.mp hnd).2
      simp only [tlookup, if_neg hc]
      exact ih hnd' hmem

theorem keysNodup_nil : keysNodup [] := List.nodup_nil

/-! ## Suffix lemmas -/

theorem sfx_append_right {u v : List Char} (c : Char) (h : u <:+ v) :
    u ++ [c] <:+ v ++ [c] := by
  obtain ⟨s, rfl⟩ := h
  exact ⟨s, (List.append_assoc s u [c]).symm⟩

theorem sfx_concat_cases {w u : List Char} {c : Char} (h : w <:+ u ++ [c]) :
    w = [] ∨ ∃ s, s <:+ u ∧ w = s ++ [c] := by
  rcases List.eq_nil_or_concat w with rfl | ⟨s, b, rfl⟩
  · exact Or.inl rfl
  · right
    obtain ⟨tp, ht⟩ := h
    rw [List.concat_eq_append, ← List.append_assoc] at ht
    have h2 := List.append_inj' ht (by simp)
    obtain ⟨h3, h4⟩ := h2
    obtain rfl : b = c := by simpa using h4
    exact ⟨s, ⟨tp, h3⟩, by simp⟩

theorem sfx_eq_of_length_eq {u v : List Char} (h : u <:+ v)
    (hl : u.length = v.length) : u = v :=
  List.IsSuffix.eq_of_length h hl

theorem sfx_length_lt_of_ne {u v : List Char} (h : u <:+ v) (hne : u ≠ v) :
    u.length < v.length := by
  rcases Nat.lt_or_ge u.length v.length with hlt | hge
  · exact hlt
  · exact absurd (sfx_eq_of_length_eq h (Nat.le_antisymm h.length_le hge)) hne

/-! ## Path lemmas -/

theorem getS_oob {t : KeywordTree} {i : Nat} (h : t.states.length ≤ i) :
    getS t i = dfltState := by
  unfold getS
  rw [List.getD_eq_getElem?_getD, List.getElem?_eq_none h]
  rfl

theorem pathF_stable {t : KeywordTree} (hs : StInv t) :
    ∀ i f₁ f₂, i < f₁ → i < f₂ → pathF t f₁ i = pathF t f₂ i := by
  intro i
  induction i using Nat.strong_induction_on with
  | _ i ih =>
    intro f₁ f₂ h₁ h₂
    cases f₁ with
    | zero => omega
    | succ g₁ =>
    cases f₂ with
    | zero => omega
    | succ g₂ =>
    by_cases hiN : i < t.states.length
    · by_cases hi0 : i = 0
      · subst hi0
        simp [pathF, hs.root_parent]
      · obtain ⟨p, c, hp, hplt, hc, _⟩ := hs.parent_lt i hiN hi0
        have hg₁ : p < g₁ := Nat.lt_of_lt_of_le hplt (Nat.lt_succ_iff.mp h₁)
        have hg₂ : p < g₂ := Nat.lt_of_lt_of_le hplt (Nat.lt_succ_iff.mp h₂)
        simp only [pathF, hp, hc]
        rw [ih p hplt g₁ g₂ hg₁ hg₂]
    · have hd : (getS t i).parent = none := by
        rw [getS_oob (Nat.le_of_not_lt hiN)]
        rfl
      simp [pathF, hd]

theorem pathF_eq_path {t : KeywordTree} (hs : StInv t) {i f : Nat} (hf : i < f) :
    pathF t f i = path t i :=
  pathF_stable hs i f (i + 1) hf (Nat.lt_succ_self i)

theorem path_zero {t : KeywordTree} (hs : StInv t) : path t 0 = [] := by
  simp [path, pathF, hs.root_parent]

theorem path_unfold {t : KeywordTree} (hs : StInv t) {i p : Nat} {c : Char}
    (hp : (getS t i).parent = some p) (hc : (getS t i).symbol = some c) :
    path t i = path t p ++ [c] := by
  show pathF t (i + 1) i = path t p ++ [c]
  by_cases hi0 : i = 0
  · subst hi0
    rw [hs.root_parent] at hp
    exact absurd hp (by simp)
  · by_cases hiN : i < t.states.length
    · obtain ⟨p', c', hp', hplt, hc', _⟩ := hs.parent_lt i hiN hi0
      obtain rfl : p = p' := by rw [hp] at hp'; exact (Option.some_injective _ hp')
      simp only [pathF, hp, hc]
      rw [pathF_eq_path hs hplt]
    · exfalso
      have hd : (getS t i).parent = none := by
        rw [getS_oob (Nat.le_of_not_lt hiN)]
        rfl
      rw [hd] at hp
      exact Option.noConfusion hp

theorem path_ne_nil {t : KeywordTree} (hs : StInv t) {i : Nat}
    (hiN : i < t.states.length) (hi0 : i ≠ 0) : path t i ≠ [] := by
  obtain ⟨p, c, hp, _, hc, _⟩ := hs.parent_lt i hiN hi0
  rw [path_unfold hs hp hc]
  simp

theorem path_edge {t : KeywordTree} (hs : StInv t) {w x : Nat} {c : Char}
    (h : TreeEdge t w c x) : path t x = path t w ++ [c] :=
  path_unfold hs h.2.2.1 h.2.2.2

theorem path_inj {t : KeywordTree} (hs : StInv t) :
    ∀ i, i < t.states.length → ∀ j, j < t.states.length →
      path t i = path t j → i = j := by
  intro i
  induction i using Nat.strong_induction_on with
  | _ i ih =>
    intro hiN j hjN heq
    by_cases hi0 : i = 0
    · subst hi0
      by_cases hj0 : j = 0
      · exact hj0.symm
      · exact absurd ((path_zero hs) ▸ heq).symm (path_ne_nil hs hjN hj0)
    · by_cases hj0 : j = 0
      · subst hj0
        exact absurd ((path_zero hs) ▸ heq) (path_ne_nil hs hiN hi0)
      · obtain ⟨pi, ci, hpi, hpilt, hci, hlooki⟩ := hs.parent_lt i hiN hi0
        obtain ⟨pj, cj, hpj, hpjlt, hcj, hlookj⟩ := hs.parent_lt j hjN hj0
        rw [path_unfold hs hpi hci, path_unfold hs hpj hcj] at heq
        obtain ⟨hpp, hcc⟩ := List.append_inj' heq (by simp)
        have hc : ci = cj := by simpa using hcc
        have hpe : pi = pj :=
          ih pi hpilt (Nat.lt_trans hpilt hiN) pj (Nat.lt_trans hpjlt hjN) hpp
        subst hpe
        subst hc
        rw [hlooki] at hlookj
        exact Option.some_injective _ hlookj

theorem path_nil_eq_zero {t : KeywordTree} (hs : StInv t) {i : Nat}
    (hiN : i < t.states.length) (h : path t i = []) : i = 0 := by
  by_contra hi0
  exact path_ne_nil hs hiN hi0 h

/-! ## Arena update lemmas -/

theorem getD_set_self {l : List State} {i : Nat} {s : State} (h : i < l.length) :
    (l.set i s).getD i dfltState = s := by
  rw [List.getD_eq_getElem?_getD, List.getElem?_set_eq h]
  rfl

theorem getD_set_ne {l : List State} {i j : Nat} {s : State} (h : j ≠ i) :
    (l.set i s).getD j dfltState = l.getD j dfltState := by
  rw [List.getD_eq_getElem?_getD, List.getElem?_set_ne (fun he => h he.symm),
    ← List.getD_eq_getElem?_getD]

theorem getD_set_oob {l : List State} {i : Nat} {s : State} (h : l.length ≤ i) :
    (l.set i s).getD i dfltState = l.getD i dfltState := by
  rw [List.set_eq_of_length_le h]

theorem getS_setLss_self {t : KeywordTree} {i v : Nat} (h : i < t.states.length) :
    getS (setLss t i v) i = { getS t i with longest_strict_suffix := some v } :=
  getD_set_self h

theorem getS_setLss_ne {t : KeywordTree} {i v j : Nat} (h : j ≠ i) :
    getS (setLss t i v) j = getS t j :=
  getD_set_ne h

theorem getS_setTrans_self {t : KeywordTree} {i : Nat} {ts : List (Char × Nat)}
    (h : i < t.states.length) :
    getS (setTrans t i ts) i = { getS t i with transitions := ts } :=
  getD_set_self h

theorem getS_setTrans_ne {t : KeywordTree} {i j : Nat} {ts : List (Char × Nat)}
    (h : j ≠ i) : getS (setTrans t i ts) j = getS t j :=
  getD_set_ne h

theorem length_setLss (t : KeywordTree) (i v : Nat) :
    (setLss t i v).states.length = t.states.length := List.length_set ..

theorem length_setTrans (t : KeywordTree) (i : Nat) (ts : List (Char × Nat)) :
    (setTrans t i ts).states.length = t.states.length := List.length_set ..

/-- Fields `setLss` leaves alone, at every index. -/
theorem fields_setLss (t : KeywordTree) (i v : Nat) (j : Nat) :
    (getS (setLss t i v) j).parent = (getS t j).parent ∧
    (getS (setLss t i v) j).symbol = (getS t j).symbol ∧
    (getS (setLss t i v) j).success = (getS t j).success ∧
    (getS (setLss t i v) j).matched_keyword = (getS t j).matched_keyword ∧
    (getS (setLss t i v) j).transitions = (getS t j).transitions := by
  by_cases hj : j = i
  · subst hj
    by_cases hl : j < t.states.length
    · rw [getS_setLss_self hl]
      exact ⟨rfl, rfl, rfl, rfl, rfl⟩
    · have : getS (setLss t j v) j = getS t j := getD_set_oob (Nat.le_of_not_lt hl)
      rw [this]
      exact ⟨rfl, rfl, rfl, rfl, rfl⟩
  · rw [getS_setLss_ne hj]
    exact ⟨rfl, rfl, rfl, rfl, rfl⟩

/-- Fields `setTrans` leaves alone, at every index. -/
theorem fields_setTrans (t : KeywordTree) (i : Nat) (ts : List (Char × Nat)) (j : Nat) :
    (getS (setTrans t i ts) j).parent = (getS t j).parent ∧
    (getS (setTrans t i ts) j).symbol = (getS t j).symbol ∧
    (getS (setTrans t i ts) j).success = (getS t j).success ∧
    (getS (setTrans t i ts) j).matched_keyword = (getS t j).matched_keyword ∧
    (getS (setTrans t i ts) j).longest_strict_suffix = (getS t j).longest_strict_suffix := by
  by_cases hj : j = i
  · subst hj
    by_cases hl : j < t.states.length
    · rw [getS_setTrans_self hl]
      exact ⟨rfl, rfl, rfl, rfl, rfl⟩
    · have : getS (setTrans t j ts) j = getS t j := getD_set_oob (Nat.le_of_not_lt hl)
      rw [this]
      exact ⟨rfl, rfl, rfl, rfl, rfl⟩
  · rw [getS_setTrans_ne hj]
    exact ⟨rfl, rfl, rfl, rfl, rfl⟩

/-- Paths only depend on `parent` and `symbol` fields. -/
theorem pathF_congr {t t' : KeywordTree}
    (h : ∀ i, (getS t' i).parent = (getS t i).parent ∧
              (getS t' i).symbol = (getS t i).symbol) :
    ∀ f i, pathF t' f i = pathF t f i := by
  intro f
  induction f with
  | zero => intro i; rfl
  | succ g ih =>
    intro i
    show pathF t' (g + 1) i = pathF t (g + 1) i
    simp only [pathF, (h i).1, (h i).2]
    cases hp : (getS t i).parent with
    | none => rfl
    | some p =>
      cases hc : (getS t i).symbol with
      | none => rfl
      | some c =>
        show pathF t' g p ++ [c] = pathF t g p ++ [c]
        rw [ih p]

theorem path_congr {t t' : KeywordTree}
    (h : ∀ i, (getS t' i).parent = (getS t i).parent ∧
              (getS t' i).symbol = (getS t i).symbol) (i : Nat) :
    path t' i = path t i :=
  pathF_congr h (i + 1) i

theorem path_setLss (t : KeywordTree) (i v : Nat) (j : Nat) :
    path (setLss t i v) j = path t j :=
  path_congr (fun k => ⟨(fields_setLss t i v k).1, (fields_setLss t i v k).2.1⟩) j

theorem path_setTrans (t : KeywordTree) (i : Nat) (ts : List (Char × Nat)) (j : Nat) :
    path (setTrans t i ts) j = path t j :=
  path_congr (fun k => ⟨(fields_setTrans t i ts k).1, (fields_setTrans t i ts k).2.1⟩) j

theorem treeEdge_setLss {t : KeywordTree} {i v w x : Nat} {c : Char} :
    TreeEdge (setLss t i v) w c x ↔ TreeEdge t w c x := by
  unfold TreeEdge
  rw [length_setLss, (fields_setLss t i v x).1, (fields_setLss t i v x).2.1]

theorem treeEdge_setTrans {t : KeywordTree} {i w x : Nat} {ts : List (Char × Nat)} {c : Char} :
    TreeEdge (setTrans t i ts) w c x ↔ TreeEdge t w c x := by
  unfold TreeEdge
  rw [length_setTrans, (fields_setTrans t i ts x).1, (fields_setTrans t i ts x).2.1]

/-! ## More association-list helpers -/

theorem tlookup_none_not_mem_keys {l : List (Char × Nat)} {c : Char}
    (h : tlookup l c = none) : c ∉ l.map Prod.fst := by
  intro hmem
  obtain ⟨⟨c', v⟩, hin, hc⟩ := List.mem_map.mp hmem
  obtain rfl : c' = c := hc
  exact tlookup_eq_none_iff.mp h v hin

theorem tlookup_append_single {l : List (Char × Nat)} {c c' : Char} {v : Nat}
    (h : tlookup l c = none) :
    tlookup (l ++ [(c, v)]) c' = if c' = c then some v else tlookup l c' := by
  by_cases hc : c' = c
  · subst hc
    rw [tlookup_append_none h]
    simp [tlookup]
  · rw [if_neg hc]
    cases hl : tlookup l c' with
    | some x => exact tlookup_append_some hl
    | none =>
      rw [tlookup_append_none hl]
      simp only [tlookup, if_neg (fun he : c = c' => hc he.symm)]

theorem keysNodup_append_single {l : List (Char × Nat)} {c : Char} {v : Nat}
    (hnd : keysNodup l) (h : tlookup l c = none) : keysNodup (l ++ [(c, v)]) := by
  unfold keysNodup
  rw [List.map_append]
  simp only [List.map_cons, List.map_nil]
  rw [List.nodup_append]
  refine ⟨hnd, List.nodup_singleton c, ?_⟩
  intro a ha hc2
  have ha2 : a = c := by simpa using hc2
  exact tlookup_none_not_mem_keys h (ha2 ▸ ha)

/-! ## Path congruence below a length bound -/

theorem path_congr_lt {t t' : KeywordTree} (hs : StInv t)
    (h : ∀ j, j < t.states.length →
      (getS t' j).parent = (getS t j).parent ∧
      (getS t' j).symbol = (getS t j).symbol) :
    ∀ j, j < t.states.length → path t' j = path t j := by
  have key : ∀ j, j < t.states.length → ∀ f, j < f → pathF t' f j = path t j := by
    intro j
    induction j using Nat.strong_induction_on with
    | _ j ih =>
      intro hj f hf
      cases f with
      | zero => omega
      | succ g =>
        by_cases hj0 : j = 0
        · subst hj0
          have h0 := (h 0 hj).1
          rw [hs.root_parent] at h0
          simp [pathF, h0, path_zero hs]
        · obtain ⟨p, c, hp, hplt, hc, _⟩ := hs.parent_lt j hj hj0
          have hp' : (getS t' j).parent = some p := (h j hj).1.trans hp
          have hc' : (getS t' j).symbol = some c := (h j hj).2.trans hc
          have hpg : p < g := by omega
          simp only [pathF, hp', hc']
          rw [ih p hplt (Nat.lt_trans hplt hj) g hpg, path_unfold hs hp hc]
  exact fun j hj => key j hj (j + 1) (Nat.lt_succ_self j)

/-! ## The `add` phase: `addWalk` and `add` preserve the build invariant -/

theorem addWalk_spec : ∀ (cs : List Char) (t : KeywordTree) (cur : Nat),
    Pre t → cur < t.states.length →
    Pre (addWalk t cur cs).1 ∧
    t.states.length ≤ (addWalk t cur cs).1.states.length ∧
    (addWalk t cur cs).2 < (addWalk t cur cs).1.states.length ∧
    path (addWalk t cur cs).1 (addWalk t cur cs).2 = path t cur ++ cs ∧
    (addWalk t cur cs).1.finalized = t.finalized ∧
    (addWalk t cur cs).1.case_insensitive = t.case_insensitive ∧
    (∀ j, j < t.states.length →
      (getS (addWalk t cur cs).1 j).parent = (getS t j).parent ∧
      (getS (addWalk t cur cs).1 j).symbol = (getS t j).symbol ∧
      (getS (addWalk t cur cs).1 j).success = (getS t j).success ∧
      (getS (addWalk t cur cs).1 j).matched_keyword = (getS t j).matched_keyword) ∧
    (∀ j, j < t.states.length → path (addWalk t cur cs).1 j = path t j) ∧
    (∀ j, t.states.length ≤ j →
      (getS (addWalk t cur cs).1 j).success = false ∧
      (getS (addWalk t cur cs).1 j).matched_keyword = none) := by
  intro cs
  induction cs with
  | nil =>
    intro t cur hpre hcur
    refine ⟨hpre, le_refl _, hcur, by simp [addWalk], rfl, rfl,
      fun j _ => ⟨rfl, rfl, rfl, rfl⟩, fun j _ => rfl, fun j hj => ?_⟩
    have hred : (addWalk t cur []).1 = t := rfl
    rw [hred, getS_oob hj]
    exact ⟨rfl, rfl⟩
  | cons c cs ih =>
    intro t cur hpre hcur
    obtain ⟨hs, hunset, hpure⟩ := hpre
    cases hlook : tlookup (getS t cur).transitions c with
    | some nxt =>
      have hstep : addWalk t cur (c :: cs) = addWalk t nxt cs := by
        simp [addWalk, hlook]
      have hedge : TreeEdge t cur c nxt := (hpure cur hcur c nxt).mp hlook
      have hnxt : nxt < t.states.length := hedge.1
      have hpath : path t nxt = path t cur ++ [c] := path_edge hs hedge
      have := ih t nxt ⟨hs, hunset, hpure⟩ hnxt
      rw [hstep]
      refine ⟨this.1, this.2.1, this.2.2.1, ?_, this.2.2.2.2.1, this.2.2.2.2.2.1,
        this.2.2.2.2.2.2.1, this.2.2.2.2.2.2.2.1, this.2.2.2.2.2.2.2.2⟩
      rw [this.2.2.2.1, hpath]
      simp
    | none =>
      -- the creation branch
      set N := t.states.length with hN
      have hcnt : t.counter = N := hs.counter_eq
      set newState : State :=
        { symbol := some c, success := false, transitions := [],
          parent := some cur, matched_keyword := none,
          longest_strict_suffix := none } with hnew
      set recCur : State :=
        { getS t cur with
          transitions := (getS t cur).transitions ++ [(c, t.counter)] } with hrec
      set t1 : KeywordTree :=
        { t with states := (t.states.set cur recCur) ++ [newState],
                 counter := t.counter + 1 } with ht1
      have hstep : addWalk t cur (c :: cs) = addWalk t1 t.counter cs := by
        simp only [addWalk, hlook]
      have hlen1 : t1.states.length = N + 1 := by
        simp [ht1, List.length_set]
      have hget_lt : ∀ j, j < N → j ≠ cur → getS t1 j = getS t j := by
        intro j hj hjc
        show ((t.states.set cur recCur) ++ [newState]).getD j dfltState = _
        rw [List.getD_eq_getElem?_getD,
          List.getElem?_append_left (by rw [List.length_set]; exact hj),
          List.getElem?_set_ne (fun he => hjc he.symm), ← List.getD_eq_getElem?_getD]
        rfl
      have hget_cur : getS t1 cur = recCur := by
        show ((t.states.set cur recCur) ++ [newState]).getD cur dfltState = _
        rw [List.getD_eq_getElem?_getD,
          List.getElem?_append_left (by rw [List.length_set]; exact hcur),
          List.getElem?_set_eq (by exact hcur)]
        rfl
      have hget_new : getS t1 N = newState := by
        show ((t.states.set cur recCur) ++ [newState]).getD N dfltState = _
        rw [List.getD_eq_getElem?_getD,
          List.getElem?_append_right (by rw [List.length_set])]
        simp [List.length_set]
      have hfields : ∀ j, j < N →
          (getS t1 j).parent = (getS t j).parent ∧
          (getS t1 j).symbol = (getS t j).symbol ∧
          (getS t1 j).success = (getS t j).success ∧
          (getS t1 j).matched_keyword = (getS t j).matched_keyword ∧
          (getS t1 j).longest_strict_suffix = (getS t j).longest_strict_suffix := by
        intro j hj
        by_cases hjc : j = cur
        · subst hjc
          rw [hget_cur, hrec]
          exact ⟨rfl, rfl, rfl, rfl, rfl⟩
        · rw [hget_lt j hj hjc]
          exact ⟨rfl, rfl, rfl, rfl, rfl⟩
      have hpath_lt : ∀ j, j < N → path t1 j = path t j :=
        path_congr_lt hs (fun j hj => ⟨(hfields j hj).1, (hfields j hj).2.1⟩)
      -- the new node is a tree edge from cur in t1
      have hedge_t1 : ∀ i c' x, TreeEdge t1 i c' x ↔
          ((x < N ∧ TreeEdge t i c' x) ∨ (x = N ∧ i = cur ∧ c' = c)) := by
        intro i c' x
        constructor
        · rintro ⟨hx, hx0, hpar, hsym⟩
          rw [hlen1] at hx
          by_cases hxN : x = N
          · subst hxN
            rw [hget_new] at hpar hsym
            refine Or.inr ⟨rfl, ?_, ?_⟩
            · exact (Option.some_injective _ hpar).symm
            · exact ((Option.some_injective _ hsym)).symm
          · have hxlt : x < N := by omega
            rw [(hfields x hxlt).1] at hpar
            rw [(hfields x hxlt).2.1] at hsym
            exact Or.inl ⟨hxlt, hxlt, hx0, hpar, hsym⟩
        · rintro (⟨hxlt, te⟩ | ⟨rfl, rfl, rfl⟩)
          · exact ⟨by omega, te.2.1, by rw [(hfields x hxlt).1]; exact te.2.2.1,
              by rw [(hfields x hxlt).2.1]; exact te.2.2.2⟩
          · refine ⟨by rw [hlen1]; omega, ?_, by rw [hget_new], by rw [hget_new]⟩
            have h0 := hs.pos
            omega
      have hstv1 : StInv t1 := by
        refine ⟨?_, ?_, ?_, ?_, ?_, ?_, ?_⟩
        · show t.counter + 1 = t1.states.length
          rw [hlen1, hcnt]
        · rw [hlen1]; omega
        · by_cases hc0 : cur = 0
          · subst hc0
            rw [hget_cur, hrec]
            exact hs.root_parent
          · rw [hget_lt 0 hs.pos (fun he => hc0 he.symm)]
            exact hs.root_parent
        · by_cases hc0 : cur = 0
          · subst hc0
            rw [hget_cur, hrec]
            exact hs.root_symbol
          · rw [hget_lt 0 hs.pos (fun he => hc0 he.symm)]
            exact hs.root_symbol
        · intro i hi hi0
          rw [hlen1] at hi
          by_cases hiN : i = N
          · subst hiN
            refine ⟨cur, c, by rw [hget_new], hcur, by rw [hget_new], ?_⟩
            rw [hget_cur, hrec]
            show tlookup ((getS t cur).transitions ++ [(c, t.counter)]) c = some N
            rw [tlookup_append_none hlook]
            simp [tlookup, hcnt]
          · have hilt : i < N := by omega
            obtain ⟨p, c', hp, hplt, hc', hlk⟩ := hs.parent_lt i hilt hi0
            refine ⟨p, c', by rw [(hfields i hilt).1]; exact hp, hplt,
              by rw [(hfields i hilt).2.1]; exact hc', ?_⟩
            by_cases hpc : p = cur
            · subst hpc
              rw [hget_cur, hrec]
              exact tlookup_append_some hlk
            · rw [hget_lt p (Nat.lt_trans hplt hilt) hpc]
              exact hlk
        · intro i hi
          rw [hlen1] at hi
          by_cases hiN : i = N
          · subst hiN
            rw [hget_new]
            exact ⟨List.nodup_nil, fun pr hpr => absurd hpr (List.not_mem_nil pr)⟩
          · have hilt : i < N := by omega
            by_cases hic : i = cur
            · subst hic
              rw [hget_cur, hrec]
              refine ⟨keysNodup_append_single (hs.trans_wf i hilt).1 hlook, ?_⟩
              intro pr hpr
              rcases List.mem_append.mp hpr with hold | hnew2
              · have := (hs.trans_wf i hilt).2 pr hold
                omega
              · have : pr = (c, t.counter) := by simpa using hnew2
                subst this
                constructor
                · simp [hcnt, hlen1]
                · rw [hcnt]
                  omega
            · rw [hget_lt i hilt hic]
              refine ⟨(hs.trans_wf i hilt).1, fun pr hpr => ?_⟩
              have := (hs.trans_wf i hilt).2 pr hpr
              omega
        · intro i hi hsucc
          rw [hlen1] at hi
          by_cases hiN : i = N
          · subst hiN
            rw [hget_new] at hsucc
            exact absurd hsucc (by simp)
          · have hilt : i < N := by omega
            rw [(hfields i hilt).2.2.1] at hsucc
            obtain ⟨kw, hm, hf⟩ := hs.success_wf i hilt hsucc
            refine ⟨kw, by rw [(hfields i hilt).2.2.2.1]; exact hm, ?_⟩
            have hci : t1.case_insensitive = t.case_insensitive := rfl
            rw [hci, hpath_lt i hilt]
            exact hf
      have hpath_new : path t1 N = path t cur ++ [c] := by
        have h1 : path t1 N = path t1 cur ++ [c] :=
          path_unfold hstv1 (by rw [hget_new]) (by rw [hget_new])
        rw [h1, hpath_lt cur hcur]
      have hunset1 : ∀ i, ¬ SetNode t1 i := by
        intro i
        unfold SetNode
        by_cases hiN1 : i < N + 1
        · by_cases hiN : i = N
          · subst hiN
            rw [hget_new]
            simp
          · have hilt : i < N := by omega
            rw [(hfields i hilt).2.2.2.2]
            exact hunset i
        · rw [getS_oob (by rw [hlen1]; omega)]
          simp [dfltState]
      have hpure1 : ∀ i, i < t1.states.length → PureTrans t1 i := by
        intro i hi c' x
        rw [hlen1] at hi
        rw [hedge_t1 i c' x]
        by_cases hiN : i = N
        · subst hiN
          rw [hget_new]
          show tlookup [] c' = some x ↔ _
          constructor
          · intro h
            exact absurd h (by simp [tlookup])
          · rintro (⟨hxlt, te⟩ | ⟨rfl, rfl, rfl⟩)
            · obtain ⟨p, c2, hp, hplt, hc2, hlk⟩ := hs.parent_lt x te.1 te.2.1
              have h2 := te.2.2.1
              rw [hp] at h2
              have h3 : p = N := Option.some_injective _ h2
              omega
            · omega
        · have hilt : i < N := by omega
          by_cases hic : i = cur
          · rw [hic, hget_cur, hrec]
            show tlookup ((getS t cur).transitions ++ [(c, t.counter)]) c' = some x ↔ _
            rw [tlookup_append_single hlook]
            by_cases hcc : c' = c
            · rw [if_pos hcc]
              constructor
              · intro h
                have hx : x = t.counter := (Option.some_injective _ h).symm
                subst hx
                exact Or.inr ⟨hcnt, rfl, hcc⟩
              · rintro (⟨hxlt, te⟩ | ⟨rfl, -, -⟩)
                · have h4 := (hpure cur hcur c' x).mpr te
                  rw [hcc, hlook] at h4
                  exact Option.noConfusion h4
                · rw [hcnt]
            · rw [if_neg hcc]
              rw [show (tlookup (getS t cur).transitions c' = some x) ↔ TreeEdge t cur c' x
                    from hpure cur hcur c' x]
              constructor
              · intro te
                exact Or.inl ⟨te.1, te⟩
              · rintro (⟨_, te⟩ | ⟨_, _, rfl⟩)
                · exact te
                · exact absurd rfl hcc
          · rw [hget_lt i hilt hic]
            rw [show (tlookup (getS t i).transitions c' = some x) ↔ TreeEdge t i c' x
                  from hpure i hilt c' x]
            constructor
            · intro te
              exact Or.inl ⟨te.1, te⟩
            · rintro (⟨_, te⟩ | ⟨_, rfl, _⟩)
              · exact te
              · exact absurd rfl hic
      have hih := ih t1 t.counter ⟨hstv1, hunset1, hpure1⟩ (by rw [hlen1, hcnt]; omega)
      rw [hstep]
      obtain ⟨hP, hle, hlt, hpa, hfin, hci2, hfl, hpl, hnewdflt⟩ := hih
      refine ⟨hP, ?_, hlt, ?_, hfin, hci2, ?_, ?_, ?_⟩
      · calc N ≤ N + 1 := by omega
          _ = t1.states.length := hlen1.symm
          _ ≤ _ := hle
      · rw [hpa, hcnt, hpath_new]
        simp
      · intro j hj
        have hj1 : j < t1.states.length := by rw [hlen1]; omega
        have h1 := hfl j hj1
        have h2 := hfields j hj
        exact ⟨h1.1.trans h2.1, h1.2.1.trans h2.2.1, h1.2.2.1.trans h2.2.2.1,
          h1.2.2.2.trans h2.2.2.2.1⟩
      · intro j hj
        have hj1 : j < t1.states.length := by rw [hlen1]; omega
        rw [hpl j hj1, hpath_lt j hj]
      · intro j hj
        by_cases hjN : j = N
        · have hj1 : j < t1.states.length := by rw [hlen1]; omega
          have h1 := hfl j hj1
          rw [h1.2.2.1, h1.2.2.2, hjN, hget_new]
          exact ⟨rfl, rfl⟩
        · exact hnewdflt j (by rw [hlen1]; omega)

/-! ## Transfer lemmas for writes that only touch success/matched fields -/

theorem pure_congr {t t' : KeywordTree} {i : Nat}
    (hlen : t'.states.length = t.states.length)
    (hf : ∀ j, (getS t' j).parent = (getS t j).parent ∧
               (getS t' j).symbol = (getS t j).symbol ∧
               (getS t' j).transitions = (getS t j).transitions)
    (h : PureTrans t i) : PureTrans t' i := by
  intro c x
  rw [(hf i).2.2]
  rw [h c x]
  unfold TreeEdge
  rw [hlen, (hf x).1, (hf x).2.1]

theorem stinv_congr {t t' : KeywordTree} (hs : StInv t)
    (hlen : t'.states.length = t.states.length)
    (hcnt : t'.counter = t.counter)
    (hci : t'.case_insensitive = t.case_insensitive)
    (hf : ∀ j, (getS t' j).parent = (getS t j).parent ∧
               (getS t' j).symbol = (getS t j).symbol ∧
               (getS t' j).transitions = (getS t j).transitions)
    (hsucc : ∀ i, i < t.states.length → (getS t' i).success = true →
      ∃ kw, (getS t' i).matched_keyword = some kw ∧
        foldW t.case_insensitive kw = path t i) : StInv t' := by
  have hpath : ∀ j, path t' j = path t j :=
    path_congr (fun j => ⟨(hf j).1, (hf j).2.1⟩)
  refine ⟨?_, ?_, ?_, ?_, ?_, ?_, ?_⟩
  · rw [hcnt, hlen]; exact hs.counter_eq
  · rw [hlen]; exact hs.pos
  · rw [(hf 0).1]; exact hs.root_parent
  · rw [(hf 0).2.1]; exact hs.root_symbol
  · intro i hi hi0
    rw [hlen] at hi
    obtain ⟨p, c, hp, hplt, hc, hlk⟩ := hs.parent_lt i hi hi0
    exact ⟨p, c, (hf i).1.trans hp, hplt, (hf i).2.1.trans hc,
      ((hf p).2.2).symm ▸ hlk⟩
  · intro i hi
    rw [hlen] at hi
    rw [(hf i).2.2, hlen]
    exact hs.trans_wf i hi
  · intro i hi hsu
    rw [hlen] at hi
    obtain ⟨kw, hm, hfold⟩ := hsucc i hi hsu
    exact ⟨kw, hm, by rw [hci, hpath]; exact hfold⟩

/-! ## `add` specification -/

theorem foldW_length (ci : Bool) (w : List Char) : (foldW ci w).length = w.length := by
  unfold foldW
  split
  · exact List.length_map w Char.toLower
  · rfl

theorem foldW_ne_nil {ci : Bool} {w : List Char} (h : w ≠ []) : foldW ci w ≠ [] := by
  intro hc
  have := foldW_length ci w
  rw [hc] at this
  exact h (List.eq_nil_of_length_eq_zero this.symm)

theorem add_spec {t : KeywordTree} {keyword : List Char}
    (hpre : Pre t) (hfin : t.finalized = false) (hne : keyword ≠ []) :
    (t.add keyword).2 = none ∧
    Pre (t.add keyword).1 ∧
    (t.add keyword).1.finalized = false ∧
    (t.add keyword).1.case_insensitive = t.case_insensitive ∧
    t.states.length ≤ (t.add keyword).1.states.length ∧
    ∃ e, e < (t.add keyword).1.states.length ∧
      (getS (t.add keyword).1 e).success = true ∧
      (getS (t.add keyword).1 e).matched_keyword = some keyword ∧
      path (t.add keyword).1 e = foldW t.case_insensitive keyword ∧
      (∀ j, j < t.states.length → path (t.add keyword).1 j = path t j) ∧
      (∀ j, j ≠ e →
        (getS (t.add keyword).1 j).success = (getS t j).success ∧
        (getS (t.add keyword).1 j).matched_keyword = (getS t j).matched_keyword) ∧
      (∀ j, t.states.length ≤ j → j ≠ e →
        (getS (t.add keyword).1 j).success = false) := by
  have hN := hpre.1.pos
  have hw := addWalk_spec (foldW t.case_insensitive keyword) t 0 hpre hN
  obtain ⟨hPA, hleA, hltA, hpaA, hfinA, hciA, hflA, hplA, hdfA⟩ := hw
  set A := addWalk t 0 (foldW t.case_insensitive keyword) with hA
  set e := A.2 with he
  set term : State :=
    { getS A.1 e with success := true, matched_keyword := some keyword } with hterm
  set t' : KeywordTree := { A.1 with states := A.1.states.set e term } with ht'
  have hlen0 : ¬ ((foldW t.case_insensitive keyword).length ≤ 0) := by
    have h1 := foldW_length t.case_insensitive keyword
    have h2 : 0 < keyword.length := List.length_pos.mpr hne
    omega
  have hadd : t.add keyword = (t', none) := by
    show (if t.finalized = true then _ else _) = _
    rw [hfin]
    simp only [Bool.false_eq_true, if_false]
    rw [if_neg (show ¬ ((if t.case_insensitive then keyword.map Char.toLower
          else keyword).length ≤ 0) from hlen0)]
    rfl
  have hlen' : t'.states.length = A.1.states.length := List.length_set ..
  have hget_e : getS t' e = term := by
    show (A.1.states.set e term).getD e dfltState = term
    exact getD_set_self hltA
  have hget_ne : ∀ j, j ≠ e → getS t' j = getS A.1 j := by
    intro j hj
    show (A.1.states.set e term).getD j dfltState = _
    exact getD_set_ne hj
  have hfields' : ∀ j, (getS t' j).parent = (getS A.1 j).parent ∧
      (getS t' j).symbol = (getS A.1 j).symbol ∧
      (getS t' j).transitions = (getS A.1 j).transitions := by
    intro j
    by_cases hj : j = e
    · rw [hj, hget_e, hterm]
      exact ⟨rfl, rfl, rfl⟩
    · rw [hget_ne j hj]
      exact ⟨rfl, rfl, rfl⟩
  have hpath' : ∀ j, path t' j = path A.1 j :=
    path_congr (fun j => ⟨(hfields' j).1, (hfields' j).2.1⟩)
  have hpath_e : path t' e = foldW t.case_insensitive keyword := by
    rw [hpath' e, hpaA, path_zero hpre.1]
    simp
  have hstv' : StInv t' := by
    refine stinv_congr hPA.1 hlen' rfl rfl hfields' ?_
    intro i hi hsu
    by_cases hie : i = e
    · subst hie
      refine ⟨keyword, by rw [hget_e], ?_⟩
      rw [← hpath' e, hpath_e]
      have hci2 : A.1.case_insensitive = t.case_insensitive := hciA
      rw [hci2]
    · rw [hget_ne i hie] at hsu
      obtain ⟨kw, hm, hfold⟩ := hPA.1.success_wf i hi hsu
      exact ⟨kw, by rw [hget_ne i hie]; exact hm, hfold⟩
  have hpre' : Pre t' := by
    refine ⟨hstv', ?_, ?_⟩
    · intro i
      unfold SetNode
      by_cases hie : i = e
      · rw [hie, hget_e, hterm]
        exact hPA.2.1 e
      · rw [hget_ne i hie]
        exact hPA.2.1 i
    · intro i hi
      rw [hlen'] at hi
      exact pure_congr hlen' hfields' (hPA.2.2 i hi)
  rw [hadd]
  refine ⟨rfl, hpre', by rw [show t'.finalized = A.1.finalized from rfl, hfinA, hfin],
    by rw [show t'.case_insensitive = A.1.case_insensitive from rfl, hciA],
    by rw [hlen']; exact hleA, e, by rw [hlen']; exact hltA,
    by rw [hget_e], by rw [hget_e], hpath_e, ?_, ?_, ?_⟩
  · intro j hj
    rw [hpath' j, hplA j hj]
  · intro j hj
    rw [hget_ne j hj]
    by_cases hjN : j < t.states.length
    · exact ⟨(hflA j hjN).2.2.1, (hflA j hjN).2.2.2⟩
    · have hd := hdfA j (Nat.le_of_not_lt hjN)
      rw [getS_oob (Nat.le_of_not_lt hjN)]
      exact ⟨hd.1, hd.2⟩
  · intro j hjN hj
    rw [hget_ne j hj]
    exact (hdfA j hjN).1

theorem add_nil {t : KeywordTree} (hfin : t.finalized = false) :
    t.add [] = (t, none) := by
  show (if t.finalized = true then _ else _) = _
  rw [hfin]
  simp only [Bool.false_eq_true, if_false]
  rw [if_pos (by split <;> simp)]

/-! ## Building a tree from a keyword list -/

theorem buildLoop_spec : ∀ (kws : List (List Char)) (t : KeywordTree)
    (prev : List (List Char)), Pre t → t.finalized = false → KwInv t prev →
    Pre (kws.foldl (fun u k => (u.add k).1) t) ∧
    (kws.foldl (fun u k => (u.add k).1) t).finalized = false ∧
    (kws.foldl (fun u k => (u.add k).1) t).case_insensitive = t.case_insensitive ∧
    KwInv (kws.foldl (fun u k => (u.add k).1) t) (prev ++ kws) := by
  intro kws
  induction kws with
  | nil =>
    intro t prev hpre hfin hkw
    refine ⟨hpre, hfin, rfl, ?_⟩
    simpa using hkw
  | cons kw kws ih =>
    intro t prev hpre hfin hkw
    have hfold : (kw :: kws).foldl (fun u k => (u.add k).1) t =
        kws.foldl (fun u k => (u.add k).1) (t.add kw).1 := rfl
    rw [hfold]
    by_cases hkwnil : kw = []
    · subst hkwnil
      rw [add_nil hfin]
      have hkw1 : KwInv t (prev ++ [[]]) := by
        constructor
        · intro i hi hsu
          obtain ⟨kw', hm, hmk, hf⟩ := hkw.1 i hi hsu
          exact ⟨kw', List.mem_append_left _ hm, hmk, hf⟩
        · intro kw' hm hne
          rcases List.mem_append.mp hm with hm' | hm'
          · exact hkw.2 kw' hm' hne
          · exact absurd (by simpa using hm') hne
      have := ih t (prev ++ [[]]) hpre hfin hkw1
      simpa using this
    · obtain ⟨-, hpre', hfin', hci', hle', e, he, hsucc_e, hmk_e, hpath_e,
        hpaths, hsm, hoob⟩ := add_spec hpre hfin hkwnil
      have hN := hpre.1.pos
      have hkw1 : KwInv (t.add kw).1 (prev ++ [kw]) := by
        constructor
        · intro i hi hsu
          by_cases hie : i = e
          · subst hie
            exact ⟨kw, List.mem_append_right _ (by simp), hmk_e,
              by rw [hci']; exact hpath_e.symm⟩
          · by_cases hiN : i < t.states.length
            · have hsu' : (getS t i).success = true := by
                rw [← (hsm i hie).1]
                exact hsu
              obtain ⟨kw', hm, hmk, hf⟩ := hkw.1 i hiN hsu'
              refine ⟨kw', List.mem_append_left _ hm, by rw [(hsm i hie).2]; exact hmk, ?_⟩
              rw [hci', hpaths i hiN]
              exact hf
            · exact absurd hsu (by rw [hoob i (Nat.le_of_not_lt hiN) hie]; simp)
        · intro kw' hm hne'
          rcases List.mem_append.mp hm with hm' | hm'
          · obtain ⟨i, hiN, hp, hsu⟩ := hkw.2 kw' hm' hne'
            refine ⟨i, Nat.lt_of_lt_of_le hiN hle', ?_, ?_⟩
            · rw [hci', hpaths i hiN]
              exact hp
            · by_cases hie : i = e
              · rw [hie]
                exact hsucc_e
              · rw [(hsm i hie).1]
                exact hsu
          · obtain rfl : kw' = kw := by simpa using hm'
            exact ⟨e, he, by rw [hci']; exact hpath_e, hsucc_e⟩
      have := ih (t.add kw).1 (prev ++ [kw]) hpre' hfin' hkw1
      refine ⟨this.1, this.2.1, this.2.2.1.trans hci', ?_⟩
      have hassoc : (prev ++ [kw]) ++ kws = prev ++ (kw :: kws) := by simp
      rw [← hassoc]
      exact this.2.2.2

theorem init_pre (ci : Bool) : Pre (KeywordTree.init ci) := by
  refine ⟨⟨rfl, by simp [KeywordTree.init], rfl, rfl, ?_, ?_, ?_⟩, ?_, ?_⟩
  · intro i hi hi0
    simp [KeywordTree.init] at hi
    omega
  · intro i hi
    simp [KeywordTree.init] at hi
    subst hi
    exact ⟨List.nodup_nil, fun pr hpr => absurd hpr (by simp [KeywordTree.init, getS, dfltState])⟩
  · intro i hi hsu
    simp [KeywordTree.init] at hi
    subst hi
    exact absurd hsu (by simp [KeywordTree.init, getS, dfltState])
  · intro i
    unfold SetNode
    by_cases hi : i = 0
    · subst hi
      simp [KeywordTree.init, getS, dfltState]
    · have : 1 ≤ i := by omega
      rw [getS_oob (by simp [KeywordTree.init]; omega)]
      simp [dfltState]
  · intro i hi c x
    simp [KeywordTree.init] at hi
    subst hi
    constructor
    · intro h
      exact absurd h (by simp [KeywordTree.init, getS, dfltState, tlookup])
    · rintro ⟨hx, hx0, -, -⟩
      simp [KeywordTree.init] at hx
      omega

theorem buildTree_spec (ci : Bool) (kws : List (List Char)) :
    Pre (buildTree ci kws) ∧ (buildTree ci kws).finalized = false ∧
    (buildTree ci kws).case_insensitive = ci ∧ KwInv (buildTree ci kws) kws := by
  have hinit : KwInv (KeywordTree.init ci) [] := by
    constructor
    · intro i hi hsu
      have : i = 0 := by simp [KeywordTree.init] at hi; omega
      subst this
      exact absurd hsu (by simp [KeywordTree.init, getS, dfltState])
    · intro kw hm
      exact absurd hm (List.not_mem_nil kw)
  have := buildLoop_spec kws (KeywordTree.init ci) [] (init_pre ci) rfl hinit
  exact ⟨this.1, this.2.1, this.2.2.1, by simpa using this.2.2.2⟩

/-! ## The merged-transition lookup characterization on processed nodes

On a `Done` node, a transition lookup succeeds exactly for the deepest
suffix-chain node (the node itself, or a suffix of its path realized in the
trie, excluding the root unless the node is the root) that has a tree child on
the symbol, and the hit is that tree child. -/

theorem strictSfx_of_sfx_ne {t : KeywordTree} (hs : StInv t) {a b : Nat}
    (ha : a < t.states.length) (hb : b < t.states.length)
    (hsfx : path t a <:+ path t b) (hne : a ≠ b) :
    StrictSfx (path t a) (path t b) :=
  ⟨hsfx, sfx_length_lt_of_ne hsfx (fun he => hne (path_inj hs a ha b hb he))⟩

theorem gd_spec {t : KeywordTree} {E : List Nat} (h : GIE t E) :
    ∀ L i, i < t.states.length → Comp t E i → (path t i).length ≤ L →
    ∀ c,
      (∀ x, tlookup (getS t i).transitions c = some x →
        ∃ w, w < t.states.length ∧ path t w <:+ path t i ∧ TreeEdge t w c x ∧
          (w ≠ 0 ∨ i = 0) ∧
          (∀ w', w' < t.states.length → path t w' <:+ path t i →
            (w' ≠ 0 ∨ i = 0) → (∃ y, TreeEdge t w' c y) → path t w' <:+ path t w)) ∧
      (tlookup (getS t i).transitions c = none →
        ∀ w', w' < t.states.length → path t w' <:+ path t i →
          (w' ≠ 0 ∨ i = 0) → ∀ y, ¬ TreeEdge t w' c y) := by
  have hroot : ∀ c,
      (∀ x, tlookup (getS t 0).transitions c = some x →
        ∃ w, w < t.states.length ∧ path t w <:+ path t 0 ∧ TreeEdge t w c x ∧
          (w ≠ 0 ∨ (0 : Nat) = 0) ∧
          (∀ w', w' < t.states.length → path t w' <:+ path t 0 →
            (w' ≠ 0 ∨ (0 : Nat) = 0) → (∃ y, TreeEdge t w' c y) → path t w' <:+ path t w)) ∧
      (tlookup (getS t 0).transitions c = none →
        ∀ w', w' < t.states.length → path t w' <:+ path t 0 →
          (w' ≠ 0 ∨ (0 : Nat) = 0) → ∀ y, ¬ TreeEdge t w' c y) := by
    have hpure : PureTrans t 0 := (h.root_done.1 rfl).2
    intro c
    constructor
    · intro x hlk
      refine ⟨0, h.st.pos, List.suffix_refl _, (hpure c x).mp hlk, Or.inr rfl, ?_⟩
      intro w' hw' hsfx _ _
      rw [path_zero h.st] at hsfx ⊢
      exact hsfx
    · intro hlk w' hw' hsfx _ y hTE
      rw [path_zero h.st] at hsfx
      have hw'0 : w' = 0 := path_nil_eq_zero h.st hw' (List.suffix_nil.mp hsfx)
      subst hw'0
      exact absurd ((hpure c y).mpr hTE) (by rw [hlk]; simp)
  intro L
  induction L with
  | zero =>
    intro i hi hC hL c
    have hnil : path t i = [] := List.eq_nil_of_length_eq_zero (Nat.le_zero.mp hL)
    have hi0 : i = 0 := path_nil_eq_zero h.st hi hnil
    subst hi0
    exact hroot c
  | succ L ih =>
    intro i hi hC hL c
    by_cases hi0 : i = 0
    · subst hi0
      exact hroot c
    · obtain ⟨hset, hnotE⟩ := hC.resolve_left hi0
      have hD : Done t i := h.set_done i hi hi0 hset hnotE
      obtain ⟨-, hmerged⟩ := hD.2 hi0
      obtain ⟨j', hlss', hmax⟩ := h.set_max i hi hi0 hset
      rcases hmerged c with ⟨x₀, hTE₀, hlk₀⟩ | ⟨hnoedge, j, hlssj, hlk⟩
      · -- a tree child exists and the lookup hits it
        constructor
        · intro x hlk
          rw [hlk₀] at hlk
          obtain rfl : x₀ = x := Option.some_injective _ hlk
          exact ⟨i, hi, List.suffix_refl _, hTE₀, Or.inl hi0,
            fun w' _ hsfx _ _ => hsfx⟩
        · intro hlk
          rw [hlk₀] at hlk
          exact Option.noConfusion hlk
      · have hjj : j' = j := by rw [hlss'] at hlssj; exact Option.some_injective _ hlssj
        rw [hjj] at hmax
        have hcc := h.comp_closure i hi hi0 hset hnotE j hlssj
        by_cases hj0 : j = 0
        · subst hj0
          rw [if_pos rfl] at hlk
          constructor
          · intro x hx
            rw [hlk] at hx
            exact Option.noConfusion hx
          · intro _ w' hw' hsfx hw'0 y hTE
            have hw'ne0 : w' ≠ 0 := hw'0.resolve_right hi0
            by_cases hw'i : w' = i
            · subst hw'i
              exact hnoedge y hTE
            · have hstr := strictSfx_of_sfx_ne h.st hw' hi hsfx hw'i
              have := hmax.2.2 w' hw' hstr
              rw [path_zero h.st] at this
              exact hw'ne0 (path_nil_eq_zero h.st hw' (List.suffix_nil.mp this))
        · rw [if_neg hj0] at hlk
          have hjN : j < t.states.length := hmax.1
          have hLj : (path t j).length ≤ L := by
            have h1 := hmax.2.1.2
            omega
          have hIH := ih j hjN hcc.2 hLj c
          constructor
          · intro x hx
            rw [hlk] at hx
            obtain ⟨w, hwN, hwsfx, hTE, hw0, hmax_j⟩ := hIH.1 x hx
            have hw0' : w ≠ 0 := hw0.resolve_right hj0
            refine ⟨w, hwN, hwsfx.trans hmax.2.1.1, hTE, Or.inl hw0', ?_⟩
            intro w' hw' hsfx hw'0 hex
            have hw'ne0 : w' ≠ 0 := hw'0.resolve_right hi0
            by_cases hw'i : w' = i
            · subst hw'i
              obtain ⟨y, hy⟩ := hex
              exact absurd hy (hnoedge y)
            · have hstr := strictSfx_of_sfx_ne h.st hw' hi hsfx hw'i
              exact hmax_j w' hw' (hmax.2.2 w' hw' hstr) (Or.inl hw'ne0) hex
          · intro hx w' hw' hsfx hw'0 y hTE
            rw [hlk] at hx
            have hw'ne0 : w' ≠ 0 := hw'0.resolve_right hi0
            by_cases hw'i : w' = i
            · subst hw'i
              exact hnoedge y hTE
            · have hstr := strictSfx_of_sfx_ne h.st hw' hi hsfx hw'i
              exact hIH.2 hx w' hw' (hmax.2.2 w' hw' hstr) (Or.inl hw'ne0) y hTE

/-- Recover the tree edge producing a node whose path ends in `c`. -/
theorem edge_from_path_concat {t : KeywordTree} (hs : StInv t) {m : Nat}
    {s : List Char} {c : Char} (hm : m < t.states.length)
    (hpm : path t m = s ++ [c]) :
    ∃ pm, pm < t.states.length ∧ path t pm = s ∧ TreeEdge t pm c m := by
  have hm0 : m ≠ 0 := by
    intro h0
    rw [h0, path_zero hs] at hpm
    exact absurd hpm.symm (by simp)
  obtain ⟨pm, cm, hp, hplt, hc, _⟩ := hs.parent_lt m hm hm0
  have hu : path t m = path t pm ++ [cm] := path_unfold hs hp hc
  rw [hpm] at hu
  obtain ⟨hs1, hc1⟩ := List.append_inj' hu (by simp)
  have hcm : cm = c := by simpa using hc1.symm
  subst hcm
  exact ⟨pm, Nat.lt_trans hplt hm, hs1.symm, hm, hm0, hp, hc⟩

/-- Partial correctness of the `while True` loop of `search_lss`: whatever
identifier it returns is the node of the longest strict suffix of the
processed node's path that is realized in the trie. -/
theorem wloop_spec {t : KeywordTree} {E : List Nat} (h : GIE t E)
    {n p : Nat} {c : Char}
    (hnN : n < t.states.length) (hn0 : n ≠ 0)
    (hpar : (getS t n).parent = some p) (hsym : (getS t n).symbol = some c) :
    ∀ fuel trav r,
      trav < t.states.length →
      Comp t E trav →
      path t trav <:+ path t p →
      (trav ≠ 0 → (path t trav).length < (path t p).length) →
      (∀ m, m < t.states.length → StrictSfx (path t m) (path t n) →
        path t m = [] ∨ ∃ s, path t m = s ++ [c] ∧ s <:+ path t trav) →
      wloop t n (some c) fuel trav = some r →
      r < t.states.length ∧ MaxSfx t n r := by
  have hpath_n : path t n = path t p ++ [c] := path_unfold h.st hpar hsym
  have hpN : p < t.states.length := by
    obtain ⟨p', c', hp', hplt, _, _⟩ := h.st.parent_lt n hnN hn0
    have : p = p' := by rw [hpar] at hp'; exact Option.some_injective _ hp'
    subst this
    exact Nat.lt_trans hplt hnN
  have hroot_pure : PureTrans t 0 := (h.root_done.1 rfl).2
  have hnnil : path t n ≠ [] := path_ne_nil h.st hnN hn0
  intro fuel
  induction fuel with
  | zero =>
    intro trav r _ _ _ _ _ hw
    exact Option.noConfusion hw
  | succ fuel ih =>
    intro trav r htravN htravD htravSfx htravLen hub hw
    rw [show wloop t n (some c) (fuel + 1) trav =
        (match tlookup (getS t trav).transitions c with
         | some tgt =>
           if tgt ≠ n then some tgt
           else if trav = 0 then some 0
           else
             match (getS t trav).longest_strict_suffix with
             | none => none
             | some tr2 => wloop t n (some c) fuel tr2
         | none =>
           if trav = 0 then some 0
           else
             match (getS t trav).longest_strict_suffix with
             | none => none
             | some tr2 => wloop t n (some c) fuel tr2) from rfl] at hw
    cases hlk : tlookup (getS t trav).transitions c with
    | some tgt =>
      rw [hlk] at hw
      replace hw : (if tgt ≠ n then some tgt
          else if trav = 0 then some 0
          else match (getS t trav).longest_strict_suffix with
               | none => none
               | some tr2 => wloop t n (some c) fuel tr2) = some r := hw
      by_cases htgt : tgt = n
      · rw [if_neg (not_not_intro htgt)] at hw
        by_cases htrav0 : trav = 0
        · rw [if_pos htrav0] at hw
          obtain rfl : (0 : Nat) = r := Option.some_injective _ hw
          subst htrav0
          -- the zero state's transition on c is the node itself: depth-1 node
          refine ⟨h.st.pos, h.st.pos, ⟨by rw [path_zero h.st]; exact List.nil_suffix, by
            rw [path_zero h.st]
            simpa using List.length_pos.mpr hnnil⟩, ?_⟩
          intro m hm hstr
          rcases hub m hm hstr with hnil | ⟨s, hms, hssfx⟩
          · rw [hnil, path_zero h.st]
          · rw [path_zero h.st] at hssfx
            obtain rfl : s = [] := List.suffix_nil.mp hssfx
            obtain ⟨pm, hpmN, hpm0, hTE⟩ := edge_from_path_concat h.st hm hms
            have hpm' : pm = 0 := path_nil_eq_zero h.st hpmN hpm0
            subst hpm'
            have h5 := (hroot_pure c m).mpr hTE
            rw [hlk] at h5
            have h6 : tgt = m := Option.some_injective _ h5
            have hmn : m = n := by rw [← h6, htgt]
            subst hmn
            exact absurd hstr.2 (by rw [hms]; omega)
        · -- tgt = n with a non-root traversed is impossible
          exfalso
          obtain ⟨hg, -⟩ := gd_spec h (path t trav).length trav htravN htravD (le_refl _) c
          obtain ⟨w, hwN, hwsfx, hTE, -, -⟩ := hg tgt hlk
          subst htgt
          have hwp : w = p := by
            have h5 := hTE.2.2.1
            rw [hpar] at h5
            exact (Option.some_injective _ h5).symm
          subst hwp
          have h1 := hwsfx.length_le
          have h2 := htravLen htrav0
          omega
      · rw [if_pos htgt] at hw
        obtain rfl : tgt = r := Option.some_injective _ hw
        by_cases htrav0 : trav = 0
        · -- hit in the root's own transitions: path of the hit is [c]
          subst htrav0
          have hTE : TreeEdge t 0 c tgt := (hroot_pure c tgt).mp hlk
          have htgtN : tgt < t.states.length := hTE.1
          have hptgt : path t tgt = [c] := by
            rw [path_edge h.st hTE, path_zero h.st]
            rfl
          have hppos : path t p ≠ [] := by
            intro hnil
            have hp0 : p = 0 := path_nil_eq_zero h.st hpN hnil
            subst hp0
            obtain ⟨p', c', hp', hplt, hc', hlk'⟩ := h.st.parent_lt n hnN hn0
            have he1 : p' = 0 := by rw [hpar] at hp'; exact (Option.some_injective _ hp').symm
            subst he1
            have he2 : c' = c := by rw [hsym] at hc'; exact (Option.some_injective _ hc').symm
            subst he2
            rw [hlk'] at hlk
            exact htgt (Option.some_injective _ hlk).symm
          refine ⟨htgtN, htgtN, ⟨?_, ?_⟩, ?_⟩
          · rw [hptgt, hpath_n]
            exact sfx_append_right c (List.nil_suffix)
          · rw [hptgt, hpath_n]
            have := List.length_pos.mpr hppos
            simp only [List.length_append, List.length_cons, List.length_nil]
            omega
          · intro m hm hstr
            rcases hub m hm hstr with hnil | ⟨s, hms, hssfx⟩
            · rw [hnil]
              exact List.nil_suffix
            · rw [path_zero h.st] at hssfx
              obtain rfl : s = [] := List.suffix_nil.mp hssfx
              rw [hms, hptgt]
              simp
        · -- hit through a completed traversed node
          obtain ⟨hg, -⟩ := gd_spec h (path t trav).length trav htravN htravD (le_refl _) c
          obtain ⟨w, hwN, hwsfx, hTE, hw0, hmaxw⟩ := hg tgt hlk
          have htgtN : tgt < t.states.length := hTE.1
          have hptgt : path t tgt = path t w ++ [c] := path_edge h.st hTE
          have hlenw : (path t w).length ≤ (path t trav).length := hwsfx.length_le
          have hlenp := htravLen htrav0
          refine ⟨htgtN, htgtN, ⟨?_, ?_⟩, ?_⟩
          · rw [hptgt, hpath_n]
            exact sfx_append_right c (hwsfx.trans htravSfx)
          · rw [hptgt, hpath_n]
            simp only [List.length_append, List.length_cons, List.length_nil]
            omega
          · intro m hm hstr
            rcases hub m hm hstr with hnil | ⟨s, hms, hssfx⟩
            · rw [hnil]
              exact List.nil_suffix
            · obtain ⟨pm, hpmN, hpms, hTEm⟩ := edge_from_path_concat h.st hm hms
              by_cases hpm0 : pm = 0
              · rw [hms, hptgt]
                rw [hpm0, path_zero h.st] at hpms
                rw [← hpms]
                exact sfx_append_right c (List.nil_suffix)
              · have hsfx2 : path t pm <:+ path t trav := by rw [hpms]; exact hssfx
                have := hmaxw pm hpmN hsfx2 (Or.inl hpm0) ⟨m, hTEm⟩
                rw [hms, hptgt, ← hpms]
                exact sfx_append_right c this
    | none =>
      rw [hlk] at hw
      replace hw : (if trav = 0 then some 0
          else match (getS t trav).longest_strict_suffix with
               | none => none
               | some tr2 => wloop t n (some c) fuel tr2) = some r := hw
      by_cases htrav0 : trav = 0
      · rw [if_pos htrav0] at hw
        obtain rfl : (0 : Nat) = r := Option.some_injective _ hw
        subst htrav0
        refine ⟨h.st.pos, h.st.pos, ⟨by rw [path_zero h.st]; exact List.nil_suffix, by
          rw [path_zero h.st]
          simpa using List.length_pos.mpr hnnil⟩, ?_⟩
        intro m hm hstr
        rcases hub m hm hstr with hnil | ⟨s, hms, hssfx⟩
        · rw [hnil, path_zero h.st]
        · rw [path_zero h.st] at hssfx
          obtain rfl : s = [] := List.suffix_nil.mp hssfx
          obtain ⟨pm, hpmN, hpm0, hTE⟩ := edge_from_path_concat h.st hm hms
          have hpm' : pm = 0 := path_nil_eq_zero h.st hpmN hpm0
          subst hpm'
          have := (hroot_pure c m).mpr hTE
          rw [hlk] at this
          exact Option.noConfusion this
      · rw [if_neg htrav0] at hw
        obtain ⟨hset, hnotE⟩ := htravD.resolve_left htrav0
        obtain ⟨j, hlssj, hmax⟩ := h.set_max trav htravN htrav0 hset
        rw [hlssj] at hw
        have hcc := h.comp_closure trav htravN htrav0 hset hnotE j hlssj
        have hjN : j < t.states.length := hcc.1
        obtain ⟨-, hgnone⟩ := gd_spec h (path t trav).length trav htravN htravD (le_refl _) c
        refine ih j r hjN hcc.2 (hmax.2.1.1.trans htravSfx) ?_ ?_ hw
        · intro hj0
          have h1 := hmax.2.1.2
          have h2 := htravLen htrav0
          omega
        · intro m hm hstr
          rcases hub m hm hstr with hnil | ⟨s, hms, hssfx⟩
          · exact Or.inl hnil
          · obtain ⟨pm, hpmN, hpms, hTEm⟩ := edge_from_path_concat h.st hm hms
            by_cases hpmtrav : pm = trav
            · exfalso
              subst hpmtrav
              exact hgnone hlk pm hpmN (List.suffix_refl _) (Or.inl htrav0) m hTEm
            · have hsfx2 : path t pm <:+ path t trav := by rw [hpms]; exact hssfx
              have hstr2 := strictSfx_of_sfx_ne h.st hpmN htravN hsfx2 hpmtrav
              have := hmax.2.2 pm hpmN hstr2
              refine Or.inr ⟨s, hms, ?_⟩
              rw [← hpms]
              exact this

/-! ## The merge loop -/

theorem mergeInto_zero : ∀ (src acc : List (Char × Nat)), mergeInto 0 acc src = acc := by
  intro src
  induction src with
  | nil => intro acc; rfl
  | cons hd rest ih =>
    intro acc
    obtain ⟨c, v⟩ := hd
    show mergeInto 0 (if tlookup acc c = none ∧ (0 : Nat) ≠ 0 then acc ++ [(c, v)] else acc) rest = acc
    rw [if_neg (by simp)]
    exact ih acc

theorem mergeInto_lookup_some {r : Nat} :
    ∀ (src acc : List (Char × Nat)) (c : Char) (v : Nat),
      tlookup acc c = some v → tlookup (mergeInto r acc src) c = some v := by
  intro src
  induction src with
  | nil => intro acc c v hv; exact hv
  | cons hd rest ih =>
    intro acc c v hv
    obtain ⟨c0, v0⟩ := hd
    show tlookup (mergeInto r
      (if tlookup acc c0 = none ∧ r ≠ 0 then acc ++ [(c0, v0)] else acc) rest) c = some v
    by_cases hcond : tlookup acc c0 = none ∧ r ≠ 0
    · rw [if_pos hcond]
      refine ih _ c v ?_
      rw [tlookup_append_single hcond.1]
      by_cases hc : c = c0
      · rw [hc] at hv
        rw [hcond.1] at hv
        exact Option.noConfusion hv
      · rw [if_neg hc]
        exact hv
    · rw [if_neg hcond]
      exact ih acc c v hv

theorem mergeInto_lookup_none {r : Nat} (hr : r ≠ 0) :
    ∀ (src acc : List (Char × Nat)) (c : Char),
      tlookup acc c = none → tlookup (mergeInto r acc src) c = tlookup src c := by
  intro src
  induction src with
  | nil => intro acc c hv; exact hv
  | cons hd rest ih =>
    intro acc c hv
    obtain ⟨c0, v0⟩ := hd
    show tlookup (mergeInto r
      (if tlookup acc c0 = none ∧ r ≠ 0 then acc ++ [(c0, v0)] else acc) rest) c =
      tlookup ((c0, v0) :: rest) c
    by_cases hc : c0 = c
    · subst hc
      rw [if_pos ⟨hv, hr⟩]
      have h1 : tlookup (acc ++ [(c0, v0)]) c0 = some v0 := by
        rw [tlookup_append_single hv]
        simp
      rw [mergeInto_lookup_some rest _ c0 v0 h1]
      simp [tlookup]
    · have hstep : tlookup ((c0, v0) :: rest) c = tlookup rest c := by
        simp [tlookup, hc]
      rw [hstep]
      by_cases hcond : tlookup acc c0 = none ∧ r ≠ 0
      · rw [if_pos hcond]
        refine ih _ c ?_
        rw [tlookup_append_single hcond.1]
        rw [if_neg (fun he => hc he.symm)]
        exact hv
      · rw [if_neg hcond]
        exact ih acc c hv

theorem mergeInto_mem {r : Nat} :
    ∀ (src acc : List (Char × Nat)) (pr : Char × Nat),
      pr ∈ mergeInto r acc src → pr ∈ acc ∨ pr ∈ src := by
  intro src
  induction src with
  | nil => intro acc pr h; exact Or.inl h
  | cons hd rest ih =>
    intro acc pr h
    obtain ⟨c0, v0⟩ := hd
    replace h : pr ∈ mergeInto r
        (if tlookup acc c0 = none ∧ r ≠ 0 then acc ++ [(c0, v0)] else acc) rest := h
    rcases ih _ pr h with hacc | hrest
    · by_cases hcond : tlookup acc c0 = none ∧ r ≠ 0
      · rw [if_pos hcond] at hacc
        rcases List.mem_append.mp hacc with h1 | h1
        · exact Or.inl h1
        · right
          simp only [List.mem_singleton] at h1
          rw [h1]
          exact List.mem_cons_self _ _
      · rw [if_neg hcond] at hacc
        exact Or.inl hacc
    · exact Or.inr (List.mem_cons_of_mem _ hrest)

theorem mergeInto_nodup {r : Nat} :
    ∀ (src acc : List (Char × Nat)), keysNodup acc → keysNodup (mergeInto r acc src) := by
  intro src
  induction src with
  | nil => intro acc h; exact h
  | cons hd rest ih =>
    intro acc h
    obtain ⟨c0, v0⟩ := hd
    show keysNodup (mergeInto r
      (if tlookup acc c0 = none ∧ r ≠ 0 then acc ++ [(c0, v0)] else acc) rest)
    by_cases hcond : tlookup acc c0 = none ∧ r ≠ 0
    · rw [if_pos hcond]
      exact ih _ (keysNodup_append_single h hcond.1)
    · rw [if_neg hcond]
      exact ih acc h

/-! ## Transfer of the invariant notions along field-preserving writes -/

theorem treeEdge_congr {t t' : KeywordTree}
    (hlen : t'.states.length = t.states.length)
    (hfe : ∀ j, (getS t' j).parent = (getS t j).parent ∧
                (getS t' j).symbol = (getS t j).symbol)
    {w x : Nat} {c : Char} : TreeEdge t' w c x ↔ TreeEdge t w c x := by
  unfold TreeEdge
  rw [hlen, (hfe x).1, (hfe x).2]

theorem pure_congr2 {t t' : KeywordTree} {i : Nat}
    (hlen : t'.states.length = t.states.length)
    (hfe : ∀ j, (getS t' j).parent = (getS t j).parent ∧
                (getS t' j).symbol = (getS t j).symbol)
    (hti : (getS t' i).transitions = (getS t i).transitions)
    (h : PureTrans t i) : PureTrans t' i := by
  intro c x
  rw [hti, treeEdge_congr hlen hfe]
  exact h c x

theorem maxSfx_congr {t t' : KeywordTree} {i j : Nat}
    (hlen : t'.states.length = t.states.length)
    (hpaths : ∀ k, path t' k = path t k) :
    MaxSfx t' i j ↔ MaxSfx t i j := by
  unfold MaxSfx StrictSfx
  rw [hlen]
  constructor
  · rintro ⟨h1, h2, h3⟩
    rw [hpaths i, hpaths j] at h2
    refine ⟨h1, h2, fun m hm hs => ?_⟩
    have := h3 m hm (by rw [hpaths m, hpaths i]; exact hs)
    rw [hpaths m, hpaths j] at this
    exact this
  · rintro ⟨h1, h2, h3⟩
    rw [← hpaths i, ← hpaths j] at h2
    refine ⟨h1, h2, fun m hm hs => ?_⟩
    have := h3 m hm (by rw [← hpaths m, ← hpaths i]; exact hs)
    rw [← hpaths m, ← hpaths j] at this
    exact this

theorem done_transfer {t t' : KeywordTree} {i : Nat}
    (hlen : t'.states.length = t.states.length)
    (hfe : ∀ j, (getS t' j).parent = (getS t j).parent ∧
                (getS t' j).symbol = (getS t j).symbol)
    (hi : getS t' i = getS t i)
    (hlssi : ∀ j, (getS t i).longest_strict_suffix = some j →
      (getS t' j).transitions = (getS t j).transitions)
    (hD : Done t i) : Done t' i := by
  constructor
  · intro h0
    subst h0
    obtain ⟨h1, h2⟩ := hD.1 rfl
    exact ⟨by rw [hi]; exact h1, pure_congr2 hlen hfe (by rw [hi]) h2⟩
  · intro hi0
    obtain ⟨hset, hm⟩ := hD.2 hi0
    refine ⟨by unfold SetNode; rw [hi]; exact hset, ?_⟩
    intro c
    rcases hm c with ⟨x, hTE, hlk⟩ | ⟨hno, j, hlss, hlk⟩
    · exact Or.inl ⟨x, (treeEdge_congr hlen hfe).mpr hTE, by rw [hi]; exact hlk⟩
    · refine Or.inr ⟨fun x hx => hno x ((treeEdge_congr hlen hfe).mp hx),
        j, by rw [hi]; exact hlss, ?_⟩
      rw [hi]
      rw [hlk]
      by_cases hj0 : j = 0
      · rw [if_pos hj0, if_pos hj0]
      · rw [if_neg hj0, if_neg hj0, hlssi j hlss]

/-- Assigning the freshly computed suffix link of `n` keeps the global
invariant, with `n` joining the pending chain. -/
theorem gie_setLss {t : KeywordTree} {E : List Nat} {n r : Nat}
    (hG : GIE t E) (hnN : n < t.states.length) (hn0 : n ≠ 0)
    (hunset : ¬ SetNode t n) (hnE : n ∉ E) (hmax : MaxSfx t n r) :
    GIE (setLss t n r) (E ++ [n]) := by
  set t1 := setLss t n r with ht1
  have hlen1 : t1.states.length = t.states.length := length_setLss ..
  have hfe : ∀ j, (getS t1 j).parent = (getS t j).parent ∧
      (getS t1 j).symbol = (getS t j).symbol :=
    fun j => ⟨(fields_setLss t n r j).1, (fields_setLss t n r j).2.1⟩
  have htr : ∀ j, (getS t1 j).transitions = (getS t j).transitions :=
    fun j => (fields_setLss t n r j).2.2.2.2
  have hpaths : ∀ k, path t1 k = path t k := path_setLss t n r
  have hne0n : (0 : Nat) ≠ n := fun he => hn0 he.symm
  have hget_n : getS t1 n = { getS t n with longest_strict_suffix := some r } :=
    getS_setLss_self hnN
  have hsetiff : ∀ j, j ≠ n → (SetNode t1 j ↔ SetNode t j) := by
    intro j hj
    unfold SetNode
    rw [getS_setLss_ne hj]
  have hset_n : SetNode t1 n := by
    unfold SetNode
    rw [hget_n]
    simp
  refine ⟨?_, ?_, ?_, ?_, ?_, ?_, ?_⟩
  · refine stinv_congr hG.st hlen1 rfl rfl
      (fun j => ⟨(hfe j).1, (hfe j).2, htr j⟩) ?_
    intro i hi hsu
    rw [(fields_setLss t n r i).2.2.1] at hsu
    obtain ⟨kw, hm, hf⟩ := hG.st.success_wf i hi hsu
    exact ⟨kw, by rw [(fields_setLss t n r i).2.2.2.1]; exact hm, hf⟩
  · exact done_transfer hlen1 hfe (getS_setLss_ne hne0n)
      (fun j _ => htr j) hG.root_done
  · intro i hi hi0 hset
    rw [hlen1] at hi
    by_cases hin : i = n
    · refine ⟨r, by rw [hin, hget_n], ?_⟩
      rw [hin]
      exact (maxSfx_congr hlen1 hpaths).mpr hmax
    · obtain ⟨j, hlss, hmx⟩ := hG.set_max i hi hi0 ((hsetiff i hin).mp hset)
      exact ⟨j, by rw [getS_setLss_ne hin]; exact hlss,
        (maxSfx_congr hlen1 hpaths).mpr hmx⟩
  · intro i hi hi0 hset hiE'
    rw [hlen1] at hi
    have hin : i ≠ n := fun he => hiE' (he ▸ List.mem_append_right E (by simp))
    have hiE : i ∉ E := fun he => hiE' (List.mem_append_left _ he)
    exact done_transfer hlen1 hfe (getS_setLss_ne hin) (fun j _ => htr j)
      (hG.set_done i hi hi0 ((hsetiff i hin).mp hset) hiE)
  · intro i hi hi0 hset hiE' j hlssj
    rw [hlen1] at hi
    have hin : i ≠ n := fun he => hiE' (he ▸ List.mem_append_right E (by simp))
    have hiE : i ∉ E := fun he => hiE' (List.mem_append_left _ he)
    rw [getS_setLss_ne hin] at hlssj
    obtain ⟨hjN, hCj⟩ := hG.comp_closure i hi hi0 ((hsetiff i hin).mp hset) hiE j hlssj
    refine ⟨by rw [hlen1]; exact hjN, ?_⟩
    rcases hCj with hj0 | ⟨hsj, hjE⟩
    · exact Or.inl hj0
    · have hjn : j ≠ n := fun he => hunset (he ▸ hsj)
      refine Or.inr ⟨(hsetiff j hjn).mpr hsj, ?_⟩
      intro hmem
      rcases List.mem_append.mp hmem with hm | hm
      · exact hjE hm
      · exact hjn (by simpa using hm)
  · intro i hi hun
    rw [hlen1] at hi
    have hin : i ≠ n := fun he => hun (he ▸ hset_n)
    exact pure_congr2 hlen1 hfe (htr i)
      (hG.unset_pure i hi ((fun hs => hun ((hsetiff i hin).mpr hs))))
  · intro e he
    rcases List.mem_append.mp he with hm | hm
    · obtain ⟨h1, h2, h3, h4⟩ := hG.pending e hm
      have hen : e ≠ n := fun hee => hnE (hee ▸ hm)
      exact ⟨by rw [hlen1]; exact h1, h2, (hsetiff e hen).mpr h3,
        pure_congr2 hlen1 hfe (htr e) h4⟩
    · obtain rfl : e = n := by simpa using hm
      exact ⟨by rw [hlen1]; exact hnN, hn0, hset_n,
        pure_congr2 hlen1 hfe (htr e) (hG.unset_pure e hnN hunset)⟩

/-- Performing the merge of `n` closes its pending activation: the global
invariant holds for the shorter chain and `n` is fully processed. -/
theorem gie_merge {t2 : KeywordTree} {E : List Nat} {n r : Nat}
    (hG2 : GIE t2 (E ++ [n]))
    (hnN : n < t2.states.length) (hn0 : n ≠ 0) (hnE : n ∉ E)
    (hlssn : (getS t2 n).longest_strict_suffix = some r)
    (hrN : r < t2.states.length) (hrn : r ≠ n) (hrE : r ∉ E)
    (hrset : r = 0 ∨ SetNode t2 r) :
    GIE (setTrans t2 n (mergeInto r (getS t2 n).transitions (getS t2 r).transitions)) E ∧
    Done (setTrans t2 n (mergeInto r (getS t2 n).transitions (getS t2 r).transitions)) n := by
  set merged := mergeInto r (getS t2 n).transitions (getS t2 r).transitions with hmg
  set t3 := setTrans t2 n merged with ht3
  have hlen3 : t3.states.length = t2.states.length := length_setTrans ..
  have hfe : ∀ j, (getS t3 j).parent = (getS t2 j).parent ∧
      (getS t3 j).symbol = (getS t2 j).symbol :=
    fun j => ⟨(fields_setTrans t2 n merged j).1, (fields_setTrans t2 n merged j).2.1⟩
  have hlssf : ∀ j, (getS t3 j).longest_strict_suffix =
      (getS t2 j).longest_strict_suffix :=
    fun j => (fields_setTrans t2 n merged j).2.2.2.2
  have hpaths : ∀ k, path t3 k = path t2 k := path_setTrans t2 n merged
  have hget_n : getS t3 n = { getS t2 n with transitions := merged } :=
    getS_setTrans_self hnN
  have hget_ne : ∀ j, j ≠ n → getS t3 j = getS t2 j :=
    fun j hj => getS_setTrans_ne hj
  have hne0n : (0 : Nat) ≠ n := fun he => hn0 he.symm
  have hsetiff : ∀ j, SetNode t3 j ↔ SetNode t2 j := by
    intro j
    unfold SetNode
    rw [hlssf j]
  have hnmem : n ∈ E ++ [n] := List.mem_append_right E (by simp)
  obtain ⟨-, -, hset_n2, hpure_n2⟩ := hG2.pending n hnmem
  have htr_n : (getS t3 n).transitions = merged := by rw [hget_n]
  -- the merged lookup in three flavours
  have hacc_nodup : keysNodup (getS t2 n).transitions := (hG2.st.trans_wf n hnN).1
  have hlk_some : ∀ c x, tlookup (getS t2 n).transitions c = some x →
      tlookup merged c = some x := by
    intro c x hx
    by_cases hr0 : r = 0
    · rw [hmg, hr0, mergeInto_zero]
      exact hx
    · rw [hmg]
      exact mergeInto_lookup_some _ _ c x hx
  have hlk_none : ∀ c, tlookup (getS t2 n).transitions c = none →
      tlookup merged c = (if r = 0 then none
        else tlookup (getS t2 r).transitions c) := by
    intro c hc
    by_cases hr0 : r = 0
    · rw [hmg, hr0, mergeInto_zero, if_pos rfl]
      exact hc
    · rw [hmg, if_neg hr0]
      exact mergeInto_lookup_none hr0 _ _ c hc
  have hDone_n : Done t3 n := by
    constructor
    · intro h0
      exact absurd h0 hn0
    · intro hne2
      refine ⟨by rw [hsetiff n]; exact hset_n2, ?_⟩
      intro c
      by_cases hedge : ∃ x, TreeEdge t2 n c x
      · obtain ⟨x, hx⟩ := hedge
        refine Or.inl ⟨x, (treeEdge_congr hlen3 hfe).mpr hx, ?_⟩
        rw [htr_n]
        exact hlk_some c x ((hpure_n2 c x).mpr hx)
      · refine Or.inr ⟨fun x hx => hedge ⟨x, (treeEdge_congr hlen3 hfe).mp hx⟩,
          r, by rw [hlssf n]; exact hlssn, ?_⟩
        have hnone : tlookup (getS t2 n).transitions c = none := by
          cases hl : tlookup (getS t2 n).transitions c with
          | none => rfl
          | some y => exact absurd ⟨y, (hpure_n2 c y).mp hl⟩ hedge
        rw [htr_n, hlk_none c hnone]
        by_cases hr0 : r = 0
        · rw [if_pos hr0, if_pos hr0]
        · rw [if_neg hr0, if_neg hr0, (hget_ne r hrn)]
  refine ⟨⟨?_, ?_, ?_, ?_, ?_, ?_, ?_⟩, hDone_n⟩
  · -- StInv t3
    refine ⟨?_, ?_, ?_, ?_, ?_, ?_, ?_⟩
    · rw [hlen3]
      show t2.counter = _
      exact hG2.st.counter_eq
    · rw [hlen3]; exact hG2.st.pos
    · rw [(hfe 0).1]; exact hG2.st.root_parent
    · rw [(hfe 0).2]; exact hG2.st.root_symbol
    · intro i hi hi0
      rw [hlen3] at hi
      obtain ⟨p, c, hp, hplt, hc, hlk⟩ := hG2.st.parent_lt i hi hi0
      refine ⟨p, c, (hfe i).1.trans hp, hplt, (hfe i).2.trans hc, ?_⟩
      by_cases hpn : p = n
      · rw [hpn, hget_n]
        show tlookup merged c = some i
        rw [hpn] at hlk
        exact hlk_some c i hlk
      · rw [hget_ne p hpn]
        exact hlk
    · intro i hi
      rw [hlen3] at hi
      by_cases hin : i = n
      · rw [hin, hget_n]
        show keysNodup merged ∧ _
        constructor
        · exact mergeInto_nodup _ _ hacc_nodup
        · intro pr hpr
          rcases mergeInto_mem _ _ pr hpr with h1 | h1
          · have := (hG2.st.trans_wf n hnN).2 pr h1
            omega
          · have := (hG2.st.trans_wf r hrN).2 pr h1
            omega
      · rw [hget_ne i hin, hlen3]
        exact hG2.st.trans_wf i hi
    · intro i hi hsu
      rw [hlen3] at hi
      rw [(fields_setTrans t2 n merged i).2.2.1] at hsu
      obtain ⟨kw, hm, hf⟩ := hG2.st.success_wf i hi hsu
      refine ⟨kw, by rw [(fields_setTrans t2 n merged i).2.2.2.1]; exact hm, ?_⟩
      rw [show t3.case_insensitive = t2.case_insensitive from rfl, hpaths i]
      exact hf
  · exact done_transfer hlen3 hfe (hget_ne 0 hne0n)
      (fun j hj => by
        rw [hG2.root_done.1 rfl |>.1] at hj
        obtain rfl : (0 : Nat) = j := Option.some_injective _ hj
        rw [hget_ne 0 hne0n]) hG2.root_done
  · intro i hi hi0 hset
    rw [hlen3] at hi
    obtain ⟨j, hlss, hmx⟩ := hG2.set_max i hi hi0 ((hsetiff i).mp hset)
    exact ⟨j, by rw [hlssf i]; exact hlss, (maxSfx_congr hlen3 hpaths).mpr hmx⟩
  · intro i hi hi0 hset hiE
    rw [hlen3] at hi
    by_cases hin : i = n
    · rw [hin]
      exact hDone_n
    · have hiE' : i ∉ E ++ [n] := by
        intro hmem
        rcases List.mem_append.mp hmem with hm | hm
        · exact hiE hm
        · exact hin (by simpa using hm)
      have hD2 : Done t2 i := hG2.set_done i hi hi0 ((hsetiff i).mp hset) hiE'
      refine done_transfer hlen3 hfe (hget_ne i hin) ?_ hD2
      intro j hj
      obtain ⟨hjN, hCj⟩ := hG2.comp_closure i hi hi0 ((hsetiff i).mp hset) hiE' j hj
      have hjn : j ≠ n := by
        rcases hCj with hj0 | ⟨-, hjE'⟩
        · rw [hj0]; exact hne0n
        · exact fun he => hjE' (he ▸ hnmem)
      rw [hget_ne j hjn]
  · intro i hi hi0 hset hiE j hlssj
    rw [hlen3] at hi
    rw [hlssf i] at hlssj
    by_cases hin : i = n
    · have hjr : j = r := by
        rw [hin] at hlssj
        rw [hlssn] at hlssj
        exact (Option.some_injective _ hlssj).symm
      subst hjr
      refine ⟨by rw [hlen3]; exact hrN, ?_⟩
      rcases hrset with hr0 | hrs
      · exact Or.inl hr0
      · exact Or.inr ⟨(hsetiff j).mpr hrs, hrE⟩
    · have hiE' : i ∉ E ++ [n] := by
        intro hmem
        rcases List.mem_append.mp hmem with hm | hm
        · exact hiE hm
        · exact hin (by simpa using hm)
      obtain ⟨hjN, hCj⟩ := hG2.comp_closure i hi hi0 ((hsetiff i).mp hset) hiE' j hlssj
      refine ⟨by rw [hlen3]; exact hjN, ?_⟩
      rcases hCj with hj0 | ⟨hsj, hjE'⟩
      · exact Or.inl hj0
      · refine Or.inr ⟨(hsetiff j).mpr hsj, fun he => hjE' (List.mem_append_left _ he)⟩
  · intro i hi hun
    rw [hlen3] at hi
    have hin : i ≠ n := by
      intro he
      rw [he, hsetiff n] at hun
      exact hun hset_n2
    exact pure_congr2 hlen3 hfe (by rw [hget_ne i hin])
      (hG2.unset_pure i hi (fun hs => hun ((hsetiff i).mpr hs)))
  · intro e he
    have hen : e ≠ n := fun hee => hnE (hee ▸ he)
    obtain ⟨h1, h2, h3, h4⟩ := hG2.pending e (List.mem_append_left _ he)
    exact ⟨by rw [hlen3]; exact h1, h2, (hsetiff e).mpr h3,
      pure_congr2 hlen3 hfe (by rw [hget_ne e hen]) h4⟩

/-- Partial correctness of `search_lss`: a completed run preserves the global
invariant, fully processes its argument, and leaves every already-linked node
untouched. -/
theorem search_lss_spec : ∀ (fuel : Nat) (t : KeywordTree) (n : Nat)
    (E : List Nat) (t' : KeywordTree),
    GIE t E →
    (∀ e, e ∈ E → (path t n).length < (path t e).length) →
    n < t.states.length →
    search_lss fuel t n = some t' →
    GIE t' E ∧ Done t' n ∧ SetNode t' n ∧
    t'.states.length = t.states.length ∧
    t'.counter = t.counter ∧
    t'.finalized = t.finalized ∧
    t'.case_insensitive = t.case_insensitive ∧
    (∀ j, (getS t' j).parent = (getS t j).parent ∧
          (getS t' j).symbol = (getS t j).symbol ∧
          (getS t' j).success = (getS t j).success ∧
          (getS t' j).matched_keyword = (getS t j).matched_keyword) ∧
    (∀ j, SetNode t j → getS t' j = getS t j) := by
  intro fuel
  induction fuel with
  | zero =>
    intro t n E t' _ _ _ h
    exact Option.noConfusion h
  | succ fuel ih =>
    intro t n E t' hG hE hnN hrun
    replace hrun : (match (getS t n).longest_strict_suffix with
      | some _ => some t
      | none =>
        match (getS t n).parent with
        | none => none
        | some p =>
          match (getS t p).longest_strict_suffix with
          | none => none
          | some trav0 =>
            match wloop t n (getS t n).symbol (t.states.length + 1) trav0 with
            | none => none
            | some r =>
              match (if (getS (setLss t n r) r).longest_strict_suffix = none
                     then search_lss fuel (setLss t n r) r
                     else some (setLss t n r)) with
              | none => none
              | some t2 =>
                some (setTrans t2 n
                  (mergeInto r (getS t2 n).transitions (getS t2 r).transitions))) =
        some t' := hrun
    cases hlss : (getS t n).longest_strict_suffix with
    | some v =>
      rw [hlss] at hrun
      replace hrun : some t = some t' := hrun
      obtain rfl : t = t' := Option.some_injective _ hrun
      have hset : SetNode t n := by unfold SetNode; rw [hlss]; simp
      have hD : Done t n := by
        by_cases hn0 : n = 0
        · rw [hn0]
          exact hG.root_done
        · have hnE : n ∉ E := fun hmem => absurd (hE n hmem) (Nat.lt_irrefl _)
          exact hG.set_done n hnN hn0 hset hnE
      exact ⟨hG, hD, hset, rfl, rfl, rfl, rfl,
        fun j => ⟨rfl, rfl, rfl, rfl⟩, fun j _ => rfl⟩
    | none =>
      rw [hlss] at hrun
      replace hrun : (match (getS t n).parent with
        | none => none
        | some p =>
          match (getS t p).longest_strict_suffix with
          | none => none
          | some trav0 =>
            match wloop t n (getS t n).symbol (t.states.length + 1) trav0 with
            | none => none
            | some r =>
              match (if (getS (setLss t n r) r).longest_strict_suffix = none
                     then search_lss fuel (setLss t n r) r
                     else some (setLss t n r)) with
              | none => none
              | some t2 =>
                some (setTrans t2 n
                  (mergeInto r (getS t2 n).transitions (getS t2 r).transitions))) =
          some t' := hrun
      cases hpar : (getS t n).parent with
      | none =>
        rw [hpar] at hrun
        exact Option.noConfusion hrun
      | some p =>
        rw [hpar] at hrun
        replace hrun : (match (getS t p).longest_strict_suffix with
          | none => none
          | some trav0 =>
            match wloop t n (getS t n).symbol (t.states.length + 1) trav0 with
            | none => none
            | some r =>
              match (if (getS (setLss t n r) r).longest_strict_suffix = none
                     then search_lss fuel (setLss t n r) r
                     else some (setLss t n r)) with
              | none => none
              | some t2 =>
                some (setTrans t2 n
                  (mergeInto r (getS t2 n).transitions (getS t2 r).transitions))) =
            some t' := hrun
        cases hplss : (getS t p).longest_strict_suffix with
        | none =>
          rw [hplss] at hrun
          exact Option.noConfusion hrun
        | some trav0 =>
          rw [hplss] at hrun
          replace hrun : (match wloop t n (getS t n).symbol (t.states.length + 1) trav0 with
            | none => none
            | some r =>
              match (if (getS (setLss t n r) r).longest_strict_suffix = none
                     then search_lss fuel (setLss t n r) r
                     else some (setLss t n r)) with
              | none => none
              | some t2 =>
                some (setTrans t2 n
                  (mergeInto r (getS t2 n).transitions (getS t2 r).transitions))) =
              some t' := hrun
          cases hwl : wloop t n (getS t n).symbol (t.states.length + 1) trav0 with
          | none =>
            rw [hwl] at hrun
            exact Option.noConfusion hrun
          | some r =>
            rw [hwl] at hrun
            replace hrun : (match (if (getS (setLss t n r) r).longest_strict_suffix = none
                   then search_lss fuel (setLss t n r) r
                   else some (setLss t n r)) with
              | none => none
              | some t2 =>
                some (setTrans t2 n
                  (mergeInto r (getS t2 n).transitions (getS t2 r).transitions))) =
                some t' := hrun
            have hn0 : n ≠ 0 := by
              intro h0
              have h1 := (hG.root_done.1 rfl).1
              rw [h0] at hlss
              rw [hlss] at h1
              exact Option.noConfusion h1
            have hunset : ¬ SetNode t n := by
              unfold SetNode
              rw [hlss]
              simp
            obtain ⟨p2, c, hp2, hplt, hsym, hlkp⟩ := hG.st.parent_lt n hnN hn0
            have hpp : p2 = p := by
              rw [hpar] at hp2
              exact (Option.some_injective _ hp2).symm
            rw [hpp] at hplt hlkp
            have hpN : p < t.states.length := Nat.lt_trans hplt hnN
            have hpath_n : path t n = path t p ++ [c] := path_unfold hG.st hpar hsym
            have hlennp : (path t p).length + 1 = (path t n).length := by
              rw [hpath_n]
              simp
            have hnE : n ∉ E := fun hmem => absurd (hE n hmem) (Nat.lt_irrefl _)
            have hpset : SetNode t p := by unfold SetNode; rw [hplss]; simp
            have hpE : p ∉ E := by
              intro hmem
              have := hE p hmem
              omega
            have hmaxp : p ≠ 0 → MaxSfx t p trav0 := by
              intro hp0
              obtain ⟨j, hlssp, hmx⟩ := hG.set_max p hpN hp0 hpset
              have : j = trav0 := by
                rw [hplss] at hlssp
                exact (Option.some_injective _ hlssp).symm
              rw [← this]
              exact hmx
            have htfacts : trav0 < t.states.length ∧ Comp t E trav0 ∧
                path t trav0 <:+ path t p ∧
                (trav0 ≠ 0 → (path t trav0).length < (path t p).length) := by
              by_cases hp0 : p = 0
              · have h00 : trav0 = 0 := by
                  have h1 := (hG.root_done.1 rfl).1
                  rw [hp0] at hplss
                  rw [hplss] at h1
                  exact Option.some_injective _ h1
                rw [h00]
                exact ⟨hG.st.pos, Or.inl rfl,
                  by rw [hp0], fun hh => absurd rfl hh⟩
              · have hmx := hmaxp hp0
                obtain ⟨hccN, hccC⟩ := hG.comp_closure p hpN hp0 hpset hpE trav0 hplss
                exact ⟨hccN, hccC, hmx.2.1.1, fun _ => hmx.2.1.2⟩
            have hub0 : ∀ m, m < t.states.length → StrictSfx (path t m) (path t n) →
                path t m = [] ∨ ∃ s, path t m = s ++ [c] ∧ s <:+ path t trav0 := by
              intro m hm hstr
              have hsfx1 : path t m <:+ path t p ++ [c] := by
                rw [← hpath_n]
                exact hstr.1
              rcases sfx_concat_cases hsfx1 with hnil | ⟨s, hssfx, hform⟩
              · exact Or.inl hnil
              · have hlens : s.length < (path t p).length := by
                  have h1 := hstr.2
                  have h2 : (path t m).length = s.length + 1 := by rw [hform]; simp
                  omega
                by_cases hp0 : p = 0
                · exfalso
                  rw [hp0, path_zero hG.st] at hlens
                  simp at hlens
                · obtain ⟨pm, hpmN, hpms, hTEm⟩ := edge_from_path_concat hG.st hm hform
                  have hstrp : StrictSfx (path t pm) (path t p) := by
                    rw [hpms]
                    exact ⟨hssfx, hlens⟩
                  have := (hmaxp hp0).2.2 pm hpmN hstrp
                  refine Or.inr ⟨s, hform, ?_⟩
                  rw [← hpms]
                  exact this
            rw [hsym] at hwl
            have hr := wloop_spec hG hnN hn0 hpar hsym (t.states.length + 1) trav0 r
              htfacts.1 htfacts.2.1 htfacts.2.2.1 htfacts.2.2.2 hub0 hwl
            have hrN : r < t.states.length := hr.1
            have hmaxnr : MaxSfx t n r := hr.2
            have hrlen : (path t r).length < (path t n).length := hmaxnr.2.1.2
            have hrn : r ≠ n := by
              intro he
              rw [he] at hrlen
              exact Nat.lt_irrefl _ hrlen
            have hrE : r ∉ E := by
              intro hmem
              have := hE r hmem
              omega
            have hG1 : GIE (setLss t n r) (E ++ [n]) :=
              gie_setLss hG hnN hn0 hunset hnE hmaxnr
            have hlen1 : (setLss t n r).states.length = t.states.length :=
              length_setLss ..
            have hpaths1 : ∀ k, path (setLss t n r) k = path t k := path_setLss t n r
            have hset1n : SetNode (setLss t n r) n := by
              unfold SetNode
              rw [getS_setLss_self hnN]
              simp
            have hfinish : ∀ t2 : KeywordTree,
                GIE t2 (E ++ [n]) →
                getS t2 n = getS (setLss t n r) n →
                SetNode t2 r →
                t2.states.length = (setLss t n r).states.length →
                t2.counter = (setLss t n r).counter →
                t2.finalized = (setLss t n r).finalized →
                t2.case_insensitive = (setLss t n r).case_insensitive →
                (∀ j, (getS t2 j).parent = (getS (setLss t n r) j).parent ∧
                      (getS t2 j).symbol = (getS (setLss t n r) j).symbol ∧
                      (getS t2 j).success = (getS (setLss t n r) j).success ∧
                      (getS t2 j).matched_keyword = (getS (setLss t n r) j).matched_keyword) →
                (∀ j, SetNode (setLss t n r) j → getS t2 j = getS (setLss t n r) j) →
                GIE (setTrans t2 n
                    (mergeInto r (getS t2 n).transitions (getS t2 r).transitions)) E ∧
                Done (setTrans t2 n
                    (mergeInto r (getS t2 n).transitions (getS t2 r).transitions)) n ∧
                SetNode (setTrans t2 n
                    (mergeInto r (getS t2 n).transitions (getS t2 r).transitions)) n ∧
                (setTrans t2 n
                    (mergeInto r (getS t2 n).transitions (getS t2 r).transitions)).states.length = t.states.length ∧
                (setTrans t2 n
                    (mergeInto r (getS t2 n).transitions (getS t2 r).transitions)).counter = t.counter ∧
                (setTrans t2 n
                    (mergeInto r (getS t2 n).transitions (getS t2 r).transitions)).finalized = t.finalized ∧
                (setTrans t2 n
                    (mergeInto r (getS t2 n).transitions (getS t2 r).transitions)).case_insensitive = t.case_insensitive ∧
                (∀ j, (getS (setTrans t2 n
                    (mergeInto r (getS t2 n).transitions (getS t2 r).transitions)) j).parent = (getS t j).parent ∧
                      (getS (setTrans t2 n
                    (mergeInto r (getS t2 n).transitions (getS t2 r).transitions)) j).symbol = (getS t j).symbol ∧
                      (getS (setTrans t2 n
                    (mergeInto r (getS t2 n).transitions (getS t2 r).transitions)) j).success = (getS t j).success ∧
                      (getS (setTrans t2 n
                    (mergeInto r (getS t2 n).transitions (getS t2 r).transitions)) j).matched_keyword = (getS t j).matched_keyword) ∧
                (∀ j, SetNode t j → getS (setTrans t2 n
                    (mergeInto r (getS t2 n).transitions (getS t2 r).transitions)) j = getS t j) := by
              intro t2 hG2 hget2n hSr2 hlen2 hcnt2 hfin2 hci2 hfe2 hsp21
              have hnN2 : n < t2.states.length := by rw [hlen2, hlen1]; exact hnN
              have hrN2 : r < t2.states.length := by rw [hlen2, hlen1]; exact hrN
              have hlssn2 : (getS t2 n).longest_strict_suffix = some r := by
                rw [hget2n, getS_setLss_self hnN]
              obtain ⟨hGM, hDM⟩ := gie_merge hG2 hnN2 hn0 hnE hlssn2 hrN2 hrn hrE
                (Or.inr hSr2)
              set merged := mergeInto r (getS t2 n).transitions (getS t2 r).transitions
              refine ⟨hGM, hDM, ?_, ?_, ?_, ?_, ?_, ?_, ?_⟩
              · unfold SetNode
                rw [(fields_setTrans t2 n merged n).2.2.2.2, hlssn2]
                simp
              · rw [length_setTrans, hlen2, hlen1]
              · rw [show (setTrans t2 n merged).counter = t2.counter from rfl, hcnt2]
                rfl
              · rw [show (setTrans t2 n merged).finalized = t2.finalized from rfl, hfin2]
                rfl
              · rw [show (setTrans t2 n merged).case_insensitive = t2.case_insensitive from rfl, hci2]
                rfl
              · intro j
                have h3 := fields_setTrans t2 n merged j
                have h2 := hfe2 j
                have h1 := fields_setLss t n r j
                exact ⟨h3.1.trans (h2.1.trans h1.1),
                  h3.2.1.trans (h2.2.1.trans h1.2.1),
                  h3.2.2.1.trans (h2.2.2.1.trans h1.2.2.1),
                  h3.2.2.2.1.trans (h2.2.2.2.trans h1.2.2.2.1)⟩
              · intro j hj
                have hjn : j ≠ n := fun he => hunset (he ▸ hj)
                have hj1 : SetNode (setLss t n r) j := by
                  unfold SetNode
                  rw [getS_setLss_ne hjn]
                  exact hj
                rw [getS_setTrans_ne hjn, hsp21 j hj1, getS_setLss_ne hjn]
            by_cases hrec : (getS (setLss t n r) r).longest_strict_suffix = none
            · rw [if_pos hrec] at hrun
              cases hsl : search_lss fuel (setLss t n r) r with
              | none =>
                rw [hsl] at hrun
                exact Option.noConfusion hrun
              | some t2 =>
                rw [hsl] at hrun
                replace hrun : some (setTrans t2 n
                    (mergeInto r (getS t2 n).transitions (getS t2 r).transitions)) =
                    some t' := hrun
                obtain rfl := Option.some_injective _ hrun
                have hE1 : ∀ e, e ∈ E ++ [n] →
                    (path (setLss t n r) r).length < (path (setLss t n r) e).length := by
                  intro e he
                  rw [hpaths1 r, hpaths1 e]
                  rcases List.mem_append.mp he with hm | hm
                  · have := hE e hm
                    omega
                  · obtain rfl : e = n := by simpa using hm
                    exact hrlen
                obtain ⟨hG2, hDr2, hSr2, hlen2, hcnt2, hfin2, hci2, hfe2, hsp21⟩ :=
                  ih (setLss t n r) r (E ++ [n]) t2 hG1 hE1 (by rw [hlen1]; exact hrN) hsl
                exact hfinish t2 hG2 (hsp21 n hset1n) hSr2 hlen2 hcnt2 hfin2 hci2
                  hfe2 hsp21
            · rw [if_neg hrec] at hrun
              replace hrun : some (setTrans (setLss t n r) n
                  (mergeInto r (getS (setLss t n r) n).transitions
                    (getS (setLss t n r) r).transitions)) = some t' := hrun
              obtain rfl := Option.some_injective _ hrun
              have hSr1 : SetNode (setLss t n r) r := hrec
              exact hfinish (setLss t n r) hG1 rfl hSr1 rfl rfl rfl rfl
                (fun j => ⟨rfl, rfl, rfl, rfl⟩) (fun j _ => rfl)

/-- The global invariant only depends on the arena, the counter and the
case-insensitivity flag. -/
theorem gie_congr {t t' : KeywordTree} {E : List Nat}
    (hlen : t'.states.length = t.states.length)
    (hcnt : t'.counter = t.counter)
    (hci : t'.case_insensitive = t.case_insensitive)
    (hget : ∀ j, getS t' j = getS t j)
    (hG : GIE t E) : GIE t' E := by
  have hfe : ∀ j, (getS t' j).parent = (getS t j).parent ∧
      (getS t' j).symbol = (getS t j).symbol :=
    fun j => by rw [hget j]; exact ⟨rfl, rfl⟩
  have hf3 : ∀ j, (getS t' j).parent = (getS t j).parent ∧
      (getS t' j).symbol = (getS t j).symbol ∧
      (getS t' j).transitions = (getS t j).transitions :=
    fun j => by rw [hget j]; exact ⟨rfl, rfl, rfl⟩
  have hpaths : ∀ k, path t' k = path t k := path_congr hfe
  have hsetiff : ∀ j, SetNode t' j ↔ SetNode t j := by
    intro j
    unfold SetNode
    rw [hget j]
  refine ⟨?_, ?_, ?_, ?_, ?_, ?_, ?_⟩
  · refine stinv_congr hG.st hlen hcnt hci hf3 ?_
    intro i hi hsu
    rw [hget i] at hsu ⊢
    exact hG.st.success_wf i hi hsu
  · exact done_transfer hlen hfe (hget 0) (fun j _ => by rw [hget j]) hG.root_done
  · intro i hi hi0 hset
    rw [hlen] at hi
    obtain ⟨j, h1, h2⟩ := hG.set_max i hi hi0 ((hsetiff i).mp hset)
    exact ⟨j, by rw [hget i]; exact h1, (maxSfx_congr hlen hpaths).mpr h2⟩
  · intro i hi hi0 hset hiE
    rw [hlen] at hi
    exact done_transfer hlen hfe (hget i) (fun j _ => by rw [hget j])
      (hG.set_done i hi hi0 ((hsetiff i).mp hset) hiE)
  · intro i hi hi0 hset hiE j hlssj
    rw [hlen] at hi
    rw [hget i] at hlssj
    obtain ⟨hjN, hC⟩ := hG.comp_closure i hi hi0 ((hsetiff i).mp hset) hiE j hlssj
    refine ⟨by rw [hlen]; exact hjN, ?_⟩
    rcases hC with h0 | ⟨hs, hE2⟩
    · exact Or.inl h0
    · exact Or.inr ⟨(hsetiff j).mpr hs, hE2⟩
  · intro i hi hun
    rw [hlen] at hi
    exact pure_congr2 hlen hfe (by rw [hget i])
      (hG.unset_pure i hi (fun hs => hun ((hsetiff i).mpr hs)))
  · intro e he
    obtain ⟨h1, h2, h3, h4⟩ := hG.pending e he
    exact ⟨by rw [hlen]; exact h1, h2, (hsetiff e).mpr h3,
      pure_congr2 hlen hfe (by rw [hget e]) h4⟩

/-- Under the frames produced by `search_lss_spec` with empty pending chain,
being fully processed is preserved. -/
theorem done_frames {t t' : KeywordTree} (hG : GIE t [])
    (hlen : t'.states.length = t.states.length)
    (hfe : ∀ j, (getS t' j).parent = (getS t j).parent ∧
                (getS t' j).symbol = (getS t j).symbol)
    (hsp : ∀ j, SetNode t j → getS t' j = getS t j)
    {i : Nat} (hiN : i < t.states.length) (hD : Done t i) : Done t' i := by
  have hroot : SetNode t 0 := by
    unfold SetNode
    rw [(hG.root_done.1 rfl).1]
    simp
  by_cases hi0 : i = 0
  · refine done_transfer hlen hfe (by rw [hi0]; exact hsp 0 hroot) ?_ hD
    intro j hj
    rw [hi0, (hG.root_done.1 rfl).1] at hj
    obtain rfl : (0 : Nat) = j := Option.some_injective _ hj
    rw [hsp 0 hroot]
  · have hset : SetNode t i := (hD.2 hi0).1
    refine done_transfer hlen hfe (hsp i hset) ?_ hD
    intro j hj
    obtain ⟨hjN, hC⟩ := hG.comp_closure i hiN hi0 hset (List.not_mem_nil i) j hj
    rcases hC with h0 | ⟨hs, -⟩
    · rw [h0, hsp 0 hroot]
    · rw [hsp j hs]

/-- `finalize`'s first assignment `zero.longest_strict_suffix = zero` turns the
build-phase invariant into the global invariant with nothing pending. -/
theorem pre_gie {t : KeywordTree} (hP : Pre t) : GIE (setLss t 0 0) [] := by
  obtain ⟨hs, hun, hpure⟩ := hP
  set t1 := setLss t 0 0 with ht1
  have hlen1 : t1.states.length = t.states.length := length_setLss ..
  have hfe : ∀ j, (getS t1 j).parent = (getS t j).parent ∧
      (getS t1 j).symbol = (getS t j).symbol :=
    fun j => ⟨(fields_setLss t 0 0 j).1, (fields_setLss t 0 0 j).2.1⟩
  have htr : ∀ j, (getS t1 j).transitions = (getS t j).transitions :=
    fun j => (fields_setLss t 0 0 j).2.2.2.2
  have hget0 : getS t1 0 = { getS t 0 with longest_strict_suffix := some 0 } :=
    getS_setLss_self hs.pos
  have hsetiff : ∀ j, j ≠ 0 → (SetNode t1 j ↔ SetNode t j) := by
    intro j hj
    unfold SetNode
    rw [getS_setLss_ne hj]
  refine ⟨?_, ?_, ?_, ?_, ?_, ?_, ?_⟩
  · refine stinv_congr hs hlen1 rfl rfl (fun j => ⟨(hfe j).1, (hfe j).2, htr j⟩) ?_
    intro i hi hsu
    rw [(fields_setLss t 0 0 i).2.2.1] at hsu
    obtain ⟨kw, hm, hf⟩ := hs.success_wf i hi hsu
    exact ⟨kw, by rw [(fields_setLss t 0 0 i).2.2.2.1]; exact hm, hf⟩
  · constructor
    · intro h0
      exact ⟨by rw [hget0], pure_congr2 hlen1 hfe (htr 0) (hpure 0 hs.pos)⟩
    · intro h
      exact absurd rfl h
  · intro i hi hi0 hset
    exact absurd ((hsetiff i hi0).mp hset) (hun i)
  · intro i hi hi0 hset hiE
    exact absurd ((hsetiff i hi0).mp hset) (hun i)
  · intro i hi hi0 hset hiE j hl
    exact absurd ((hsetiff i hi0).mp hset) (hun i)
  · intro i hi hunset
    rw [hlen1] at hi
    exact pure_congr2 hlen1 hfe (htr i) (hpure i hi)
  · intro e he
    exact absurd he (List.not_mem_nil e)

/-- The per-node loop of `search_lss_for_children`: runs `search_lss` on every
unprocessed child, leaving the invariant intact, pushing exactly the
unprocessed children, and fully processing them. -/
theorem slfcChildren_spec : ∀ (cs : List Nat) (fuel : Nat) (t : KeywordTree)
    (processed stack : List Nat) (t1 : KeywordTree) (stack1 : List Nat),
    GIE t [] →
    (∀ x, x ∈ cs → x < t.states.length) →
    slfcChildren fuel t processed stack cs = some (t1, stack1) →
    GIE t1 [] ∧
    t1.states.length = t.states.length ∧
    t1.counter = t.counter ∧
    t1.finalized = t.finalized ∧
    t1.case_insensitive = t.case_insensitive ∧
    (∀ j, (getS t1 j).parent = (getS t j).parent ∧
          (getS t1 j).symbol = (getS t j).symbol ∧
          (getS t1 j).success = (getS t j).success ∧
          (getS t1 j).matched_keyword = (getS t j).matched_keyword) ∧
    (∀ j, SetNode t j → getS t1 j = getS t j) ∧
    (∀ x, x ∈ stack1 ↔ x ∈ stack ∨ (x ∈ cs ∧ x ∉ processed)) ∧
    (∀ x, x ∈ cs → x ∉ processed → Done t1 x) := by
  intro cs
  induction cs with
  | nil =>
    intro fuel t processed stack t1 stack1 hG hcs hrun
    replace hrun : some (t, stack) = some (t1, stack1) := hrun
    have hpr := Option.some_injective _ hrun
    obtain ⟨rfl, rfl⟩ : t = t1 ∧ stack = stack1 := Prod.mk.injEq .. ▸ hpr
    exact ⟨hG, rfl, rfl, rfl, rfl, fun j => ⟨rfl, rfl, rfl, rfl⟩, fun j _ => rfl,
      fun x => by simp, fun x hx => absurd hx (List.not_mem_nil x)⟩
  | cons ch rest ih =>
    intro fuel t processed stack t1 stack1 hG hcs hrun
    replace hrun : (if ch ∈ processed then slfcChildren fuel t processed stack rest
      else match search_lss fuel t ch with
        | none => none
        | some ta => slfcChildren fuel ta processed (ch :: stack) rest) =
        some (t1, stack1) := hrun
    by_cases hchp : ch ∈ processed
    · rw [if_pos hchp] at hrun
      obtain ⟨h1, h2, h3, h4, h5, h6, h7, h8, h9⟩ :=
        ih fuel t processed stack t1 stack1 hG
          (fun x hx => hcs x (List.mem_cons_of_mem _ hx)) hrun
      refine ⟨h1, h2, h3, h4, h5, h6, h7, ?_, ?_⟩
      · intro x
        rw [h8 x]
        constructor
        · rintro (h | ⟨h, hnp⟩)
          · exact Or.inl h
          · exact Or.inr ⟨List.mem_cons_of_mem _ h, hnp⟩
        · rintro (h | ⟨h, hnp⟩)
          · exact Or.inl h
          · rcases List.mem_cons.mp h with rfl | hr
            · exact absurd hchp hnp
            · exact Or.inr ⟨hr, hnp⟩
      · intro x hx hnp
        rcases List.mem_cons.mp hx with rfl | hr
        · exact absurd hchp hnp
        · exact h9 x hr hnp
    · rw [if_neg hchp] at hrun
      cases hsl : search_lss fuel t ch with
      | none =>
        rw [hsl] at hrun
        exact Option.noConfusion hrun
      | some ta =>
        rw [hsl] at hrun
        replace hrun : slfcChildren fuel ta processed (ch :: stack) rest =
          some (t1, stack1) := hrun
        have hchN : ch < t.states.length := hcs ch (List.mem_cons_self ..)
        obtain ⟨hGa, hDcha, hScha, hlena, hcnta, hfina, hcia, hfea, hspa⟩ :=
          search_lss_spec fuel t ch [] ta hG
            (fun e he => absurd he (List.not_mem_nil e)) hchN hsl
        obtain ⟨hG1, hlen1, hcnt1, hfin1, hci1, hfe1, hsp1, hstk1, hdone1⟩ :=
          ih fuel ta processed (ch :: stack) t1 stack1 hGa
            (fun x hx => by rw [hlena]; exact hcs x (List.mem_cons_of_mem _ hx)) hrun
        have hfe2 : ∀ j, (getS t1 j).parent = (getS ta j).parent ∧
            (getS t1 j).symbol = (getS ta j).symbol :=
          fun j => ⟨(hfe1 j).1, (hfe1 j).2.1⟩
        have hDch1 : Done t1 ch :=
          done_frames hGa hlen1 hfe2 hsp1 (by rw [hlena]; exact hchN) hDcha
        refine ⟨hG1, hlen1.trans hlena, hcnt1.trans hcnta, hfin1.trans hfina,
          hci1.trans hcia,
          fun j => ⟨(hfe1 j).1.trans (hfea j).1, (hfe1 j).2.1.trans (hfea j).2.1,
            (hfe1 j).2.2.1.trans (hfea j).2.2.1,
            (hfe1 j).2.2.2.trans (hfea j).2.2.2⟩, ?_, ?_, ?_⟩
        · intro j hj
          have hja : SetNode ta j := by
            unfold SetNode
            rw [hspa j hj]
            exact hj
          exact (hsp1 j hja).trans (hspa j hj)
        · intro x
          rw [hstk1 x]
          constructor
          · rintro (h | ⟨h, hnp⟩)
            · rcases List.mem_cons.mp h with rfl | hs2
              · exact Or.inr ⟨List.mem_cons_self .., hchp⟩
              · exact Or.inl hs2
            · exact Or.inr ⟨List.mem_cons_of_mem _ h, hnp⟩
          · rintro (h | ⟨h, hnp⟩)
            · exact Or.inl (List.mem_cons_of_mem _ h)
            · rcases List.mem_cons.mp h with rfl | hr
              · exact Or.inl (List.mem_cons_self ..)
              · exact Or.inr ⟨hr, hnp⟩
        · intro x hx hnp
          rcases List.mem_cons.mp hx with rfl | hr
          · exact hDch1
          · exact hdone1 x hr hnp

/-- The work-list loop of `search_lss_for_children`: preserves the invariant,
processes everything it is given, and the final processed set is closed under
tree children. -/
theorem sfc_spec : ∀ (fuel : Nat) (t : KeywordTree) (processed stack : List Nat)
    (t' : KeywordTree) (procs : List Nat),
    GIE t [] →
    (∀ x, x ∈ processed ++ stack → x < t.states.length ∧ Done t x) →
    (∀ x, x ∈ processed → ∀ c j, TreeEdge t x c j → j ∈ processed ∨ j ∈ stack) →
    search_lss_for_children fuel t processed stack = some (t', procs) →
    GIE t' [] ∧
    t'.states.length = t.states.length ∧
    t'.counter = t.counter ∧
    t'.finalized = t.finalized ∧
    t'.case_insensitive = t.case_insensitive ∧
    (∀ j, (getS t' j).parent = (getS t j).parent ∧
          (getS t' j).symbol = (getS t j).symbol ∧
          (getS t' j).success = (getS t j).success ∧
          (getS t' j).matched_keyword = (getS t j).matched_keyword) ∧
    (∀ j, SetNode t j → getS t' j = getS t j) ∧
    (∀ x, x ∈ processed ++ stack → x ∈ procs) ∧
    (∀ x, x ∈ procs → x < t'.states.length ∧ Done t' x) ∧
    (∀ x, x ∈ procs → ∀ c j, TreeEdge t' x c j → j ∈ procs) := by
  intro fuel
  induction fuel with
  | zero =>
    intro t processed stack t' procs _ _ _ hrun
    exact Option.noConfusion hrun
  | succ fuel ih =>
    intro t processed stack t' procs hG hmem hclosed hrun
    cases stack with
    | nil =>
      replace hrun : some (t, processed) = some (t', procs) := hrun
      have hpr := Option.some_injective _ hrun
      obtain ⟨rfl, rfl⟩ : t = t' ∧ processed = procs := Prod.mk.injEq .. ▸ hpr
      refine ⟨hG, rfl, rfl, rfl, rfl, fun j => ⟨rfl, rfl, rfl, rfl⟩,
        fun j _ => rfl, ?_, ?_, ?_⟩
      · intro x hx
        rw [List.append_nil] at hx
        exact hx
      · intro x hx
        exact hmem x (by rw [List.append_nil]; exact hx)
      · intro x hx c j hTE
        rcases hclosed x hx c j hTE with h | h
        · exact h
        · exact absurd h (List.not_mem_nil j)
    | cons st rest =>
      replace hrun : (match slfcChildren (fuel + 1) t (st :: processed) rest
          ((getS t st).transitions.map (·.2)) with
        | none => none
        | some (ta, stack1) =>
          search_lss_for_children fuel ta (st :: processed) stack1) =
          some (t', procs) := hrun
      cases hsc : slfcChildren (fuel + 1) t (st :: processed) rest
          ((getS t st).transitions.map (·.2)) with
      | none =>
        rw [hsc] at hrun
        exact Option.noConfusion hrun
      | some pr =>
        obtain ⟨ta, stack1⟩ := pr
        rw [hsc] at hrun
        replace hrun : search_lss_for_children fuel ta (st :: processed) stack1 =
          some (t', procs) := hrun
        have hstN : st < t.states.length :=
          (hmem st (List.mem_append_right _ (List.mem_cons_self ..))).1
        have hcs : ∀ x, x ∈ (getS t st).transitions.map (·.2) →
            x < t.states.length := by
          intro x hx
          obtain ⟨pr2, hpr2, rfl⟩ := List.mem_map.mp hx
          exact ((hG.st.trans_wf st hstN).2 pr2 hpr2).1
        obtain ⟨hGa, hlena, hcnta, hfina, hcia, hfea, hspa, hstka, hdonea⟩ :=
          slfcChildren_spec _ (fuel + 1) t (st :: processed) rest ta stack1 hG hcs hsc
        have hfe2a : ∀ j, (getS ta j).parent = (getS t j).parent ∧
            (getS ta j).symbol = (getS t j).symbol :=
          fun j => ⟨(hfea j).1, (hfea j).2.1⟩
        have hmem_a : ∀ x, x ∈ (st :: processed) ++ stack1 →
            x < ta.states.length ∧ Done ta x := by
          intro x hx
          rcases List.mem_append.mp hx with hx1 | hx2
          · have hxold : x ∈ processed ++ st :: rest := by
              rcases List.mem_cons.mp hx1 with rfl | hxp
              · exact List.mem_append_right _ (List.mem_cons_self ..)
              · exact List.mem_append_left _ hxp
            obtain ⟨hxN, hxD⟩ := hmem x hxold
            exact ⟨by rw [hlena]; exact hxN,
              done_frames hG hlena hfe2a hspa hxN hxD⟩
          · rcases (hstka x).mp hx2 with hxr | ⟨hxcs, hxnp⟩
            · have hxold : x ∈ processed ++ st :: rest :=
                List.mem_append_right _ (List.mem_cons_of_mem _ hxr)
              obtain ⟨hxN, hxD⟩ := hmem x hxold
              exact ⟨by rw [hlena]; exact hxN,
                done_frames hG hlena hfe2a hspa hxN hxD⟩
            · exact ⟨by rw [hlena]; exact hcs x hxcs, hdonea x hxcs hxnp⟩
        have hclosed_a : ∀ x, x ∈ st :: processed → ∀ c j, TreeEdge ta x c j →
            j ∈ st :: processed ∨ j ∈ stack1 := by
          intro x hx c j hTE
          rw [treeEdge_congr hlena hfe2a] at hTE
          rcases List.mem_cons.mp hx with rfl | hxp
          · obtain ⟨hjN, hj0, hjp, hjs⟩ := hTE
            obtain ⟨p, c2, hp, hplt, hsym2, hlkp⟩ := hG.st.parent_lt j hjN hj0
            have hps : p = x := by
              rw [hjp] at hp
              exact (Option.some_injective _ hp).symm
            have hcc : c2 = c := by
              rw [hjs] at hsym2
              exact (Option.some_injective _ hsym2).symm
            rw [hps, hcc] at hlkp
            have hjcs : j ∈ (getS t x).transitions.map (·.2) :=
              List.mem_map.mpr ⟨(c, j), tlookup_mem hlkp, rfl⟩
            by_cases hjp2 : j ∈ x :: processed
            · exact Or.inl hjp2
            · exact Or.inr ((hstka j).mpr (Or.inr ⟨hjcs, hjp2⟩))
          · rcases hclosed x hxp c j hTE with hj | hj
            · exact Or.inl (List.mem_cons_of_mem _ hj)
            · rcases List.mem_cons.mp hj with rfl | hjr
              · exact Or.inl (List.mem_cons_self ..)
              · exact Or.inr ((hstka j).mpr (Or.inl hjr))
        obtain ⟨hG', hlen', hcnt', hfin', hci', hfe', hsp', hmem', hdone', hcl'⟩ :=
          ih ta (st :: processed) stack1 t' procs hGa hmem_a hclosed_a hrun
        refine ⟨hG', hlen'.trans hlena, hcnt'.trans hcnta, hfin'.trans hfina,
          hci'.trans hcia,
          fun j => ⟨(hfe' j).1.trans (hfea j).1, (hfe' j).2.1.trans (hfea j).2.1,
            (hfe' j).2.2.1.trans (hfea j).2.2.1,
            (hfe' j).2.2.2.trans (hfea j).2.2.2⟩, ?_, ?_, hdone', hcl'⟩
        · intro j hj
          have hja : SetNode ta j := by
            unfold SetNode
            rw [hspa j hj]
            exact hj
          exact (hsp' j hja).trans (hspa j hj)
        · intro x hx
          apply hmem'
          rcases List.mem_append.mp hx with hxp | hxs
          · exact List.mem_append_left _ (List.mem_cons_of_mem _ hxp)
          · rcases List.mem_cons.mp hxs with rfl | hxr
            · exact List.mem_append_left _ (List.mem_cons_self ..)
            · exact List.mem_append_right _ ((hstka x).mpr (Or.inl hxr))

/-- A processed set containing the root and closed under tree children
contains every node of the arena. -/
theorem procs_all {t : KeywordTree} (hG : GIE t []) {procs : List Nat}
    (h0 : 0 ∈ procs)
    (hcl : ∀ x, x ∈ procs → ∀ c j, TreeEdge t x c j → j ∈ procs) :
    ∀ i, i < t.states.length → i ∈ procs := by
  intro i
  induction i using Nat.strong_induction_on with
  | _ i ih =>
    intro hiN
    by_cases hi0 : i = 0
    · rw [hi0]
      exact h0
    · obtain ⟨p, c, hp, hplt, hsym, hlkp⟩ := hG.st.parent_lt i hiN hi0
      have hpN : p < t.states.length := Nat.lt_trans hplt hiN
      exact hcl p (ih p hplt hpN) c i ⟨hiN, hi0, hp, hsym⟩

/-- A completed run of `finalize` on a built tree produces the compiled
automaton, changing nothing except suffix links, merged transitions and the
`finalized` flag. -/
theorem finalize_spec {t t' : KeywordTree} (hP : Pre t)
    (hfin : t.finalized = false)
    (hrun : t.finalize = .ok (some t')) :
    FinInv t' ∧
    t'.states.length = t.states.length ∧
    t'.counter = t.counter ∧
    t'.case_insensitive = t.case_insensitive ∧
    (∀ j, (getS t' j).parent = (getS t j).parent ∧
          (getS t' j).symbol = (getS t j).symbol ∧
          (getS t' j).success = (getS t j).success ∧
          (getS t' j).matched_keyword = (getS t j).matched_keyword) ∧
    (∀ k, path t' k = path t k) ∧
    (getS t' 0).transitions = (getS t 0).transitions := by
  have hstep : KeywordTree.finalize t =
      (match search_lss_for_children (finFuel t) (setLss t 0 0) [] [0] with
        | none => Except.ok none
        | some (t2, _) => Except.ok (some { t2 with finalized := true })) := by
    unfold KeywordTree.finalize
    rw [hfin]
    rfl
  rw [hstep] at hrun
  cases hwk : search_lss_for_children (finFuel t) (setLss t 0 0) [] [0] with
  | none =>
    rw [hwk] at hrun
    replace hrun : (Except.ok none : Except String (Option KeywordTree)) =
      .ok (some t') := hrun
    injection hrun with h
    exact Option.noConfusion h
  | some pr =>
    obtain ⟨t2, procs⟩ := pr
    rw [hwk] at hrun
    replace hrun : (Except.ok (some { t2 with finalized := true }) :
      Except String (Option KeywordTree)) = .ok (some t') := hrun
    injection hrun with h
    obtain rfl : { t2 with finalized := true } = t' := Option.some_injective _ h
    have hG1 : GIE (setLss t 0 0) [] := pre_gie hP
    have hlen1 : (setLss t 0 0).states.length = t.states.length := length_setLss ..
    have hmem0 : ∀ x, x ∈ ([] : List Nat) ++ [0] →
        x < (setLss t 0 0).states.length ∧ Done (setLss t 0 0) x := by
      intro x hx
      obtain rfl : x = 0 := by simpa using hx
      exact ⟨by rw [hlen1]; exact hP.1.pos, hG1.root_done⟩
    have hclosed0 : ∀ x, x ∈ ([] : List Nat) → ∀ c j,
        TreeEdge (setLss t 0 0) x c j → j ∈ ([] : List Nat) ∨ j ∈ [0] :=
      fun x hx => absurd hx (List.not_mem_nil x)
    obtain ⟨hG2, hlen2, hcnt2, hfin2, hci2, hfe2, hsp2, hmemf, hdonef, hclf⟩ :=
      sfc_spec (finFuel t) (setLss t 0 0) [] [0] t2 procs hG1 hmem0 hclosed0 hwk
    have h0p : 0 ∈ procs := hmemf 0 (by simp)
    have hall : ∀ i, i < t2.states.length → SetNode t2 i := by
      intro i hiN
      have hip : i ∈ procs := procs_all hG2 h0p hclf i hiN
      have hD := (hdonef i hip).2
      by_cases hi0 : i = 0
      · unfold SetNode
        rw [hi0, (hG2.root_done.1 rfl).1]
        simp
      · exact (hD.2 hi0).1
    have hfe : ∀ j, (getS t2 j).parent = (getS t j).parent ∧
        (getS t2 j).symbol = (getS t j).symbol ∧
        (getS t2 j).success = (getS t j).success ∧
        (getS t2 j).matched_keyword = (getS t j).matched_keyword := by
      intro j
      have h2 := hfe2 j
      have h1 := fields_setLss t 0 0 j
      exact ⟨h2.1.trans h1.1, h2.2.1.trans h1.2.1, h2.2.2.1.trans h1.2.2.1,
        h2.2.2.2.trans h1.2.2.2.1⟩
    have hgetfin : ∀ j, getS { t2 with finalized := true } j = getS t2 j :=
      fun j => rfl
    refine ⟨⟨@gie_congr t2 { t2 with finalized := true } [] rfl rfl rfl hgetfin hG2,
      rfl, hall⟩, ?_, ?_, ?_, ?_, ?_, ?_⟩
    · rw [show ({ t2 with finalized := true } : KeywordTree).states.length =
        t2.states.length from rfl, hlen2, hlen1]
    · rw [show ({ t2 with finalized := true } : KeywordTree).counter =
        t2.counter from rfl, hcnt2]
      rfl
    · rw [show ({ t2 with finalized := true } : KeywordTree).case_insensitive =
        t2.case_insensitive from rfl, hci2]
      rfl
    · intro j
      rw [hgetfin j]
      exact hfe j
    · intro k
      exact path_congr (fun j => by rw [hgetfin j]; exact ⟨(hfe j).1, (hfe j).2.1⟩) k
    · rw [hgetfin 0]
      have hset0 : SetNode (setLss t 0 0) 0 := by
        unfold SetNode
        rw [getS_setLss_self hP.1.pos]
        simp
      rw [hsp2 0 hset0]
      exact (fields_setLss t 0 0 0).2.2.2.2

/-- C7: after a completed `finalize`, the root's `longest_strict_suffix` is the
root itself, and every other node's `longest_strict_suffix` is assigned, never
the node itself, and strictly shallower (its distance from the root along
parent links is strictly smaller than the node's). -/
theorem C7_failure_link_invariant {ci : Bool} {kws : List (List Char)}
    {t' : KeywordTree}
    (hrun : (buildTree ci kws).finalize = .ok (some t')) :
    (getS t' 0).longest_strict_suffix = some 0 ∧
    ∀ i, i < t'.states.length → i ≠ 0 →
      ∃ j, (getS t' i).longest_strict_suffix = some j ∧ j ≠ i ∧
        (path t' j).length < (path t' i).length := by
  obtain ⟨hPre, hfin, -, -⟩ := buildTree_spec ci kws
  obtain ⟨hFin, -, -, -, -, -, -⟩ := finalize_spec hPre hfin hrun
  refine ⟨(hFin.gie.root_done.1 rfl).1, ?_⟩
  intro i hiN hi0
  obtain ⟨j, hlss, hmax⟩ := hFin.gie.set_max i hiN hi0 (hFin.all_set i hiN)
  refine ⟨j, hlss, ?_, hmax.2.1.2⟩
  intro he
  rw [he] at hmax
  exact Nat.lt_irrefl _ hmax.2.1.2

/-- Witness for C7 at the finalized tree for keywords `"she"`, `"he"`. -/
theorem C7_witness :
    (buildTree false [['s', 'h', 'e'], ['h', 'e']]).finalize = .ok (some sheHeTree) ∧
    ((getS sheHeTree 0).longest_strict_suffix = some 0 ∧
     ∀ i, i < sheHeTree.states.length → i ≠ 0 →
       ∃ j, (getS sheHeTree i).longest_strict_suffix = some j ∧ j ≠ i ∧
         (path sheHeTree j).length < (path sheHeTree i).length) :=
  ⟨rfl, @C7_failure_link_invariant false [['s', 'h', 'e'], ['h', 'e']] sheHeTree rfl⟩

/-- C6: after a completed `finalize`, for every non-root node `i` whose
resolved suffix link `f` is not the root, every symbol in `f`'s transitions
for which `i` has no direct tree child is present in `i`'s transitions and
mapped to `f`'s target for that symbol; the root's transitions, by contrast,
are exactly what they were before `finalize` (the merge never touches them,
and they remain exactly the root's tree edges). -/
theorem C6_merge_and_root_frame {ci : Bool} {kws : List (List Char)}
    {t' : KeywordTree}
    (hrun : (buildTree ci kws).finalize = .ok (some t')) :
    (∀ i, i < t'.states.length → i ≠ 0 →
      ∀ f, (getS t' i).longest_strict_suffix = some f → f ≠ 0 →
        ∀ c x, tlookup (getS t' f).transitions c = some x →
          (∀ y, ¬ TreeEdge t' i c y) →
          tlookup (getS t' i).transitions c = some x) ∧
    (getS t' 0).transitions = (getS (buildTree ci kws) 0).transitions ∧
    PureTrans t' 0 := by
  obtain ⟨hPre, hfin, -, -⟩ := buildTree_spec ci kws
  obtain ⟨hFin, -, -, -, -, -, hroot⟩ := finalize_spec hPre hfin hrun
  refine ⟨?_, hroot, (hFin.gie.root_done.1 rfl).2⟩
  intro i hiN hi0 f hlss hf0 c x hfx hnoedge
  have hD : Done t' i :=
    hFin.gie.set_done i hiN hi0 (hFin.all_set i hiN) (List.not_mem_nil i)
  rcases (hD.2 hi0).2 c with ⟨y, hTE, -⟩ | ⟨-, j, hlss2, heq⟩
  · exact absurd hTE (hnoedge y)
  · have hjf : j = f := by
      rw [hlss] at hlss2
      exact (Option.some_injective _ hlss2).symm
    rw [heq, hjf, if_neg hf0]
    exact hfx

/-- Witness for C6 at the finalized tree for keywords `"she"`, `"he"`. -/
theorem C6_witness :
    (buildTree false [['s', 'h', 'e'], ['h', 'e']]).finalize = .ok (some sheHeTree) ∧
    ((∀ i, i < sheHeTree.states.length → i ≠ 0 →
      ∀ f, (getS sheHeTree i).longest_strict_suffix = some f → f ≠ 0 →
        ∀ c x, tlookup (getS sheHeTree f).transitions c = some x →
          (∀ y, ¬ TreeEdge sheHeTree i c y) →
          tlookup (getS sheHeTree i).transitions c = some x) ∧
    (getS sheHeTree 0).transitions =
      (getS (buildTree false [['s', 'h', 'e'], ['h', 'e']]) 0).transitions ∧
    PureTrans sheHeTree 0) :=
  ⟨rfl, @C6_merge_and_root_frame false [['s', 'h', 'e'], ['h', 'e']] sheHeTree rfl⟩

/-! ## The scan phase of `search_all` -/

/-- A node's distance from the root is at most its identifier. -/
theorem path_len_le {t : KeywordTree} (hs : StInv t) :
    ∀ i, i < t.states.length → (path t i).length ≤ i := by
  intro i
  induction i using Nat.strong_induction_on with
  | _ i ih =>
    intro hiN
    by_cases hi0 : i = 0
    · rw [hi0, path_zero hs]
      exact Nat.le_refl 0
    · obtain ⟨p, c, hp, hplt, hc, -⟩ := hs.parent_lt i hiN hi0
      have hple := ih p hplt (Nat.lt_trans hplt hiN)
      have hlen : (path t i).length = (path t p).length + 1 := by
        rw [path_unfold hs hp hc]
        simp
      omega

/-- A pairwise irreflexive-at-`e` list holds `e` at most once. -/
theorem pairwise_count_le_one {α : Type} [BEq α] [LawfulBEq α] {R : α → α → Prop} :
    ∀ (l : List α), l.Pairwise R → ∀ e, ¬ R e e → l.count e ≤ 1 := by
  intro l
  induction l with
  | nil =>
    intro _ e _
    simp
  | cons a l ih =>
    intro hp e hre
    obtain ⟨ha, hp'⟩ := List.pairwise_cons.mp hp
    by_cases hae : a = e
    · subst hae
      have hnot : a ∉ l := fun hmem => hre (ha a hmem)
      rw [List.count_cons_self, List.count_eq_zero.mpr hnot]
    · rw [List.count_cons_of_ne (fun he => hae he.symm) l]
      exact ih hp' e hre

/-- The keyword correspondence only depends on lengths, paths, flags and the
success/matched fields. -/
theorem kwinv_transfer {t t' : KeywordTree} {kws : List (List Char)}
    (hlen : t'.states.length = t.states.length)
    (hci : t'.case_insensitive = t.case_insensitive)
    (hfe : ∀ j, (getS t' j).success = (getS t j).success ∧
                (getS t' j).matched_keyword = (getS t j).matched_keyword)
    (hpaths : ∀ k, path t' k = path t k)
    (hK : KwInv t kws) : KwInv t' kws := by
  constructor
  · intro i hi hsu
    rw [hlen] at hi
    rw [(hfe i).1] at hsu
    obtain ⟨kw, h1, h2, h3⟩ := hK.1 i hi hsu
    exact ⟨kw, h1, by rw [(hfe i).2]; exact h2, by rw [hci, hpaths]; exact h3⟩
  · intro kw hm hne
    obtain ⟨i, h1, h2, h3⟩ := hK.2 kw hm hne
    exact ⟨i, by rw [hlen]; exact h1, by rw [hpaths, hci]; exact h2,
      by rw [(hfe i).1]; exact h3⟩

/-- The scan starts at the root with nothing consumed. -/
theorem reach_nil {t : KeywordTree} (hs : StInv t) : Reach t [] 0 := by
  refine ⟨hs.pos, by rw [path_zero hs], ?_⟩
  intro m hm hsfx
  rw [path_zero hs]
  exact hsfx

/-- One goto step of the scan preserves the invariant: the fallback
`current.transitions.get(symbol, zero.transitions.get(symbol, zero))` moves to
the node of the longest realized suffix of the extended consumed prefix. -/
theorem gotoStep_spec {t : KeywordTree} (hF : FinInv t) {v : List Char} {cur : Nat}
    (hR : Reach t v cur) (c : Char) : Reach t (v ++ [c]) (gotoStep t cur c) := by
  obtain ⟨hcurN, hcsfx, hcmax⟩ := hR
  have hG := hF.gie
  have hComp : Comp t [] cur := by
    by_cases h0 : cur = 0
    · exact Or.inl h0
    · exact Or.inr ⟨hF.all_set cur hcurN, List.not_mem_nil cur⟩
  have hgd := gd_spec hG (path t cur).length cur hcurN hComp (Nat.le_refl _) c
  have hgd0 := gd_spec hG 0 0 hG.st.pos (Or.inl rfl)
    (by rw [path_zero hG.st]; exact Nat.le_refl 0) c
  unfold gotoStep
  cases hlk : tlookup (getS t cur).transitions c with
  | some x =>
    show Reach t (v ++ [c]) x
    obtain ⟨w, hwN, hwsfx, hTE, hw0, hwmax⟩ := hgd.1 x hlk
    have hpx : path t x = path t w ++ [c] := path_edge hG.st hTE
    refine ⟨hTE.1, by rw [hpx]; exact sfx_append_right c (hwsfx.trans hcsfx), ?_⟩
    intro m hm hmsfx
    rcases sfx_concat_cases hmsfx with hnil | ⟨s, hssfx, hform⟩
    · rw [hnil]
      exact List.nil_suffix
    · obtain ⟨pm, hpmN, hpms, hTEm⟩ := edge_from_path_concat hG.st hm hform
      by_cases hpm0 : pm = 0
      · have hs_nil : s = [] := by rw [← hpms, hpm0, path_zero hG.st]
        rw [hform, hs_nil, hpx]
        exact sfx_append_right c (List.nil_suffix)
      · have hpmsfx : path t pm <:+ path t cur :=
          hcmax pm hpmN (by rw [hpms]; exact hssfx)
        have hsub := hwmax pm hpmN hpmsfx (Or.inl hpm0) ⟨m, hTEm⟩
        rw [hform, ← hpms, hpx]
        exact sfx_append_right c hsub
  | none =>
    cases hlk0 : tlookup (getS t 0).transitions c with
    | some s0 =>
      show Reach t (v ++ [c]) s0
      obtain ⟨w, hwN, hwsfx, hTE, -, -⟩ := hgd0.1 s0 hlk0
      have hw_nil : path t w = [] := by
        rw [path_zero hG.st] at hwsfx
        exact List.suffix_nil.mp hwsfx
      have hpx : path t s0 = [c] := by
        rw [path_edge hG.st hTE, hw_nil]
        rfl
      refine ⟨hTE.1, by rw [hpx]; exact sfx_append_right c (List.nil_suffix), ?_⟩
      intro m hm hmsfx
      rcases sfx_concat_cases hmsfx with hnil | ⟨s, hssfx, hform⟩
      · rw [hnil]
        exact List.nil_suffix
      · obtain ⟨pm, hpmN, hpms, hTEm⟩ := edge_from_path_concat hG.st hm hform
        by_cases hpm0 : pm = 0
        · have hs_nil : s = [] := by rw [← hpms, hpm0, path_zero hG.st]
          rw [hform, hs_nil, hpx]
          exact List.suffix_refl _
        · exact absurd hTEm (hgd.2 hlk pm hpmN
            (hcmax pm hpmN (by rw [hpms]; exact hssfx)) (Or.inl hpm0) m)
    | none =>
      show Reach t (v ++ [c]) 0
      refine ⟨hG.st.pos, by rw [path_zero hG.st]; exact List.nil_suffix, ?_⟩
      intro m hm hmsfx
      rw [path_zero hG.st]
      rcases sfx_concat_cases hmsfx with hnil | ⟨s, hssfx, hform⟩
      · rw [hnil]
      · obtain ⟨pm, hpmN, hpms, hTEm⟩ := edge_from_path_concat hG.st hm hform
        by_cases hpm0 : pm = 0
        · exfalso
          have hpure : PureTrans t 0 := (hG.root_done.1 rfl).2
          have hc := (hpure c m).mpr (hpm0 ▸ hTEm)
          rw [hlk0] at hc
          exact Option.noConfusion hc
        · exact absurd hTEm (hgd.2 hlk pm hpmN
            (hcmax pm hpmN (by rw [hpms]; exact hssfx)) (Or.inl hpm0) m)

/-- Complete characterization of the output walk of `search_all` on the
compiled automaton: it terminates, yields exactly the success nodes of the
suffix chain (each as its stored keyword with offset `idx + 1 - len`), and the
yielded keywords have strictly decreasing lengths. -/
theorem outWalk_spec {t : KeywordTree} (hF : FinInv t) :
    ∀ (fuel st idx : Nat), st < t.states.length → (path t st).length < fuel →
    ∃ l, outWalk t fuel st idx = some l ∧
      (∀ e, e ∈ l → ∃ m, m < t.states.length ∧ m ≠ 0 ∧
        (getS t m).success = true ∧ (getS t m).matched_keyword = some e.1 ∧
        path t m <:+ path t st ∧ e.1.length = (path t m).length ∧
        e.2 = (idx : Int) + 1 - (e.1.length : Int)) ∧
      (∀ m, m < t.states.length → m ≠ 0 → (getS t m).success = true →
        path t m <:+ path t st →
        ∀ kw, (getS t m).matched_keyword = some kw →
          (kw, (idx : Int) + 1 - (kw.length : Int)) ∈ l) ∧
      (∀ e, e ∈ l → e.1.length ≤ (path t st).length) ∧
      l.Pairwise (fun a b => b.1.length < a.1.length) := by
  intro fuel
  induction fuel with
  | zero =>
    intro st idx _ hfuel
    exact absurd hfuel (Nat.not_lt_zero _)
  | succ fuel ih =>
    intro st idx hstN hfuel
    by_cases hst0 : st = 0
    · subst hst0
      refine ⟨[], rfl, fun e he => absurd he (List.not_mem_nil e), ?_,
        fun e he => absurd he (List.not_mem_nil e), List.Pairwise.nil⟩
      intro m hm hm0 _ hsfx kw _
      rw [path_zero hF.gie.st] at hsfx
      exact absurd (path_nil_eq_zero hF.gie.st hm (List.suffix_nil.mp hsfx)) hm0
    · obtain ⟨nxt, hlss, hmax⟩ :=
        hF.gie.set_max st hstN hst0 (hF.all_set st hstN)
      have hnxtN : nxt < t.states.length := hmax.1
      have hnxtlt : (path t nxt).length < (path t st).length := hmax.2.1.2
      obtain ⟨l', heq', sound', complete', bound', pair'⟩ :=
        ih nxt idx hnxtN (by omega)
      cases hsu : (getS t st).success with
      | true =>
        obtain ⟨kw₀, hmk, hfold⟩ := hF.gie.st.success_wf st hstN hsu
        have hkwlen : kw₀.length = (path t st).length := by
          rw [← hfold, foldW_length]
        have hred : outWalk t (fuel + 1) st idx =
            (outWalk t fuel nxt idx).map
              (fun l => [(kw₀, (idx : Int) + 1 - (kw₀.length : Int))] ++ l) := by
          show (if st = 0 then some [] else
            match (if (getS t st).success then
                     match (getS t st).matched_keyword with
                     | some kw => some [(kw, (idx : Int) + 1 - (kw.length : Int))]
                     | none => none
                   else some ([] : List (List Char × Int))),
                  (getS t st).longest_strict_suffix with
              | some here, some nxt2 => (outWalk t fuel nxt2 idx).map (here ++ ·)
              | _, _ => none) = _
          rw [if_neg hst0, hsu, hmk, hlss]
          rfl
        refine ⟨[(kw₀, (idx : Int) + 1 - (kw₀.length : Int))] ++ l',
          by rw [hred, heq']; rfl, ?_, ?_, ?_, ?_⟩
        · intro e he
          rcases List.mem_append.mp he with he1 | he2
          · obtain rfl : e = (kw₀, (idx : Int) + 1 - (kw₀.length : Int)) := by
              simpa using he1
            exact ⟨st, hstN, hst0, hsu, hmk, List.suffix_refl _, hkwlen, rfl⟩
          · obtain ⟨m, h1, h2, h3, h4, h5, h6, h7⟩ := sound' e he2
            exact ⟨m, h1, h2, h3, h4, h5.trans hmax.2.1.1, h6, h7⟩
        · intro m hm hm0 hmsu hmsfx kw hmkw
          by_cases hmst : m = st
          · subst hmst
            rw [hmk] at hmkw
            obtain rfl : kw₀ = kw := Option.some_injective _ hmkw
            exact List.mem_append_left _ (by simp)
          · have hstr := strictSfx_of_sfx_ne hF.gie.st hm hstN hmsfx hmst
            exact List.mem_append_right _
              (complete' m hm hm0 hmsu (hmax.2.2 m hm hstr) kw hmkw)
        · intro e he
          rcases List.mem_append.mp he with he1 | he2
          · obtain rfl : e = (kw₀, (idx : Int) + 1 - (kw₀.length : Int)) := by
              simpa using he1
            rw [hkwlen]
          · exact Nat.le_of_lt (Nat.lt_of_le_of_lt (bound' e he2) hnxtlt)
        · rw [List.pairwise_append]
          refine ⟨List.pairwise_singleton .., pair', ?_⟩
          intro a ha b hb
          obtain rfl : a = (kw₀, (idx : Int) + 1 - (kw₀.length : Int)) := by
            simpa using ha
          have hb2 := bound' b hb
          show b.1.length < kw₀.length
          omega
      | false =>
        have hred : outWalk t (fuel + 1) st idx =
            (outWalk t fuel nxt idx).map (fun l => [] ++ l) := by
          show (if st = 0 then some [] else
            match (if (getS t st).success then
                     match (getS t st).matched_keyword with
                     | some kw => some [(kw, (idx : Int) + 1 - (kw.length : Int))]
                     | none => none
                   else some ([] : List (List Char × Int))),
                  (getS t st).longest_strict_suffix with
              | some here, some nxt2 => (outWalk t fuel nxt2 idx).map (here ++ ·)
              | _, _ => none) = _
          rw [if_neg hst0, hsu, hlss]
          rfl
        refine ⟨l', by rw [hred, heq']; rfl, ?_, ?_, ?_, pair'⟩
        · intro e he
          obtain ⟨m, h1, h2, h3, h4, h5, h6, h7⟩ := sound' e he
          exact ⟨m, h1, h2, h3, h4, h5.trans hmax.2.1.1, h6, h7⟩
        · intro m hm hm0 hmsu hmsfx kw hmkw
          by_cases hmst : m = st
          · subst hmst
            rw [hmsu] at hsu
            exact Bool.noConfusion hsu
          · have hstr := strictSfx_of_sfx_ne hF.gie.st hm hstN hmsfx hmst
            exact complete' m hm hm0 hmsu (hmax.2.2 m hm hstr) kw hmkw
        · intro e he
          exact Nat.le_of_lt (Nat.lt_of_le_of_lt (bound' e he) hnxtlt)

/-- The scan loop of `search_all` on the compiled automaton: it terminates,
every yielded pair is a keyword stored at a success node whose path is a
suffix of the consumed prefix with the matching offset, end positions grow
monotonically, and ties are ordered by strictly decreasing keyword length. -/
theorem scanLoop_run {t : KeywordTree} (hF : FinInv t) :
    ∀ (rest v : List Char) (cur : Nat),
    Reach t v cur →
    ∃ res, scanLoop t cur v.length rest = some res ∧
      (∀ e, e ∈ res → ∃ m j, 1 ≤ j ∧ j ≤ rest.length ∧ m < t.states.length ∧
        m ≠ 0 ∧ (getS t m).success = true ∧
        (getS t m).matched_keyword = some e.1 ∧
        e.1.length = (path t m).length ∧ path t m <:+ v ++ rest.take j ∧
        e.2 = ((v.length + j : Nat) : Int) - (e.1.length : Int)) ∧
      (∀ e, e ∈ res → ((v.length : Nat) : Int) + 1 ≤ e.2 + (e.1.length : Int) ∧
        e.2 + (e.1.length : Int) ≤ ((v.length + rest.length : Nat) : Int)) ∧
      res.Pairwise (fun a b => a.2 + (a.1.length : Int) < b.2 + (b.1.length : Int) ∨
        (a.2 + (a.1.length : Int) = b.2 + (b.1.length : Int) ∧
          (b.1.length : Int) < (a.1.length : Int))) := by
  intro rest
  induction rest with
  | nil =>
    intro v cur hR
    exact ⟨[], rfl, fun e he => absurd he (List.not_mem_nil e),
      fun e he => absurd he (List.not_mem_nil e), List.Pairwise.nil⟩
  | cons c rest2 ih =>
    intro v cur hR
    have hR1 := gotoStep_spec hF hR c
    have hcur1N : gotoStep t cur c < t.states.length := hR1.1
    have hfuel : (path t (gotoStep t cur c)).length < t.states.length + 1 := by
      have := path_len_le hF.gie.st _ hcur1N
      omega
    obtain ⟨l0, heq0, sound0, complete0, bound0, pair0⟩ :=
      outWalk_spec hF (t.states.length + 1) (gotoStep t cur c) v.length hcur1N hfuel
    obtain ⟨res2, heq2, sound2, bounds2, pair2⟩ := ih (v ++ [c]) (gotoStep t cur c) hR1
    have hlv : (v ++ [c]).length = v.length + 1 := by simp
    rw [hlv] at heq2 sound2 bounds2
    refine ⟨l0 ++ res2, ?_, ?_, ?_, ?_⟩
    · show (match outWalk t (t.states.length + 1) (gotoStep t cur c) v.length with
            | none => none
            | some out =>
              (scanLoop t (gotoStep t cur c) (v.length + 1) rest2).map (out ++ ·)) =
          some (l0 ++ res2)
      rw [heq0]
      show (scanLoop t (gotoStep t cur c) (v.length + 1) rest2).map (l0 ++ ·) =
        some (l0 ++ res2)
      rw [heq2]
      rfl
    · intro e he
      rcases List.mem_append.mp he with he1 | he2
      · obtain ⟨m, h1, h2, h3, h4, h5, h6, h7⟩ := sound0 e he1
        refine ⟨m, 1, Nat.le_refl 1, by simp, h1, h2, h3, h4, h6,
          h5.trans hR1.2.1, ?_⟩
        rw [h7]
        push_cast
        ring
      · obtain ⟨m, j, hj1, hj2, h1, h2, h3, h4, h6, h5, h7⟩ := sound2 e he2
        refine ⟨m, j + 1, by omega, by simp only [List.length_cons]; omega,
          h1, h2, h3, h4, h6, ?_, ?_⟩
        · have hap : (v ++ [c]) ++ rest2.take j = v ++ (c :: rest2).take (j + 1) := by
            rw [List.append_assoc]
            rfl
          rw [← hap]
          exact h5
        · rw [h7]
          push_cast
          ring
    · intro e he
      rcases List.mem_append.mp he with he1 | he2
      · obtain ⟨m, -, -, -, -, -, -, h7⟩ := sound0 e he1
        constructor
        · rw [h7]
          omega
        · rw [h7]
          simp only [List.length_cons]
          push_cast
          omega
      · have hb := bounds2 e he2
        constructor
        · have h1 := hb.1
          push_cast at h1 ⊢
          omega
        · have h2 := hb.2
          simp only [List.length_cons]
          push_cast at h2 ⊢
          omega
    · rw [List.pairwise_append]
      refine ⟨?_, pair2, ?_⟩
      · refine List.Pairwise.imp_of_mem ?_ pair0
        intro a b ha hb hr
        obtain ⟨-, -, -, -, -, -, -, h7a⟩ := sound0 a ha
        obtain ⟨-, -, -, -, -, -, -, h7b⟩ := sound0 b hb
        right
        constructor
        · rw [h7a, h7b]
          omega
        · exact_mod_cast hr
      · intro a ha b hb
        obtain ⟨-, -, -, -, -, -, -, h7a⟩ := sound0 a ha
        have hb1 := (bounds2 b hb).1
        left
        rw [h7a]
        push_cast at hb1 ⊢
        omega

/-- Exactly-once yield of the scan loop: a keyword occurrence (as a folded
slice of the remaining input, ending beyond the consumed prefix) is reported
exactly once, provided keywords are nonempty and have distinct foldings. -/
theorem scanLoop_count {t : KeywordTree} {kws : List (List Char)} (hF : FinInv t)
    (hK : KwInv t kws)
    (hinj : ∀ k1, k1 ∈ kws → ∀ k2, k2 ∈ kws →
      foldW t.case_insensitive k1 = foldW t.case_insensitive k2 → k1 = k2) :
    ∀ (rest v : List Char) (cur : Nat) (res : List (List Char × Int)),
    Reach t v cur →
    scanLoop t cur v.length rest = some res →
    ∀ (k : List Char) (o : Nat), k ∈ kws → k ≠ [] →
      v.length < o + k.length → o + k.length ≤ v.length + rest.length →
      foldW t.case_insensitive k = ((v ++ rest).drop o).take k.length →
      res.count (k, (o : Int)) = 1 := by
  intro rest
  induction rest with
  | nil =>
    intro v cur res hR hrun k o hk hkne hlt hle hslice
    simp only [List.length_nil] at hle
    omega
  | cons c rest2 ih =>
    intro v cur res hR hrun k o hk hkne hlt hle hslice
    have hR1 := gotoStep_spec hF hR c
    have hcur1N : gotoStep t cur c < t.states.length := hR1.1
    have hfuel : (path t (gotoStep t cur c)).length < t.states.length + 1 := by
      have := path_len_le hF.gie.st _ hcur1N
      omega
    obtain ⟨l0, heq0, sound0, complete0, bound0, pair0⟩ :=
      outWalk_spec hF (t.states.length + 1) (gotoStep t cur c) v.length hcur1N hfuel
    obtain ⟨res2, heq2, sound2, bounds2, pair2⟩ :=
      scanLoop_run hF rest2 (v ++ [c]) (gotoStep t cur c) hR1
    have hlv : (v ++ [c]).length = v.length + 1 := by simp
    rw [hlv] at heq2 sound2 bounds2
    have hres : res = l0 ++ res2 := by
      have hcomp : scanLoop t cur v.length (c :: rest2) = some (l0 ++ res2) := by
        show (match outWalk t (t.states.length + 1) (gotoStep t cur c) v.length with
              | none => none
              | some out =>
                (scanLoop t (gotoStep t cur c) (v.length + 1) rest2).map (out ++ ·)) =
            some (l0 ++ res2)
        rw [heq0]
        show (scanLoop t (gotoStep t cur c) (v.length + 1) rest2).map (l0 ++ ·) =
          some (l0 ++ res2)
        rw [heq2]
        rfl
      rw [hcomp] at hrun
      exact (Option.some_injective _ hrun).symm
    subst hres
    rw [List.count_append]
    by_cases hj1 : o + k.length = v.length + 1
    · have hcount2 : res2.count (k, (o : Int)) = 0 := by
        rw [List.count_eq_zero]
        intro hmem
        have hb := (bounds2 _ hmem).1
        push_cast at hb
        omega
      have hu1 : (v ++ c :: rest2).take (v.length + 1) = v ++ [c] := by
        rw [List.take_append_eq_append_take, List.take_of_length_le (by omega),
          show v.length + 1 - v.length = 1 from by omega]
        simp
      obtain ⟨i0, hi0N, hpi0, hsucc0⟩ := hK.2 k hk hkne
      have hm0 : i0 ≠ 0 := by
        intro h0
        rw [h0, path_zero hF.gie.st] at hpi0
        exact foldW_ne_nil hkne hpi0.symm
      have hslice2 : foldW t.case_insensitive k = (v ++ [c]).drop o := by
        rw [hslice, List.take_drop, hj1, hu1]
      have hsfx : path t i0 <:+ v ++ [c] := by
        rw [hpi0, hslice2]
        exact List.drop_suffix ..
      have hsfx1 : path t i0 <:+ path t (gotoStep t cur c) := hR1.2.2 i0 hi0N hsfx
      obtain ⟨kw', hkw'mem, hkw'm, hkw'f⟩ := hK.1 i0 hi0N hsucc0
      have hkk : kw' = k := hinj kw' hkw'mem k hk (by rw [hkw'f, hpi0])
      have hmem0 : (k, ((v.length : Nat) : Int) + 1 - (k.length : Int)) ∈ l0 := by
        have hmm := complete0 i0 hi0N hm0 hsucc0 hsfx1 kw' hkw'm
        rw [hkk] at hmm
        exact hmm
      have hoeq : ((o : Nat) : Int) = ((v.length : Nat) : Int) + 1 - (k.length : Int) := by
        omega
      rw [hcount2, hoeq]
      have hle1 := pairwise_count_le_one l0 pair0
        (k, ((v.length : Nat) : Int) + 1 - (k.length : Int)) (Nat.lt_irrefl _)
      have hge1 : 0 < l0.count (k, ((v.length : Nat) : Int) + 1 - (k.length : Int)) :=
        List.count_pos_iff.mpr hmem0
      omega
    · have hcount0 : l0.count (k, (o : Int)) = 0 := by
        rw [List.count_eq_zero]
        intro hmem
        obtain ⟨m, -, -, -, -, -, -, h7⟩ := sound0 _ hmem
        have h8 : (o : Int) = (v.length : Int) + 1 - (k.length : Int) := h7
        omega
      rw [hcount0, Nat.zero_add]
      refine ih (v ++ [c]) (gotoStep t cur c) res2 hR1 (by rw [hlv]; exact heq2)
        k o hk hkne ?_ ?_ ?_
      · rw [hlv]
        omega
      · rw [hlv]
        simp only [List.length_cons] at hle
        omega
      · rw [List.append_assoc]
        exact hslice

/-- A tree built through the API and successfully finalized satisfies the full
automaton invariant, keeps its case flag, and still realizes its keywords. -/
theorem built_final {ci : Bool} {kws : List (List Char)} {t' : KeywordTree}
    (hrun : (buildTree ci kws).finalize = .ok (some t')) :
    FinInv t' ∧ t'.case_insensitive = ci ∧ KwInv t' kws := by
  obtain ⟨hPre, hfin, hci, hKw⟩ := buildTree_spec ci kws
  obtain ⟨hF, hlen, -, hci2, hfe, hpaths, -⟩ := finalize_spec hPre hfin hrun
  exact ⟨hF, hci2.trans hci,
    kwinv_transfer hlen hci2 (fun j => ⟨(hfe j).2.2.1, (hfe j).2.2.2⟩) hpaths hKw⟩

/-- On a finalized tree, `search_all` folds the text and runs the scan loop. -/
theorem searchAll_eq {t : KeywordTree} (hfin : t.finalized = true)
    (text : List Char) :
    t.search_all text = .ok (scanLoop t 0 0 (foldW t.case_insensitive text)) := by
  unfold KeywordTree.search_all
  rw [hfin]
  rfl

/-- C10: every pair `(keyword, offset)` yielded by `search_all` on a built and
finalized tree is sound: the offset is non-negative, the match lies within the
text, and the case-folded keyword equals the case-folded text restricted to
`[offset, offset + len)`. -/
theorem C10_soundness {ci : Bool} {kws : List (List Char)} {t' : KeywordTree}
    (hrun : (buildTree ci kws).finalize = .ok (some t'))
    (text : List Char) {res : List (List Char × Int)}
    (hs : t'.search_all text = .ok (some res)) :
    ∀ e, e ∈ res → 0 ≤ e.2 ∧ e.2 + (e.1.length : Int) ≤ (text.length : Int) ∧
      foldW ci e.1 = ((foldW ci text).drop e.2.toNat).take e.1.length := by
  obtain ⟨hF, hci, -⟩ := built_final hrun
  rw [searchAll_eq hF.fin text] at hs
  injection hs with hs1
  obtain ⟨res0, heq0, sound0, bounds0, -⟩ :=
    scanLoop_run hF (foldW t'.case_insensitive text) [] 0 (reach_nil hF.gie.st)
  simp only [List.length_nil, List.nil_append] at heq0 sound0 bounds0
  obtain rfl : res0 = res := by
    rw [heq0] at hs1
    exact Option.some_injective _ hs1
  intro e he
  obtain ⟨m, j, hj1, hj2, hmN, hm0, hsucc, hmk, hlen, hsfx, hoff⟩ := sound0 e he
  have hulen : (foldW t'.case_insensitive text).length = text.length :=
    foldW_length ..
  have hminj : min j (foldW t'.case_insensitive text).length = j :=
    Nat.min_eq_left hj2
  have hlenle : e.1.length ≤ j := by
    have h1 := hsfx.length_le
    rw [List.length_take] at h1
    omega
  refine ⟨by rw [hoff]; push_cast; omega, by rw [hoff]; push_cast; omega, ?_⟩
  have hE2 : e.2.toNat = j - e.1.length := by
    rw [hoff]
    push_cast
    omega
  have hfold : foldW t'.case_insensitive e.1 = path t' m := by
    obtain ⟨kw2, hmk2, hf2⟩ := hF.gie.st.success_wf m hmN hsucc
    rw [hmk] at hmk2
    obtain rfl : e.1 = kw2 := Option.some_injective _ hmk2
    exact hf2
  obtain ⟨pre, hpre⟩ := hsfx
  have hprelen : pre.length = j - e.1.length := by
    have h2 := congrArg List.length hpre
    rw [List.length_append, List.length_take] at h2
    omega
  have hgoal : ((foldW t'.case_insensitive text).drop (j - e.1.length)).take
      e.1.length = path t' m := by
    rw [List.take_drop, show j - e.1.length + e.1.length = j from by omega, ← hpre,
      ← hprelen, List.drop_left]
  rw [← hci, hE2, hgoal]
  exact hfold

/-- Witness for C10 at the finalized tree for `"she"`, `"he"` on `"ushers"`. -/
theorem C10_witness :
    sheHeTree.search_all ['u', 's', 'h', 'e', 'r', 's'] =
      .ok (some [(['s', 'h', 'e'], (1 : Int)), (['h', 'e'], (2 : Int))]) ∧
    (∀ e, e ∈ [(['s', 'h', 'e'], (1 : Int)), (['h', 'e'], (2 : Int))] →
      0 ≤ e.2 ∧ e.2 + (e.1.length : Int) ≤
        ((['u', 's', 'h', 'e', 'r', 's'] : List Char).length : Int) ∧
      foldW false e.1 =
        ((foldW false ['u', 's', 'h', 'e', 'r', 's']).drop e.2.toNat).take
          e.1.length) :=
  ⟨rfl, @C10_soundness false [['s', 'h', 'e'], ['h', 'e']] sheHeTree rfl
    ['u', 's', 'h', 'e', 'r', 's'] _ rfl⟩

/-- C2: the matches yielded by `search_all` on a built and finalized tree are
in non-decreasing order of end position (`offset + len`); among matches with
equal end position, a longer keyword comes strictly before a shorter one. -/
theorem C2_order_invariant {ci : Bool} {kws : List (List Char)} {t' : KeywordTree}
    (hrun : (buildTree ci kws).finalize = .ok (some t'))
    (text : List Char) {res : List (List Char × Int)}
    (hs : t'.search_all text = .ok (some res)) :
    res.Pairwise (fun a b =>
      a.2 + (a.1.length : Int) < b.2 + (b.1.length : Int) ∨
      (a.2 + (a.1.length : Int) = b.2 + (b.1.length : Int) ∧
        (b.1.length : Int) < (a.1.length : Int))) := by
  obtain ⟨hF, -, -⟩ := built_final hrun
  rw [searchAll_eq hF.fin text] at hs
  injection hs with hs1
  obtain ⟨res0, heq0, -, -, pair0⟩ :=
    scanLoop_run hF (foldW t'.case_insensitive text) [] 0 (reach_nil hF.gie.st)
  simp only [List.length_nil] at heq0
  obtain rfl : res0 = res := by
    rw [heq0] at hs1
    exact Option.some_injective _ hs1
  exact pair0

/-- Witness for C2 at the finalized tree for `"she"`, `"he"` on `"ushers"`. -/
theorem C2_witness :
    sheHeTree.search_all ['u', 's', 'h', 'e', 'r', 's'] =
      .ok (some [(['s', 'h', 'e'], (1 : Int)), (['h', 'e'], (2 : Int))]) ∧
    ([(['s', 'h', 'e'], (1 : Int)), (['h', 'e'], (2 : Int))] :
        List (List Char × Int)).Pairwise (fun a b =>
      a.2 + (a.1.length : Int) < b.2 + (b.1.length : Int) ∨
      (a.2 + (a.1.length : Int) = b.2 + (b.1.length : Int) ∧
        (b.1.length : Int) < (a.1.length : Int))) :=
  ⟨rfl, @C2_order_invariant false [['s', 'h', 'e'], ['h', 'e']] sheHeTree rfl
    ['u', 's', 'h', 'e', 'r', 's'] _ rfl⟩

/-- C1 fails as stated: with `case_insensitive = true` two distinct keywords
can share a folding, and the later insertion overwrites the stored keyword of
the shared terminal node.  Here `"ABC"` is an inserted keyword occurring at
offset 0 of the text `"ABC"` (its folding equals the folded text slice), yet
`search_all` yields only `("Abc", 0)`: the occurrence of `"ABC"` appears zero
times, not exactly once. -/
theorem C1_counterexample :
    c1built.finalize = .ok (some c1tree) ∧
    c1built.case_insensitive = true ∧
    (['A', 'B', 'C'] : List Char) ∈ [['A', 'B', 'C'], ['A', 'b', 'c']] ∧
    foldW true ['A', 'B', 'C'] =
      ((foldW true ['A', 'B', 'C']).drop 0).take
        (['A', 'B', 'C'] : List Char).length ∧
    c1tree.search_all ['A', 'B', 'C'] =
      .ok (some [(['A', 'b', 'c'], (0 : Int))]) ∧
    ([(['A', 'b', 'c'], (0 : Int))] : List (List Char × Int)).count
      (['A', 'B', 'C'], (0 : Int)) = 0 :=
  ⟨rfl, rfl, by simp, rfl, rfl, by decide⟩

/-- C1, amended: if every inserted keyword is nonempty and distinct keywords
have distinct case-foldings, then `search_all` completes and every occurrence
of every keyword as a (folded) contiguous substring of the text is yielded
exactly once, as the pair `(keyword, start offset)`. -/
theorem C1_substring_completeness {ci : Bool} {kws : List (List Char)}
    {t' : KeywordTree}
    (hrun : (buildTree ci kws).finalize = .ok (some t'))
    (hne : ∀ k, k ∈ kws → k ≠ [])
    (hinj : ∀ k1, k1 ∈ kws → ∀ k2, k2 ∈ kws →
      foldW ci k1 = foldW ci k2 → k1 = k2)
    (text : List Char) :
    ∃ res, t'.search_all text = .ok (some res) ∧
      ∀ (k : List Char) (o : Nat), k ∈ kws → o + k.length ≤ text.length →
        foldW ci k = ((foldW ci text).drop o).take k.length →
        res.count (k, (o : Int)) = 1 := by
  obtain ⟨hF, hci, hK⟩ := built_final hrun
  have hinj2 : ∀ k1, k1 ∈ kws → ∀ k2, k2 ∈ kws →
      foldW t'.case_insensitive k1 = foldW t'.case_insensitive k2 → k1 = k2 := by
    intro k1 h1 k2 h2 hf
    rw [hci] at hf
    exact hinj k1 h1 k2 h2 hf
  obtain ⟨res0, heq0, -, -, -⟩ :=
    scanLoop_run hF (foldW t'.case_insensitive text) [] 0 (reach_nil hF.gie.st)
  simp only [List.length_nil] at heq0
  refine ⟨res0, by rw [searchAll_eq hF.fin text, heq0], ?_⟩
  intro k o hk hle hslice
  have hkne := hne k hk
  have hkpos : 0 < k.length := List.length_pos.mpr hkne
  have hulen : (foldW t'.case_insensitive text).length = text.length :=
    foldW_length ..
  refine scanLoop_count hF hK hinj2 (foldW t'.case_insensitive text) [] 0 res0
    (reach_nil hF.gie.st) (by simp only [List.length_nil]; exact heq0)
    k o hk hkne ?_ ?_ ?_
  · simp only [List.length_nil]
    omega
  · simp only [List.length_nil]
    omega
  · simp only [List.nil_append]
    rw [hci]
    exact hslice

/-- Witness for the amended C1 at the finalized tree for `"she"`, `"he"`. -/
theorem C1_witness :
    ∃ res, sheHeTree.search_all ['u', 's', 'h', 'e', 'r', 's'] = .ok (some res) ∧
      ∀ (k : List Char) (o : Nat), k ∈ [['s', 'h', 'e'], ['h', 'e']] →
        o + k.length ≤ (['u', 's', 'h', 'e', 'r', 's'] : List Char).length →
        foldW false k =
          ((foldW false ['u', 's', 'h', 'e', 'r', 's']).drop o).take k.length →
        res.count (k, (o : Int)) = 1 :=
  @C1_substring_completeness false [['s', 'h', 'e'], ['h', 'e']] sheHeTree rfl
    (by decide) (by decide) ['u', 's', 'h', 'e', 'r', 's']

/-! ## Snapshot round trip -/

theorem getD_set_self2 {α : Type} {l : List α} {i : Nat} {x d : α}
    (h : i < l.length) : (l.set i x).getD i d = x := by
  rw [List.getD_eq_getElem?_getD, List.getElem?_set_self (by omega)]
  rfl

theorem getD_set_ne2 {α : Type} {l : List α} {i j : Nat} {x d : α}
    (h : j ≠ i) : (l.set i x).getD j d = l.getD j d := by
  rw [List.getD_eq_getElem?_getD, List.getElem?_set_ne (fun he => h he.symm),
    ← List.getD_eq_getElem?_getD]

/-- Two trees with equal fields are equal. -/
theorem kt_ext {a b : KeywordTree} (h1 : a.states = b.states)
    (h2 : a.counter = b.counter) (h3 : a.finalized = b.finalized)
    (h4 : a.case_insensitive = b.case_insensitive) : a = b := by
  cases a
  cases b
  rw [KeywordTree.mk.injEq]
  exact ⟨h1, h2, h3, h4⟩

/-- The child-pushing fold of `__getstate__` only adds entries. -/
theorem gsfold_sup (a : List (Option SerState)) :
    ∀ (cs stk : List Nat) (x : Nat), x ∈ stk →
      x ∈ cs.foldl (fun stk ch =>
        if a.length ≤ ch ∨ a.getD ch none = none then ch :: stk else stk) stk := by
  intro cs
  induction cs with
  | nil =>
    intro stk x hx
    exact hx
  | cons ch cs ih =>
    intro stk x hx
    rw [List.foldl_cons]
    apply ih
    by_cases hc : a.length ≤ ch ∨ a.getD ch none = none
    · rw [if_pos hc]
      exact List.mem_cons_of_mem _ hx
    · rw [if_neg hc]
      exact hx

/-- Everything on the final stack came from the initial stack or the list. -/
theorem gsfold_mem (a : List (Option SerState)) :
    ∀ (cs stk : List Nat) (x : Nat),
      x ∈ cs.foldl (fun stk ch =>
        if a.length ≤ ch ∨ a.getD ch none = none then ch :: stk else stk) stk →
      x ∈ stk ∨ x ∈ cs := by
  intro cs
  induction cs with
  | nil =>
    intro stk x hx
    exact Or.inl hx
  | cons ch cs ih =>
    intro stk x hx
    rw [List.foldl_cons] at hx
    rcases ih _ x hx with h1 | h1
    · by_cases hc : a.length ≤ ch ∨ a.getD ch none = none
      · rw [if_pos hc] at h1
        rcases List.mem_cons.mp h1 with rfl | h2
        · exact Or.inr (List.mem_cons_self ..)
        · exact Or.inl h2
      · rw [if_neg hc] at h1
        exact Or.inl h1
    · exact Or.inr (List.mem_cons_of_mem _ h1)

/-- Every listed child ends up either already stored or on the stack. -/
theorem gsfold_covers (a : List (Option SerState)) :
    ∀ (cs stk : List Nat) (ch : Nat), ch ∈ cs →
      a.getD ch none ≠ none ∨
      ch ∈ cs.foldl (fun stk ch =>
        if a.length ≤ ch ∨ a.getD ch none = none then ch :: stk else stk) stk := by
  intro cs
  induction cs with
  | nil =>
    intro stk ch hch
    exact absurd hch (List.not_mem_nil ch)
  | cons ch2 cs ih =>
    intro stk ch hch
    rw [List.foldl_cons]
    rcases List.mem_cons.mp hch with rfl | h2
    · by_cases hc : a.length ≤ ch ∨ a.getD ch none = none
      · rw [if_pos hc]
        exact Or.inr (gsfold_sup a cs (ch :: stk) ch (List.mem_cons_self ..))
      · exact Or.inl (not_or.mp hc).2
    · exact ih _ ch h2

/-- Partial correctness of the `__getstate__` work list: a completed run fills
every slot with the serialization of its node. -/
theorem gsLoop_spec {t : KeywordTree} (hF : FinInv t) :
    ∀ (fuel : Nat) (acc : List (Option SerState)) (todo : List Nat)
      (sl : List (Option SerState)),
    acc.length = t.states.length →
    (∀ i, i < t.states.length →
      acc.getD i none = none ∨ acc.getD i none = some (serOf t i)) →
    (∀ x, x ∈ todo → x < t.states.length) →
    (∀ i, i < t.states.length → acc.getD i none ≠ none →
      ∀ c j, TreeEdge t i c j → acc.getD j none ≠ none ∨ j ∈ todo) →
    (acc.getD 0 none ≠ none ∨ 0 ∈ todo) →
    gsLoop t fuel acc todo = some sl →
    sl.length = t.states.length ∧
    (∀ i, i < t.states.length → sl.getD i none = some (serOf t i)) := by
  intro fuel
  induction fuel with
  | zero =>
    intro acc todo sl _ _ _ _ _ h
    exact Option.noConfusion h
  | succ fuel ih =>
    intro acc todo sl hlen hval htodo hclosed h0 hrun
    cases todo with
    | nil =>
      replace hrun : some acc = some sl := hrun
      obtain rfl : acc = sl := Option.some_injective _ hrun
      refine ⟨hlen, ?_⟩
      have hfill : ∀ i, i < t.states.length → acc.getD i none ≠ none := by
        intro i
        induction i using Nat.strong_induction_on with
        | _ i ih2 =>
          intro hiN
          by_cases hi0 : i = 0
          · rw [hi0]
            rcases h0 with h | h
            · exact h
            · exact absurd h (List.not_mem_nil 0)
          · obtain ⟨p, c, hp, hplt, hc, -⟩ := hF.gie.st.parent_lt i hiN hi0
            have hpN := Nat.lt_trans hplt hiN
            rcases hclosed p hpN (ih2 p hplt hpN) c i ⟨hiN, hi0, hp, hc⟩ with h | h
            · exact h
            · exact absurd h (List.not_mem_nil i)
      intro i hiN
      rcases hval i hiN with h | h
      · exact absurd h (hfill i hiN)
      · exact h
    | cons st rest =>
      have hstN : st < t.states.length := htodo st (List.mem_cons_self ..)
      replace hrun : (if st < acc.length then
          gsLoop t fuel (acc.set st (some (serOf t st)))
            (((getS t st).transitions.map (·.2)).foldl
              (fun stk ch =>
                if (acc.set st (some (serOf t st))).length ≤ ch ∨
                   (acc.set st (some (serOf t st))).getD ch none = none
                then ch :: stk else stk)
              rest)
        else none) = some sl := hrun
      rw [if_pos (by rw [hlen]; exact hstN)] at hrun
      have hlen1 : (acc.set st (some (serOf t st))).length = t.states.length := by
        rw [List.length_set]
        exact hlen
      have hstlt : st < acc.length := by rw [hlen]; exact hstN
      have hfilled1 : ∀ j, acc.getD j none ≠ none →
          (acc.set st (some (serOf t st))).getD j none ≠ none := by
        intro j hj
        by_cases hjst : j = st
        · rw [hjst, getD_set_self2 hstlt]
          simp
        · rw [getD_set_ne2 hjst]
          exact hj
      have hst1 : (acc.set st (some (serOf t st))).getD st none =
          some (serOf t st) := getD_set_self2 hstlt
      refine ih _ _ sl hlen1 ?_ ?_ ?_ ?_ hrun
      · intro i hiN
        by_cases hist : i = st
        · rw [hist, hst1]
          exact Or.inr rfl
        · rw [getD_set_ne2 hist]
          exact hval i hiN
      · intro x hx
        rcases gsfold_mem _ _ _ _ hx with h1 | h1
        · exact htodo x (List.mem_cons_of_mem _ h1)
        · obtain ⟨pr, hpr, rfl⟩ := List.mem_map.mp h1
          exact ((hF.gie.st.trans_wf st hstN).2 pr hpr).1
      · intro i hiN hifill c j hTE
        by_cases hist : i = st
        · obtain ⟨hjN, hj0, hjp, hjs⟩ := hTE
          obtain ⟨p, c2, hp, hplt, hsym2, hlkp⟩ := hF.gie.st.parent_lt j hjN hj0
          have hps : p = i := by
            rw [hjp] at hp
            exact (Option.some_injective _ hp).symm
          have hcc : c2 = c := by
            rw [hjs] at hsym2
            exact (Option.some_injective _ hsym2).symm
          rw [hps, hcc, hist] at hlkp
          have hjcs : j ∈ (getS t st).transitions.map (·.2) :=
            List.mem_map.mpr ⟨(c, j), tlookup_mem hlkp, rfl⟩
          exact gsfold_covers _ _ rest j hjcs
        · rw [getD_set_ne2 hist] at hifill
          rcases hclosed i hiN hifill c j hTE with h1 | h1
          · exact Or.inl (hfilled1 j h1)
          · rcases List.mem_cons.mp h1 with rfl | h2
            · exact Or.inl (by rw [hst1]; simp)
            · exact Or.inr (gsfold_sup _ _ _ j h2)
      · rcases h0 with h1 | h1
        · exact Or.inl (hfilled1 0 h1)
        · rcases List.mem_cons.mp h1 with rfl | h2
          · exact Or.inl (by rw [hst1]; simp)
          · exact Or.inr (gsfold_sup _ _ _ 0 h2)

/-- C8: on a built and finalized tree, a completed `__getstate__` export
followed by `__setstate__` into a fresh instance reconstructs the original
automaton exactly, hence `search_all` behaves identically on every text. -/
theorem C8_snapshot_roundtrip {ci : Bool} {kws : List (List Char)}
    {t' : KeywordTree} {snap : TreeSnapshot}
    (hrun : (buildTree ci kws).finalize = .ok (some t'))
    (hget : t'.getstate = some snap) :
    ∃ t2, KeywordTree.setstate snap = some t2 ∧ t2 = t' ∧
      ∀ text, t2.search_all text = t'.search_all text := by
  obtain ⟨hF, -, -⟩ := built_final hrun
  have hN := hF.gie.st.counter_eq
  replace hget : (gsLoop t' ((t'.states.length + 2) ^ 3)
      (List.replicate t'.counter none) [0]).map
      (fun sl => ({ case_insensitive := t'.case_insensitive,
                    finalized := t'.finalized, counter := t'.counter,
                    states := sl } : TreeSnapshot)) = some snap := hget
  cases hsl : gsLoop t' ((t'.states.length + 2) ^ 3)
      (List.replicate t'.counter none) [0] with
  | none =>
    rw [hsl] at hget
    exact Option.noConfusion hget
  | some sl =>
    rw [hsl] at hget
    replace hget : some ({ case_insensitive := t'.case_insensitive,
                           finalized := t'.finalized, counter := t'.counter,
                           states := sl } : TreeSnapshot) = some snap := hget
    obtain rfl : ({ case_insensitive := t'.case_insensitive,
                    finalized := t'.finalized, counter := t'.counter,
                    states := sl } : TreeSnapshot) = snap :=
      Option.some_injective _ hget
    have hrep : ∀ i, (List.replicate t'.counter
        (none : Option SerState)).getD i none = none := by
      intro i
      rw [List.getD_eq_getElem?_getD]
      by_cases hi : i < t'.counter
      · rw [List.getElem?_replicate, if_pos hi]
        rfl
      · rw [List.getElem?_eq_none (by rw [List.length_replicate]; omega)]
        rfl
    obtain ⟨hsllen, hslval⟩ := gsLoop_spec hF _ _ _ sl
      (by rw [List.length_replicate]; exact hN)
      (fun i _ => Or.inl (hrep i))
      (by
        intro x hx
        obtain rfl : x = 0 := by simpa using hx
        exact hF.gie.st.pos)
      (by intro i hiN hfill; exact absurd (hrep i) hfill)
      (Or.inr (by simp))
      hsl
    have hslval2 : ∀ (i : Nat) (h : i < sl.length), sl[i] = some (serOf t' i) := by
      intro i h
      have h2 := hslval i (by omega)
      rw [List.getD_eq_getElem?_getD, List.getElem?_eq_getElem h] at h2
      exact h2
    have hok : snapOk { case_insensitive := t'.case_insensitive,
                        finalized := t'.finalized, counter := t'.counter,
                        states := sl } = true := by
      unfold snapOk
      rw [Bool.and_eq_true]
      constructor
      · rw [List.all_eq_true]
        intro os hos
        obtain ⟨i, hi, hosi⟩ := List.mem_iff_getElem.mp hos
        have hi2 : i < sl.length := hi
        have hos2 : os = some (serOf t' i) := by rw [← hosi, hslval2 i hi2]
        subst hos2
        have hiN : i < t'.states.length := by omega
        show ((getS t' i).longest_strict_suffix.all
            (fun x => decide (x < sl.length)) &&
          (getS t' i).parent.all (fun x => decide (x < sl.length)) &&
          (getS t' i).transitions.all (fun pr => decide (pr.2 < sl.length))) = true
        rw [Bool.and_eq_true, Bool.and_eq_true]
        refine ⟨⟨?_, ?_⟩, ?_⟩
        · by_cases hi0 : i = 0
          · rw [hi0, (hF.gie.root_done.1 rfl).1, Option.all_some]
            exact decide_eq_true (by rw [hsllen]; exact hF.gie.st.pos)
          · obtain ⟨j, hj, hmax⟩ := hF.gie.set_max i hiN hi0 (hF.all_set i hiN)
            rw [hj, Option.all_some]
            exact decide_eq_true (by rw [hsllen]; exact hmax.1)
        · by_cases hi0 : i = 0
          · rw [hi0, hF.gie.st.root_parent]
            exact Option.all_none ..
          · obtain ⟨p, c2, hp, hplt, -, -⟩ := hF.gie.st.parent_lt i hiN hi0
            rw [hp, Option.all_some]
            exact decide_eq_true (by rw [hsllen]; exact Nat.lt_trans hplt hiN)
        · rw [List.all_eq_true]
          intro pr hpr
          exact decide_eq_true
            (by rw [hsllen]; exact ((hF.gie.st.trans_wf i hiN).2 pr hpr).1)
      · exact decide_eq_true (show 0 < sl.length by rw [hsllen]; exact hF.gie.st.pos)
    have hset : KeywordTree.setstate { case_insensitive := t'.case_insensitive,
                                       finalized := t'.finalized,
                                       counter := t'.counter, states := sl } =
        some { states := sl.map (fun os => (os.map deserOf).getD dfltState),
               counter := t'.counter, finalized := t'.finalized,
               case_insensitive := t'.case_insensitive } := by
      unfold KeywordTree.setstate
      rw [hok]
      rfl
    have hstates : sl.map (fun os => (os.map deserOf).getD dfltState) = t'.states := by
      apply List.ext_getElem
      · rw [List.length_map, hsllen]
      · intro i h1 h2
        rw [List.getElem_map, hslval2 i (by rw [List.length_map] at h1; exact h1)]
        show getS t' i = t'.states[i]
        unfold getS
        rw [List.getD_eq_getElem?_getD, List.getElem?_eq_getElem h2]
        rfl
    have ht2 : ({ states := sl.map (fun os => (os.map deserOf).getD dfltState),
                  counter := t'.counter, finalized := t'.finalized,
                  case_insensitive := t'.case_insensitive } : KeywordTree) = t' :=
      kt_ext hstates rfl rfl rfl
    refine ⟨_, hset, ht2, ?_⟩
    intro text
    rw [ht2]

/-- Witness for C8 at the finalized tree for keyword `"a"`. -/
theorem C8_witness :
    exFinTree.getstate = some c8snap ∧
    ∃ t2, KeywordTree.setstate c8snap = some t2 ∧ t2 = exFinTree ∧
      ∀ text, t2.search_all text = exFinTree.search_all text :=
  ⟨rfl, @C8_snapshot_roundtrip false [['a']] exFinTree c8snap rfl rfl⟩
end Ahocorapy
